import Mathlib

/-! # Fault simulator (`Fault_Simulator.c`): levelization, fault-free simulation
and deductive fault simulation

A shallow embedding of the C program, with the linking pass of `cread` and
`preprocessor`.  The global array `Node` is a list of
records, a pointer `NSTRUC *` into that array is the index of the cell it
points to, and every function takes the globals it reads and returns the
globals it writes.  A read or a write outside an allocated array, and a read
of a cell that was never assigned, is undefined behaviour in C and is
`none` here.
-/

set_option autoImplicit false

namespace FaultSim

/-! ## Data model -/

/-- The record `NSTRUC`.  `unodes` is the array of `fin` fanin pointers (so
`fin` is its length) and `dnodes` the array of `fout` fanout pointers, a
cell of which may still be `NULL`. -/
structure NSTRUC where
  indx : Nat
  num : Nat
  type : Nat
  unodes : List Nat
  dnodes : List (Option Nat)
  level : Int
  islevel : Bool
  node_value : Int
  L : List Int
deriving DecidableEq, Repr

/-- The global variables of the program that the modelled functions use:
`Nnodes` is the length of `Node` and `Npi` the length of `Pinput`. -/
structure Circuit where
  Node : List NSTRUC
  Pinput : List Nat
  Poutput : List Nat
  Maxlevel : Int
deriving DecidableEq, Repr

/-- The global `Nnodes`. -/
def Circuit.Nnodes (c : Circuit) : Nat := c.Node.length

/-- Gate type code `IPT` of `enum e_gtype`. -/
abbrev IPT : Nat := 0
/-- Gate type code `BRCH`. -/
abbrev BRCH : Nat := 1
/-- Gate type code `XOR`. -/
abbrev XOR : Nat := 2
/-- Gate type code `OR`. -/
abbrev OR : Nat := 3
/-- Gate type code `NOR`. -/
abbrev NOR : Nat := 4
/-- Gate type code `NOT`. -/
abbrev NOT : Nat := 5
/-- Gate type code `NAND`. -/
abbrev NAND : Nat := 6
/-- Gate type code `AND`. -/
abbrev AND : Nat := 7

/-- Result of running a loop that the program leaves only through `break`:
`ret` when it returned, `undef` on undefined behaviour, `fuelOut` when the
given number of iterations did not reach the `break`. -/
inductive Run (α : Type) where
  | ret : α → Run α
  | undef : Run α
  | fuelOut : Run α
deriving DecidableEq, Repr

/-- The loop `for (i = 0; i < n; i++) body(i)` on a state that
the body may leave undefined. -/
def forLoop {σ : Type} (body : Nat → σ → Option σ) : Nat → σ → Option σ
  | 0, s => some s
  | n + 1, s => (forLoop body n s).bind (body n)

/-! ## Levelization: `lev` -/

/-- The loop over the fanins of a gate in `lev`: `some (some maxlev)` when
every fanin is levelled (`correct` stays 1), `some none` when the loop
leaves through `break` with `correct = 0`. -/
def lev_fanins (Node : List NSTRUC) : List Nat → Int → Option (Option Int)
  | [], maxlev => some (some maxlev)
  | u :: us, maxlev =>
    match Node[u]? with
    | none => none
    | some un =>
      if un.islevel then
        lev_fanins Node us (if un.level ≥ maxlev then un.level else maxlev)
      else some none

/-- State of `lev` between two iterations: the node array, `Maxlevel` and the
local counter `sumnode`. -/
structure LevState where
  Node : List NSTRUC
  Maxlevel : Int
  sumnode : Nat
deriving DecidableEq, Repr

/-- Body of the `for` loop of `lev` for the node `Node[i]`. -/
def lev_visit (i : Nat) (s : LevState) : Option LevState :=
  match s.Node[i]? with
  | none => none
  | some np =>
    if np.islevel then some s
    else if np.type = 0 then
      some { s with Node := s.Node.set i { np with level := 0, islevel := true },
                    sumnode := s.sumnode + 1 }
    else if np.type = 1 then
      match np.unodes[0]? with
      | none => none
      | some u =>
        match s.Node[u]? with
        | none => none
        | some un =>
          if un.islevel then
            some { Node := s.Node.set i { np with level := un.level + 1, islevel := true },
                   sumnode := s.sumnode + 1,
                   Maxlevel := if un.level + 1 > s.Maxlevel then un.level + 1 else s.Maxlevel }
          else some s
    else
      match lev_fanins s.Node np.unodes 0 with
      | none => none
      | some none => some s
      | some (some maxlev) =>
        some { Node := s.Node.set i { np with level := maxlev + 1, islevel := true },
               sumnode := s.sumnode + 1,
               Maxlevel := if maxlev + 1 > s.Maxlevel then maxlev + 1 else s.Maxlevel }

/-- One pass of the `for` loop of `lev` over all nodes. -/
def lev_sweep (s : LevState) : Option LevState :=
  forLoop lev_visit s.Node.length s

/-- The `while (1)` loop of `lev`, left when `sumnode == Nnodes` after a
sweep; `fuel` bounds the number of sweeps. -/
def lev_loop : Nat → LevState → Run LevState
  | 0, _ => Run.fuelOut
  | fuel + 1, s =>
    match lev_sweep s with
    | none => Run.undef
    | some s' => if s'.sumnode = s'.Node.length then Run.ret s' else lev_loop fuel s'

/-- The function `lev`. -/
def lev (fuel : Nat) (c : Circuit) : Run Circuit :=
  match lev_loop fuel { Node := c.Node, Maxlevel := 0, sumnode := 0 } with
  | Run.ret s => Run.ret { c with Node := s.Node, Maxlevel := s.Maxlevel }
  | Run.undef => Run.undef
  | Run.fuelOut => Run.fuelOut

/-! ## Fault-free simulation: `fault_free_simulation` -/

/-- The C operator `!` on an `int`. -/
def lnot (v : Int) : Int := if v = 0 then 1 else 0

/-- The read `np->unodes[k]->node_value` inside a loop that is updating
`np->node_value` of `np = &Node[j]`, whose current value is `cur`: when the
fanin is the node itself the read sees `cur`. -/
def fanin_value (Node : List NSTRUC) (j : Nat) (cur : Int) (u : Nat) : Option Int :=
  if u = j then some cur else (Node[u]?).map (fun un => un.node_value)

/-- The loop `for (k = 0; k < np->fin; k++)` of a gate case of
`fault_free_simulation`; `upd cur v` is the value of `np->node_value`
after the body has read the fanin value `v`. -/
def ffs_fanins (upd : Int → Int → Int) (Node : List NSTRUC) (j : Nat) :
    List Nat → Int → Option Int
  | [], cur => some cur
  | u :: us, cur =>
    match fanin_value Node j cur u with
    | none => none
    | some v => ffs_fanins upd Node j us (upd cur v)

/-- The `switch (np->type)` of `fault_free_simulation` for `np = &Node[j]`:
the value `np->node_value` has after it. -/
def ffs_value (Node : List NSTRUC) (j : Nat) (np : NSTRUC) : Option Int :=
  match np.type with
  | 0 => some 1
  | 1 => (np.unodes[0]?).bind (fun u => (Node[u]?).map (fun un => un.node_value))
  | 2 => ffs_fanins (fun cur v => Int.xor v cur) Node j np.unodes 0
  | 3 => ffs_fanins (fun cur v => if v = 1 then 1 else cur) Node j np.unodes 0
  | 4 => ffs_fanins (fun cur v => if v = 1 then 0 else cur) Node j np.unodes 1
  | 5 => (np.unodes[0]?).bind (fun u => (Node[u]?).map (fun un => lnot un.node_value))
  | 6 => ffs_fanins (fun cur v => if v = 0 then 1 else cur) Node j np.unodes 0
  | 7 => ffs_fanins (fun cur v => if v = 0 then 0 else cur) Node j np.unodes 1
  | _ => some 2

/-- The first loop of `fault_free_simulation`:
`Pinput[i]->node_value = 0` for every primary input. -/
def ffs_inputs : List Nat → List NSTRUC → Option (List NSTRUC)
  | [], Node => some Node
  | p :: ps, Node =>
    match Node[p]? with
    | none => none
    | some np => ffs_inputs ps (Node.set p { np with node_value := 0 })

/-- Body of the loop over `j` of `fault_free_simulation` at level `i`. -/
def ffs_visit (i : Int) (j : Nat) (Node : List NSTRUC) : Option (List NSTRUC) :=
  match Node[j]? with
  | none => none
  | some np =>
    if np.level = i then
      (ffs_value Node j np).map (fun v => Node.set j { np with node_value := v })
    else some Node

/-- The loop `for (j = 0; j < Nnodes; j++)` of `fault_free_simulation` at
level `k + 1`. -/
def ffs_level (k : Nat) (Node : List NSTRUC) : Option (List NSTRUC) :=
  forLoop (ffs_visit ((k : Int) + 1)) Node.length Node

/-- The function `fault_free_simulation`: the primary inputs are set, then the
levels `1 .. Maxlevel` are evaluated in turn.  The array
`fault_free_output` it fills at the end is local and only printed. -/
def fault_free_simulation (c : Circuit) : Option Circuit :=
  match ffs_inputs c.Pinput c.Node with
  | none => none
  | some Node =>
    (forLoop ffs_level c.Maxlevel.toNat Node).map (fun Nd => { c with Node := Nd })

/-! ## Fault list operations: `union_op`, `intersaction_op`, `minus_op` -/

/-- The loop `for (i = 0; i < Nnodes; i++) z[i] = f(x[i], y[i])` into a fresh
array `z`; undefined when `x` or `y` has fewer than `n` cells or when `f`
leaves a cell of `z` unassigned. -/
def cellwise (f : Int → Int → Option Int) : Nat → List Int → List Int → Option (List Int)
  | 0, _, _ => some []
  | n + 1, a :: x, b :: y =>
    match f a b with
    | none => none
    | some c => (cellwise f n x y).map (fun z => c :: z)
  | _ + 1, _, _ => none

/-- One cell of `union_op`. -/
def union_cell (x y : Int) : Int :=
  if x = y then x
  else if x = 2 then y
  else if y = 2 then x
  else if x = 3 then 3
  else if y = 3 then 3
  else 3

/-- The function `union_op`. -/
def union_op (Nnodes : Nat) (x y : List Int) : Option (List Int) :=
  cellwise (fun a b => some (union_cell a b)) Nnodes x y

/-- One cell of `intersaction_op`: the chain of `if` statements, each of
which may overwrite `z[i]`; `none` when none of them assigned it. -/
def intersaction_cell (x y : Int) : Option Int :=
  if x = y then some x
  else
    let z : Option Int := none
    let z := if x = 3 ∧ y = 1 then some 1 else z
    let z := if x = 1 ∧ y = 3 then some 1 else z
    let z := if x = 3 ∧ y = 0 then some 0 else z
    let z := if x = 0 ∧ y = 2 then some 0 else z
    let z := if x = 2 ∧ y = 1 then some 2 else z
    let z := if x = 1 ∧ y = 2 then some 2 else z
    let z := if x = 2 ∧ y = 0 then some 2 else z
    let z := if x = 0 ∧ y = 2 then some 2 else z
    let z := if x = 2 ∧ y = 3 then some 2 else z
    let z := if x = 3 ∧ y = 2 then some 2 else z
    let z := if x = 2 ∧ y = 3 then some 2 else z
    let z := if x = 3 ∧ y = 2 then some 2 else z
    z

/-- The function `intersaction_op`. -/
def intersaction_op (Nnodes : Nat) (x y : List Int) : Option (List Int) :=
  cellwise intersaction_cell Nnodes x y

/-- One cell of `minus_op`. -/
def minus_cell (x y : Int) : Int := if x = y then 2 else x

/-- The function `minus_op`. -/
def minus_op (Nnodes : Nat) (x y : List Int) : Option (List Int) :=
  cellwise (fun a b => some (minus_cell a b)) Nnodes x y

/-! ## Deductive fault simulation -/

/-- The assignment `L[i] = v`. -/
def set_cell (L : List Int) (i : Nat) (v : Int) : Option (List Int) :=
  if i < L.length then some (L.set i v) else none

/-- The loop `for (i = 0; i < np->fin; i++) L2 = union_op(L2, np->unodes[i]->L)`
taken when no fanin is at the controlling value. -/
def union_fanins (Nnodes : Nat) (Node : List NSTRUC) : List Nat → List Int → Option (List Int)
  | [], L2 => some L2
  | u :: us, L2 =>
    match Node[u]? with
    | none => none
    | some un =>
      match union_op Nnodes L2 un.L with
      | none => none
      | some L2' => union_fanins Nnodes Node us L2'

/-- The loop over the fanins taken otherwise: a fanin whose value is `ctrl`
is intersected into `L1`, any other is united into `L2`. -/
def split_fanins (Nnodes : Nat) (Node : List NSTRUC) (ctrl : Int) :
    List Nat → List Int → List Int → Option (List Int × List Int)
  | [], L1, L2 => some (L1, L2)
  | u :: us, L1, L2 =>
    match Node[u]? with
    | none => none
    | some un =>
      if un.node_value = ctrl then
        match intersaction_op Nnodes L1 un.L with
        | none => none
        | some L1' => split_fanins Nnodes Node ctrl us L1' L2
      else
        match union_op Nnodes L2 un.L with
        | none => none
        | some L2' => split_fanins Nnodes Node ctrl us L1 L2'

/-- The common text of the cases `OR`, `NOR`, `NAND`, `AND` of
`fault_list_propogate` up to the assignment of `np->L`: they differ in the
output value `free` tested by the first `if` and in the fanin value `ctrl`
tested inside the loop. -/
def gate_list (Nnodes : Nat) (Node : List NSTRUC) (np : NSTRUC) (free ctrl : Int) :
    Option (List Int) :=
  let L1 := List.replicate Nnodes (3 : Int)
  let L2 := List.replicate Nnodes (2 : Int)
  if np.node_value = free then union_fanins Nnodes Node np.unodes L2
  else
    match split_fanins Nnodes Node ctrl np.unodes L1 L2 with
    | none => none
    | some (L1', L2') => minus_op Nnodes L1' L2'

/-- The new array `np->L` after `fault_list_propogate(np)`, `np = &Node[j]`,
with `Nnodes` the length of `Node`. -/
def propagate_list (Node : List NSTRUC) (np : NSTRUC) : Option (List Int) :=
  match np.type with
  | 0 => set_cell np.L np.indx (lnot np.node_value)
  | 1 =>
    match np.unodes[0]? with
    | none => none
    | some u =>
      match Node[u]? with
      | none => none
      | some un =>
        if Node.length ≤ un.L.length ∧ Node.length ≤ np.L.length then
          set_cell (un.L.take Node.length ++ np.L.drop Node.length) np.indx (lnot np.node_value)
        else none
  | 2 => some np.L
  | 3 => (gate_list Node.length Node np 0 1).bind (fun L => set_cell L np.indx (lnot np.node_value))
  | 4 => (gate_list Node.length Node np 1 1).bind (fun L => set_cell L np.indx (lnot np.node_value))
  | 5 => set_cell np.L np.indx (lnot np.node_value)
  | 6 => (gate_list Node.length Node np 0 0).bind (fun L => set_cell L np.indx (lnot np.node_value))
  | 7 => (gate_list Node.length Node np 1 0).bind (fun L => set_cell L np.indx (lnot np.node_value))
  | _ => some np.L

/-- The function `fault_list_propogate(&Node[j])`. -/
def fault_list_propogate (Node : List NSTRUC) (j : Nat) : Option (List NSTRUC) :=
  match Node[j]? with
  | none => none
  | some np => (propagate_list Node np).map (fun L => Node.set j { np with L := L })

/-- The first loop of `deductive_fault_simulation`: every list is a fresh
array of `Nnodes` cells holding 2. -/
def dfs_init (Node : List NSTRUC) : List NSTRUC :=
  Node.map (fun np => { np with L := List.replicate Node.length (2 : Int) })

/-- Body of the loop over `j` of `deductive_fault_simulation` at level `i`. -/
def dfs_visit (i : Int) (j : Nat) (Node : List NSTRUC) : Option (List NSTRUC) :=
  match Node[j]? with
  | none => none
  | some np => if np.level = i then fault_list_propogate Node j else some Node

/-- The loop `for (j = 0; j < Nnodes; j++)` of `deductive_fault_simulation`
at level `i`. -/
def dfs_level (i : Nat) (Node : List NSTRUC) : Option (List NSTRUC) :=
  forLoop (dfs_visit (i : Int)) Node.length Node

/-- The function `deductive_fault_simulation`: the levels `0 .. Maxlevel`
are propagated in turn. -/
def deductive_fault_simulation (c : Circuit) : Option Circuit :=
  (forLoop dfs_level (c.Maxlevel + 1).toNat (dfs_init c.Node)).map
    (fun Nd => { c with Node := Nd })

/-! ## Netlist predicates and observations -/

/-- The line `y` is a fanin of the line `x`. -/
def IsFanin (Node : List NSTRUC) (y x : Nat) : Prop :=
  ∃ np, Node[x]? = some np ∧ y ∈ np.unodes

/-- The fanin relation has no cycle. -/
def Acyclic (Node : List NSTRUC) : Prop :=
  ∀ x, ¬ Relation.TransGen (IsFanin Node) x x

/-- Every fanin pointer points into `Node`. -/
def FaninsValid (Node : List NSTRUC) : Prop :=
  ∀ np ∈ Node, ∀ u ∈ np.unodes, u < Node.length

/-- Every line that is not an `IPT` has at least one fanin. -/
def GatesHaveFanin (Node : List NSTRUC) : Prop :=
  ∀ np ∈ Node, np.type ≠ IPT → np.unodes ≠ []

/-- Every `BRCH` line has at least one fanin. -/
def BranchesHaveFanin (Node : List NSTRUC) : Prop :=
  ∀ np ∈ Node, np.type = BRCH → np.unodes ≠ []

/-- No line is marked as levelled. -/
def FlagsClear (Node : List NSTRUC) : Prop :=
  ∀ np ∈ Node, np.islevel = false

/-- The level of the line `x` (0 outside the array). -/
def levelOf (Node : List NSTRUC) (x : Nat) : Int :=
  match Node[x]? with
  | some np => np.level
  | none => 0

/-- The value of the line `x` (0 outside the array). -/
def valueOf (Node : List NSTRUC) (x : Nat) : Int :=
  match Node[x]? with
  | some np => np.node_value
  | none => 0

/-- The level `m` is the maximum of the levels of the lines `us`. -/
def IsMaxLevel (Node : List NSTRUC) (us : List Nat) (m : Int) : Prop :=
  (∃ u ∈ us, levelOf Node u = m) ∧ ∀ u ∈ us, levelOf Node u ≤ m

/-- The level equation as `lev` establishes it for the record `np`: an `IPT`
has level 0, a `BRCH` the level of its first fanin plus one, any other line
one more than the maximum of the levels of its fanins. -/
def LevelRule (Node : List NSTRUC) (np : NSTRUC) : Prop :=
  (np.type = IPT → np.level = 0) ∧
  (np.type = BRCH → ∃ u, np.unodes[0]? = some u ∧ np.level = levelOf Node u + 1) ∧
  (np.type ≠ IPT → np.type ≠ BRCH → ∃ m, IsMaxLevel Node np.unodes m ∧ np.level = 1 + m)

/-- The level equation as the specification words it: an `IPT` has level 0,
every other line one more than the maximum of the levels of its fanins. -/
def LevelSpec (Node : List NSTRUC) (np : NSTRUC) : Prop :=
  (np.type = IPT → np.level = 0) ∧
  (np.type ≠ IPT → ∃ m, IsMaxLevel Node np.unodes m ∧ np.level = 1 + m)

/-- A line with the static fields `indx`, `type`, `unodes`; the other fields
hold what `allocate` and `cread` leave in them, taken here as
cleared memory. -/
def line (indx type : Nat) (unodes : List Nat) : NSTRUC :=
  { indx := indx, num := indx, type := type, unodes := unodes, dnodes := [],
    level := 0, islevel := false, node_value := 0, L := [] }

/-- Every `IPT` line has no fanin. -/
def InputsHaveNoFanin (Node : List NSTRUC) : Prop :=
  ∀ np ∈ Node, np.type = IPT → np.unodes = []

/-- Every fanin of a line stands before it in the array. -/
def FaninsBefore (Node : List NSTRUC) : Prop :=
  ∀ p ∈ Node.enum, ∀ u ∈ p.2.unodes, u < p.1

instance (Node : List NSTRUC) : Decidable (FaninsValid Node) := by
  unfold FaninsValid; infer_instance

instance (Node : List NSTRUC) : Decidable (GatesHaveFanin Node) := by
  unfold GatesHaveFanin; infer_instance

instance (Node : List NSTRUC) : Decidable (BranchesHaveFanin Node) := by
  unfold BranchesHaveFanin; infer_instance

instance (Node : List NSTRUC) : Decidable (FlagsClear Node) := by
  unfold FlagsClear; infer_instance

instance (Node : List NSTRUC) : Decidable (InputsHaveNoFanin Node) := by
  unfold InputsHaveNoFanin; infer_instance

instance (Node : List NSTRUC) : Decidable (FaninsBefore Node) := by
  unfold FaninsBefore; infer_instance

/-- An inverter and a `BRCH` line with two fanins: the primary input and the
inverter. -/
def twoFaninBranch : Circuit :=
  { Node := [line 0 IPT [], line 1 NOT [0], line 2 BRCH [0, 1]],
    Pinput := [0], Poutput := [2], Maxlevel := 0 }

/-- The benchmark c17 (lines 1,2,3,6,7 are the primary inputs, 22 and 23 the
primary outputs), in file order. -/
def c17 : Circuit :=
  { Node := [line 0 IPT [], line 1 IPT [], line 2 IPT [], line 3 IPT [], line 4 IPT [],
      line 5 BRCH [2], line 6 BRCH [2], line 7 NAND [0, 5], line 8 NAND [6, 3],
      line 9 BRCH [8], line 10 BRCH [8], line 11 NAND [1, 9], line 12 BRCH [11],
      line 13 BRCH [11], line 14 NAND [10, 4], line 15 NAND [7, 12], line 16 NAND [13, 14]],
    Pinput := [0, 1, 2, 3, 4], Poutput := [15, 16], Maxlevel := 0 }

/-! ## The invariant of `lev` -/

/-- What holds of a record that `lev` has marked as levelled. -/
def LevDone (Node : List NSTRUC) (np : NSTRUC) : Prop :=
  0 ≤ np.level ∧
  (np.type = 0 → np.level = 0) ∧
  (np.type = 1 → ∃ u un, np.unodes[0]? = some u ∧ Node[u]? = some un ∧
      un.islevel = true ∧ np.level = un.level + 1) ∧
  (np.type ≠ 0 → np.type ≠ 1 →
    (∀ u ∈ np.unodes, ∃ un, Node[u]? = some un ∧ un.islevel = true ∧ un.level + 1 ≤ np.level) ∧
    (np.unodes = [] → np.level = 1) ∧
    (np.unodes ≠ [] → ∃ u ∈ np.unodes, ∃ un, Node[u]? = some un ∧ un.level + 1 = np.level))

/-- Invariant of the loops of `lev` started on the array `Node0`. -/
structure LevInv (Node0 : List NSTRUC) (s : LevState) : Prop where
  len : s.Node.length = Node0.length
  frame : ∀ (x : Nat) (np0 : NSTRUC), Node0[x]? = some np0 →
    ∃ np : NSTRUC, s.Node[x]? = some np ∧ np.type = np0.type ∧ np.unodes = np0.unodes
  count : s.sumnode = s.Node.countP (fun np => np.islevel)
  done : ∀ (x : Nat) (np : NSTRUC), s.Node[x]? = some np → np.islevel = true → LevDone s.Node np
  maxNonneg : 0 ≤ s.Maxlevel
  maxUpper : ∀ (x : Nat) (np : NSTRUC), s.Node[x]? = some np → np.islevel = true → np.level ≤ s.Maxlevel
  maxAttained : s.Maxlevel = 0 ∨
    ∃ (x : Nat) (np : NSTRUC), s.Node[x]? = some np ∧ np.islevel = true ∧ np.level = s.Maxlevel

/-! ## Level-ordered sweeps

Both simulators visit the lines level by level and replace the record of the
visited line; the definitions below state what such a sweep establishes. -/

/-- Body of the loop over `j` of a simulator at level `i`: the record of a
line at that level is replaced by `upd`. -/
def visitWith (upd : List NSTRUC → Nat → NSTRUC → Option NSTRUC) (i : Int) (j : Nat)
    (Node : List NSTRUC) : Option (List NSTRUC) :=
  match Node[j]? with
  | none => none
  | some np =>
    if np.level = i then (upd Node j np).map (fun np' => Node.set j np') else some Node

/-- Invariant of a sweep started on `Node0`, before the line `j` of level
`i` is visited: lines of a lower level and the lines of level `i` before `j`
satisfy `Q`, the others still hold their initial record. -/
structure SweepInv (Fr : NSTRUC → NSTRUC → Prop) (Q : List NSTRUC → Nat → NSTRUC → Prop)
    (Node0 : List NSTRUC) (i : Int) (j : Nat) (Node : List NSTRUC) : Prop where
  len : Node.length = Node0.length
  frame : ∀ (k : Nat) (np0 : NSTRUC), Node0[k]? = some np0 →
    ∃ np : NSTRUC, Node[k]? = some np ∧ Fr np0 np
  todo : ∀ (k : Nat) (np0 : NSTRUC), Node0[k]? = some np0 →
    ¬ (np0.level < i ∨ (np0.level = i ∧ k < j)) → Node[k]? = some np0
  done : ∀ (k : Nat) (np : NSTRUC), Node[k]? = some np →
    (np.level < i ∨ (np.level = i ∧ k < j)) → Q Node k np

/-- What a sweep needs of the update `upd`, of the relation `Fr` between a
record and its update, and of the property `Q` it establishes. -/
structure SweepHyp (upd : List NSTRUC → Nat → NSTRUC → Option NSTRUC)
    (Fr : NSTRUC → NSTRUC → Prop) (Q : List NSTRUC → Nat → NSTRUC → Prop)
    (base : Int) (Node0 : List NSTRUC) : Prop where
  frLevel : ∀ a b : NSTRUC, Fr a b → b.level = a.level ∧ b.unodes = a.unodes
  frRefl : ∀ a : NSTRUC, Fr a a
  lower : ∀ (k : Nat) (np0 : NSTRUC), Node0[k]? = some np0 →
    ∀ u ∈ np0.unodes, ∃ un0 : NSTRUC, Node0[u]? = some un0 ∧ un0.level < np0.level
  stable : ∀ (Node : List NSTRUC) (j : Nat) (npj npj' : NSTRUC) (k : Nat) (np : NSTRUC),
    Node.length = Node0.length → Node[j]? = some npj → Fr npj npj' → j ≠ k →
    j ∉ np.unodes → Node[k]? = some np → Q Node k np → Q (Node.set j npj') k np
  step : ∀ (Node : List NSTRUC) (j : Nat) (np : NSTRUC),
    Node.length = Node0.length →
    (∀ (k : Nat) (np0 : NSTRUC), Node0[k]? = some np0 →
      ∃ r : NSTRUC, Node[k]? = some r ∧ Fr np0 r) →
    Node0[j]? = some np → Node[j]? = some np → base ≤ np.level →
    (∀ u ∈ np.unodes, ∃ un : NSTRUC, Node[u]? = some un ∧ Q Node u un) →
    ∃ np', upd Node j np = some np' ∧ Fr np np' ∧ Q (Node.set j np') j np'

/-! ## Well-formed, levelized netlists and the specification's gate table -/

/-- The netlist is well formed: `indx` is the position of the record, the
type is one of the eight gate types, fanin pointers point into `Node`,
a `BRCH` and a `NOT` line have exactly one fanin, and `Pinput` points
into `Node` and lists every `IPT` line. -/
def WellFormed (c : Circuit) : Prop :=
  (∀ p ∈ c.Node.enum,
    p.2.indx = p.1 ∧ p.2.type ≤ 7 ∧ (∀ u ∈ p.2.unodes, u < c.Node.length) ∧
    (p.2.type = IPT → p.1 ∈ c.Pinput) ∧
    (p.2.type = BRCH ∨ p.2.type = NOT → p.2.unodes.length = 1)) ∧
  ∀ q ∈ c.Pinput, q < c.Node.length

/-- The netlist is levelized: an `IPT` line has level 0, any other line a
level of at least 1, every level is at most `Maxlevel`, and every fanin of a
line has a lower level than the line. -/
def Levelized (c : Circuit) : Prop :=
  ∀ p ∈ c.Node.enum,
    (p.2.type = IPT → p.2.level = 0) ∧ (p.2.type ≠ IPT → 1 ≤ p.2.level) ∧
    p.2.level ≤ c.Maxlevel ∧
    ∀ u ∈ p.2.unodes, ∀ un ∈ c.Node[u]?, un.level < p.2.level

instance (c : Circuit) : Decidable (WellFormed c) := by
  unfold WellFormed; infer_instance

instance (c : Circuit) : Decidable (Levelized c) := by
  unfold Levelized; infer_instance

/-- The Boolean function table of the specification: the value of a line of
the given type from the values of its fanins. -/
def gate_function (type : Nat) (vals : List Int) : Int :=
  if type = BRCH then vals.headD 0
  else if type = NOT then 1 - vals.headD 0
  else if type = AND then (if ∀ v ∈ vals, v = 1 then 1 else 0)
  else if type = NAND then (if ∀ v ∈ vals, v = 1 then 0 else 1)
  else if type = OR then (if ∃ v ∈ vals, v = 1 then 1 else 0)
  else if type = NOR then (if ∃ v ∈ vals, v = 1 then 0 else 1)
  else if type = XOR then vals.sum % 2
  else 0

/-- The value of the record `np` is 0 or 1 and, unless the line is an `IPT`,
it is the gate function of its type applied to the values of its fanins. -/
def ValueRule (Node : List NSTRUC) (np : NSTRUC) : Prop :=
  (np.node_value = 0 ∨ np.node_value = 1) ∧
  (np.type ≠ IPT → np.node_value = gate_function np.type (np.unodes.map (valueOf Node)))

/-- The record that `fault_free_simulation` stores for `Node[j]`. -/
def ffs_upd (Node : List NSTRUC) (j : Nat) (np : NSTRUC) : Option NSTRUC :=
  (ffs_value Node j np).map (fun v => { np with node_value := v })

/-- Relation between a record and the one `fault_free_simulation` stores. -/
def FfsFrame (a b : NSTRUC) : Prop := b = { a with node_value := b.node_value }

/-- What `fault_free_simulation` establishes for a record. -/
def FfsDone (Node : List NSTRUC) (_k : Nat) (np : NSTRUC) : Prop :=
  ValueRule Node np ∧ (np.type = IPT → np.node_value = 0)

/-- The facts about the static fields of a levelized well-formed netlist,
by position. -/
structure NetOK (Node : List NSTRUC) : Prop where
  indx : ∀ (k : Nat) (np : NSTRUC), Node[k]? = some np → np.indx = k
  typeLe : ∀ (k : Nat) (np : NSTRUC), Node[k]? = some np → np.type ≤ 7
  valid : ∀ (k : Nat) (np : NSTRUC), Node[k]? = some np → ∀ u ∈ np.unodes, u < Node.length
  single : ∀ (k : Nat) (np : NSTRUC), Node[k]? = some np →
    np.type = BRCH ∨ np.type = NOT → np.unodes.length = 1
  inputLevel : ∀ (k : Nat) (np : NSTRUC), Node[k]? = some np → np.type = IPT → np.level = 0
  gateLevel : ∀ (k : Nat) (np : NSTRUC), Node[k]? = some np → np.type ≠ IPT → 1 ≤ np.level
  lower : ∀ (k : Nat) (np : NSTRUC), Node[k]? = some np →
    ∀ u ∈ np.unodes, ∃ un : NSTRUC, Node[u]? = some un ∧ un.level < np.level

/-- The arrays hold the same netlist: same length and, by position, the same
`indx`, `type`, `unodes` and `level`. -/
def SameNet (Node Node' : List NSTRUC) : Prop :=
  Node'.length = Node.length ∧
  ∀ (k : Nat) (np : NSTRUC), Node[k]? = some np →
    ∃ np' : NSTRUC, Node'[k]? = some np' ∧ np'.indx = np.indx ∧ np'.type = np.type ∧
      np'.unodes = np.unodes ∧ np'.level = np.level

/-! ## Fault lists as sets -/

/-- The fault list of the line `x` (empty outside the array). -/
def faultList (Node : List NSTRUC) (x : Nat) : List Int :=
  match Node[x]? with
  | some np => np.L
  | none => []

/-- The cell `m` of the list `L` holds the fault of polarity `p` (0 for
stuck-at-0, 1 for stuck-at-1): the cell is `p` or it is 3, which stands for
both polarities; 2 stands for no fault. -/
def holdsAt (L : List Int) (m : Nat) (p : Int) : Prop :=
  L[m]? = some p ∨ L[m]? = some 3

/-- The fault `(k, p)` is in `faults(x)`. -/
def inFaults (Node : List NSTRUC) (x k : Nat) (p : Int) : Prop :=
  holdsAt (faultList Node x) k p

instance (L : List Int) (m : Nat) (p : Int) : Decidable (holdsAt L m p) := by
  unfold holdsAt; infer_instance

instance (Node : List NSTRUC) (x k : Nat) (p : Int) : Decidable (inFaults Node x k p) := by
  unfold inFaults; infer_instance

/-- The controlling value of a gate type: 0 for `AND` and `NAND`, 1 for `OR`
and `NOR`. -/
def controlling (type : Nat) : Int := if type = AND ∨ type = NAND then 0 else 1

/-- The output value of a gate none of whose fanins is at the controlling
value, which is the value the gate cases of `fault_list_propogate` test
first: 0 for `OR` and `NAND`, 1 for `NOR` and `AND`. -/
def freeValue (type : Nat) : Int := if type = OR ∨ type = NAND then 0 else 1

/-- The list has `n` cells and the cell `m` is 2 or the complement of the
value of the line `m`. -/
def Alpha (val : Nat → Int) (n : Nat) (L : List Int) : Prop :=
  L.length = n ∧ ∀ (m : Nat) (v : Int), L[m]? = some v → v = 2 ∨ v = lnot (val m)

/-- As `Alpha`, but a cell may also be 3. -/
def Alpha3 (val : Nat → Int) (n : Nat) (L : List Int) : Prop :=
  L.length = n ∧
  ∀ (m : Nat) (v : Int), L[m]? = some v → v = 3 ∨ v = 2 ∨ v = lnot (val m)

/-- The record that `fault_list_propogate` stores for `Node[j]`. -/
def dfs_upd (Node : List NSTRUC) (_j : Nat) (np : NSTRUC) : Option NSTRUC :=
  (propagate_list Node np).map (fun L => { np with L := L })

/-- Relation between a record and the one `fault_list_propogate` stores. -/
def DfsFrame (a b : NSTRUC) : Prop := b = { a with L := b.L }

/-- What `deductive_fault_simulation` establishes for a record: its list has
`Nnodes` cells over the alphabet and is what `fault_list_propogate` computes
in the final state from the freshly initialised list. -/
def DfsDone (Node : List NSTRUC) (_k : Nat) (np : NSTRUC) : Prop :=
  Alpha (valueOf Node) Node.length np.L ∧
  propagate_list Node { np with L := List.replicate Node.length (2 : Int) } = some np.L

/-- The constants of the four gate cases of `fault_list_propogate`: `free`
is the output value tested by the first `if`, `ctrl` the fanin value tested
inside the loop. -/
def GateCase (type : Nat) (free ctrl : Int) : Prop :=
  (type = OR ∧ free = 0 ∧ ctrl = 1) ∨ (type = NOR ∧ free = 1 ∧ ctrl = 1) ∨
  (type = NAND ∧ free = 0 ∧ ctrl = 0) ∨ (type = AND ∧ free = 1 ∧ ctrl = 0)

/-- The state `c2` is what fault-free simulation followed by deductive fault
simulation leaves of the netlist `c`: both return, the static fields are
those of `c`, every value obeys the value rule and every fault list is over
the alphabet and is what `fault_list_propogate` computes in the final
state. -/
structure Simulated (c c2 : Circuit) : Prop where
  runs : ∃ c1, fault_free_simulation c = some c1 ∧ deductive_fault_simulation c1 = some c2 ∧
    ∀ x : Nat, valueOf c2.Node x = valueOf c1.Node x
  same : SameNet c.Node c2.Node
  ok : NetOK c2.Node
  values : ∀ (k : Nat) (np : NSTRUC), c2.Node[k]? = some np → ValueRule c2.Node np
  inputs : ∀ (k : Nat) (np : NSTRUC), c2.Node[k]? = some np → np.type = IPT →
    np.node_value = 0
  lists : ∀ (k : Nat) (np : NSTRUC), c2.Node[k]? = some np → DfsDone c2.Node k np

/-! ## Example netlists -/

/-- The record `np` once `lev` has given it the level `l`. -/
def levelled (l : Int) (np : NSTRUC) : NSTRUC := { np with level := l, islevel := true }

/-- The benchmark c17 as `lev` leaves it. -/
def c17Levelized : Circuit :=
  { Node := [levelled 0 (line 0 IPT []), levelled 0 (line 1 IPT []),
      levelled 0 (line 2 IPT []), levelled 0 (line 3 IPT []), levelled 0 (line 4 IPT []),
      levelled 1 (line 5 BRCH [2]), levelled 1 (line 6 BRCH [2]),
      levelled 2 (line 7 NAND [0, 5]), levelled 2 (line 8 NAND [6, 3]),
      levelled 3 (line 9 BRCH [8]), levelled 3 (line 10 BRCH [8]),
      levelled 4 (line 11 NAND [1, 9]), levelled 5 (line 12 BRCH [11]),
      levelled 5 (line 13 BRCH [11]), levelled 4 (line 14 NAND [10, 4]),
      levelled 6 (line 15 NAND [7, 12]), levelled 6 (line 16 NAND [13, 14])],
    Pinput := [0, 1, 2, 3, 4], Poutput := [15, 16], Maxlevel := 6 }

/-- A primary input driving a chain of four inverters, levelized. -/
def inverterChain : Circuit :=
  { Node := [levelled 0 (line 0 IPT []), levelled 1 (line 1 NOT [0]),
      levelled 2 (line 2 NOT [1]), levelled 3 (line 3 NOT [2]), levelled 4 (line 4 NOT [3])],
    Pinput := [0], Poutput := [4], Maxlevel := 4 }

/-- A primary input driving one inverter, levelized. -/
def inverter : Circuit :=
  { Node := [levelled 0 (line 0 IPT []), levelled 1 (line 1 NOT [0])],
    Pinput := [0], Poutput := [1], Maxlevel := 1 }

/-- A 2-input `AND` (line 3) whose first fanin is an inverter of the primary
input 0 and whose second fanin is the primary input 1, levelized: with the
primary inputs at 0 the fanins of the `AND` have the values (1, 0). -/
def andOneZero : Circuit :=
  { Node := [levelled 0 (line 0 IPT []), levelled 0 (line 1 IPT []),
      levelled 1 (line 2 NOT [0]), levelled 2 (line 3 AND [2, 1])],
    Pinput := [0, 1], Poutput := [3], Maxlevel := 2 }

/-- A single primary input whose `node_value` holds the pattern value 1
before the simulation is run. -/
def onePrimaryInput : Circuit :=
  { Node := [{ levelled 0 (line 0 IPT []) with node_value := 1 }],
    Pinput := [0], Poutput := [], Maxlevel := 0 }

/-! ## The injection oracle of the specification -/

/-- The node array with the value of the line `k` set to `p`. -/
def clamp (k : Nat) (p : Int) (Node : List NSTRUC) : List NSTRUC :=
  match Node[k]? with
  | some np => Node.set k { np with node_value := p }
  | none => Node

/-- The oracle of the specification's injection agreement, in its words:
fault-free simulation re-run with the line `k` clamped to `p`.  The primary
inputs are set as `fault_free_simulation` sets them, the line `k` is given
the value `p`, and the levels are evaluated in turn without ever
re-evaluating the line `k`. -/
def ffs_clamped (k : Nat) (p : Int) (c : Circuit) : Option Circuit :=
  match ffs_inputs c.Pinput c.Node with
  | none => none
  | some Node =>
    (forLoop
      (fun lv Nd => forLoop
        (fun j Nd' => if j = k then some Nd' else ffs_visit ((lv : Int) + 1) j Nd')
        Nd.length Nd)
      c.Maxlevel.toNat (clamp k p Node)).map (fun Nd => { c with Node := Nd })

/-- The node array of `andOneZero` when `deductive_fault_simulation` calls
`fault_list_propogate` on the `AND` line 3: the values are set, the lines of
the levels 0 and 1 have their lists, line 3 its initial list. -/
def andOneZeroState : List NSTRUC :=
  [{ levelled 0 (line 0 IPT []) with node_value := 0, L := [1, 2, 2, 2] },
   { levelled 0 (line 1 IPT []) with node_value := 0, L := [2, 1, 2, 2] },
   { levelled 1 (line 2 NOT [0]) with node_value := 1, L := [2, 2, 0, 2] },
   { levelled 2 (line 3 AND [2, 1]) with node_value := 0, L := [2, 2, 2, 2] }]

/-! ## Fault list enumeration: `preprocessor` -/

/-- The record `FAULTLIST`. -/
structure FAULTLIST where
  indx : Nat
  s_a_0 : Bool
  s_a_1 : Bool
deriving DecidableEq, Repr

/-- The globals `CompleteFL` and `CollapsedFL` after `preprocessor`: a cell
of either array is `none` as long as nothing was assigned to it. -/
structure FaultLists where
  CompleteFL : List (Option FAULTLIST)
  CollapsedFL : List (Option FAULTLIST)
deriving DecidableEq, Repr

/-- Body of the loop of `preprocessor` for the line `i`, on the array
`CompleteFL` and the counter `Cpoints`. -/
def preprocessor_visit (Node : List NSTRUC) (i : Nat)
    (st : List (Option FAULTLIST) × Nat) : Option (List (Option FAULTLIST) × Nat) :=
  match Node[i]? with
  | none => none
  | some np =>
    if i < st.1.length then
      some (st.1.set i (some { indx := i, s_a_0 := true, s_a_1 := true }),
            if np.type = 0 ∨ np.type = 1 then st.2 + 1 else st.2)
    else none

/-- The function `preprocessor`: `CompleteFL` is allocated with `Nnodes`
cells and filled by the loop, `CollapsedFL` is allocated with `Cpoints`
cells, and the function ends there. -/
def preprocessor (c : Circuit) : Option FaultLists :=
  (forLoop (preprocessor_visit c.Node) c.Node.length
      (List.replicate c.Node.length none, 0)).map
    (fun st => { CompleteFL := st.1, CollapsedFL := List.replicate st.2 none })

/-- The faults a fault list represents, as pairs of a line and a polarity
(0 for stuck-at-0, 1 for stuck-at-1); an unassigned cell represents none. -/
def representedFaults (fl : List (Option FAULTLIST)) : List (Nat × Int) :=
  fl.flatMap (fun cell =>
    match cell with
    | none => []
    | some f => (if f.s_a_0 then [(f.indx, (0 : Int))] else []) ++
                (if f.s_a_1 then [(f.indx, (1 : Int))] else []))

/-- The line is a checkpoint: its type is `IPT` or `BRCH`. -/
def isCheckpoint (np : NSTRUC) : Bool := np.type = IPT ∨ np.type = BRCH

/-- Every `BRCH` line has exactly one fanin. -/
def BranchesSingle (Node : List NSTRUC) : Prop :=
  ∀ np ∈ Node, np.type = BRCH → np.unodes.length = 1

instance (Node : List NSTRUC) : Decidable (BranchesSingle Node) := by
  unfold BranchesSingle; infer_instance

/-- The fanin relation has a cycle. -/
def HasCycle (Node : List NSTRUC) : Prop :=
  ∃ x, Relation.TransGen (IsFanin Node) x x

/-- A primary input and an `AND` gate and an inverter that feed each
other. -/
def gateLoop : Circuit :=
  { Node := [line 0 IPT [], line 1 AND [0, 2], line 2 NOT [1]],
    Pinput := [0], Poutput := [2], Maxlevel := 0 }

/-- Two primary inputs and their `XOR` (line 2), levelized. -/
def xorGate : Circuit :=
  { Node := [levelled 0 (line 0 IPT []), levelled 0 (line 1 IPT []),
      levelled 1 (line 2 XOR [0, 1])],
    Pinput := [0, 1], Poutput := [2], Maxlevel := 1 }

/-- State of `lev` after `k` executions of the body of its `while (1)` loop:
`k` sweeps, one after the other. -/
def lev_after : Nat → LevState → Option LevState
  | 0, s => some s
  | k + 1, s => (lev_sweep s).bind (lev_after k)

/-- The state in which `lev` enters its loop. -/
def lev_start (c : Circuit) : LevState :=
  { Node := c.Node, Maxlevel := 0, sumnode := 0 }

/-- The sweep from `t` to `t'` has levelled the line `x`. -/
def NewlyLevelled (t t' : LevState) (x : Nat) : Prop :=
  ∃ np np' : NSTRUC, t.Node[x]? = some np ∧ np.islevel = false ∧
    t'.Node[x]? = some np' ∧ np'.islevel = true

/-! ## The linking pass of `cread` -/

/-- The scan `k = 0; while (np->dnodes[k] != NULL) k++;` of `cread`: the
index of the first `NULL` slot of the array, `none` when the scan runs past
the end of the array. -/
def first_null : List (Option Nat) → Option Nat
  | [] => none
  | none :: _ => some 0
  | some _ :: ds => (first_null ds).map (fun k => k + 1)

/-- Body of the loop over `j` in the linking pass of `cread`, for the fanin
pointer `Node[i].unodes[j] = &Node[u]`: the first `NULL` slot of
`Node[u].dnodes` receives `&Node[i]`. -/
def link_fanin (i : Nat) (Node : List NSTRUC) (u : Nat) : Option (List NSTRUC) :=
  match Node[u]? with
  | none => none
  | some np =>
    match first_null np.dnodes with
    | none => none
    | some k => some (Node.set u { np with dnodes := np.dnodes.set k (some i) })

/-- The loop `for (j = 0; j < Node[i].fin; j++)` of the linking pass over the
fanin pointers of `Node[i]`; the pass never writes to an array `unodes`, so
the pointers are those read on entry. -/
def link_fanins (i : Nat) : List Nat → List NSTRUC → Option (List NSTRUC)
  | [], Node => some Node
  | u :: us, Node => (link_fanin i Node u).bind (link_fanins i us)

/-- Body of the loop `for (i = 0; i < Nnodes; i++)` of the linking pass. -/
def cread_link_visit (i : Nat) (Node : List NSTRUC) : Option (List NSTRUC) :=
  match Node[i]? with
  | none => none
  | some np => link_fanins i np.unodes Node

/-- The linking pass that ends `cread`. -/
def cread_link (Node : List NSTRUC) : Option (List NSTRUC) :=
  forLoop cread_link_visit Node.length Node

/-- The number of times the line `y` occurs in `unodes` of the line `x`. -/
def faninCount (Node : List NSTRUC) (x y : Nat) : Nat :=
  match Node[x]? with
  | some np => np.unodes.count y
  | none => 0

/-- The number of times the line `x` occurs in `dnodes` of the line `y`. -/
def fanoutCount (Node : List NSTRUC) (y x : Nat) : Nat :=
  match Node[y]? with
  | some np => np.dnodes.count (some x)
  | none => 0

/-- Every fanout slot is `NULL`, as the reading pass of `cread` leaves it. -/
def SlotsNull (Node : List NSTRUC) : Prop :=
  ∀ np ∈ Node, ∀ d ∈ np.dnodes, d = none

/-- The declared fanout count `fout` of every line is the number of fanin
pointers to the line in the whole netlist. -/
def FanoutDeclared (Node : List NSTRUC) : Prop :=
  ∀ p ∈ Node.enum, p.2.dnodes.length = (Node.flatMap (fun np => np.unodes)).count p.1

instance (Node : List NSTRUC) : Decidable (SlotsNull Node) := by
  unfold SlotsNull; infer_instance

instance (Node : List NSTRUC) : Decidable (FanoutDeclared Node) := by
  unfold FanoutDeclared; infer_instance

/-- The record `np` as the reading pass of `cread` leaves it for a line that
declares `fout` fanouts. -/
def declared (fout : Nat) (np : NSTRUC) : NSTRUC :=
  { np with dnodes := List.replicate fout none }

/-- The node array of the benchmark c17 before the linking pass. -/
def c17Read : List NSTRUC :=
  List.zipWith declared [1, 1, 2, 1, 1, 1, 1, 1, 2, 1, 1, 2, 1, 1, 1, 0, 0] c17.Node

/-- The linking pass on a list of fanin pointers `(i, u)`, each standing for
`&Node[u]` in `Node[i].unodes`, taken in the order of the list. -/
def link_refs : List (Nat × Nat) → List NSTRUC → Option (List NSTRUC)
  | [], Node => some Node
  | r :: R, Node => (link_fanin r.1 Node r.2).bind (link_refs R)

/-- The fanin pointers of the lines `0 .. n - 1`, in the order in which the
linking pass visits them. -/
def refsOf (Node : List NSTRUC) (n : Nat) : List (Nat × Nat) :=
  (List.range n).flatMap (fun i =>
    match Node[i]? with
    | some np => np.unodes.map (fun u => (i, u))
    | none => [])

/-! ## The alphabet of the fault list cells -/

/-- The codes of a fault list cell: 0 stands for the set {SA0}, 1 for
{SA1}, 2 for the empty set and 3 for {SA0, SA1}. -/
def IsCode (v : Int) : Prop := v = 0 ∨ v = 1 ∨ v = 2 ∨ v = 3

/-- The set that the code `v` stands for holds the fault of polarity `p`
(0 for stuck-at-0, 1 for stuck-at-1). -/
def codeHas (v p : Int) : Prop := v = p ∨ v = 3

/-- An array of `n` cells over the alphabet. -/
def Codes (n : Nat) (L : List Int) : Prop := L.length = n ∧ ∀ v ∈ L, IsCode v

/-- The pairs of codes for which no statement of `intersaction_op` assigns
`z[i]`. -/
def Unassigned (a b : Int) : Prop := (a = 0 ∧ b = 3) ∨ (a = 0 ∧ b = 1) ∨ (a = 1 ∧ b = 0)

instance (v : Int) : Decidable (IsCode v) := by
  unfold IsCode; infer_instance

instance (v p : Int) : Decidable (codeHas v p) := by
  unfold codeHas; infer_instance

instance (n : Nat) (L : List Int) : Decidable (Codes n L) := by
  unfold Codes; infer_instance

instance (a b : Int) : Decidable (Unassigned a b) := by
  unfold Unassigned; infer_instance

/-- The state in which `deductive_fault_simulation` visits the line `j` in
its sweep of level `i`: the sweeps of the levels below `i` are complete and
the lines before `j` have been visited in the sweep of level `i`. -/
def dfs_before (c : Circuit) (i j : Nat) : Option (List NSTRUC) :=
  (forLoop dfs_level i (dfs_init c.Node)).bind (forLoop (dfs_visit (i : Int)) j)

/-- Every pair of cells of the arguments `x`, `y` of a call of
`intersaction_op` falls in a case that assigns the cell of the result. -/
def CallAssigned (n : Nat) (x y : List Int) : Prop :=
  ∀ m : Nat, m < n → ∃ a b c : Int, x[m]? = some a ∧ y[m]? = some b ∧ ¬ Unassigned a b ∧
    intersaction_cell a b = some c

/-! ## Theorems -/

/-! ### Loops -/

theorem forLoop_inv {σ : Type} (body : Nat → σ → Option σ) (P : Nat → σ → Prop)
    (n : Nat) (s : σ) (h0 : P 0 s)
    (hstep : ∀ i t, i < n → P i t → ∃ t', body i t = some t' ∧ P (i + 1) t') :
    ∃ t, forLoop body n s = some t ∧ P n t := by
  induction n with
  | zero => exact ⟨s, rfl, h0⟩
  | succ n ih =>
    obtain ⟨t, ht, hP⟩ := ih (fun i t hi => hstep i t (Nat.lt_succ_of_lt hi))
    obtain ⟨t', ht', hP'⟩ := hstep n t (Nat.lt_succ_self n) hP
    exact ⟨t', by simp [forLoop, ht, ht'], hP'⟩

/-! ### Levelization -/

theorem LevDone.stable {Node Node' : List NSTRUC} {np : NSTRUC} (h : LevDone Node np)
    (hk : ∀ (k : Nat) (r : NSTRUC), Node[k]? = some r → r.islevel = true → Node'[k]? = some r) :
    LevDone Node' np := by
  obtain ⟨h0, h1, h2, h3⟩ := h
  refine ⟨h0, h1, ?_, ?_⟩
  · intro ht
    obtain ⟨u, un, hu, hun, hl, he⟩ := h2 ht
    exact ⟨u, un, hu, hk u un hun hl, hl, he⟩
  · intro ht0 ht1
    obtain ⟨ha, hb, hc⟩ := h3 ht0 ht1
    refine ⟨?_, hb, ?_⟩
    · intro u hu
      obtain ⟨un, hun, hl, he⟩ := ha u hu
      exact ⟨un, hk u un hun hl, hl, he⟩
    · intro hne
      obtain ⟨u, hu, un, hun, he⟩ := hc hne
      obtain ⟨un', hun', hl', _⟩ := ha u hu
      have : un' = un := by rw [hun'] at hun; exact Option.some.inj hun
      subst this
      exact ⟨u, hu, un', hk u un' hun' hl', he⟩

theorem lev_fanins_total (Node : List NSTRUC) (us : List Nat) (m0 : Int)
    (hv : ∀ u ∈ us, u < Node.length) : ∃ r, lev_fanins Node us m0 = some r := by
  induction us generalizing m0 with
  | nil => exact ⟨_, rfl⟩
  | cons u us ih =>
    have hu : u < Node.length := hv u (List.mem_cons_self _ _)
    obtain ⟨un, hun⟩ : ∃ un, Node[u]? = some un := ⟨Node[u], List.getElem?_eq_getElem hu⟩
    simp only [lev_fanins, hun]
    split
    · exact ih _ (fun v hv' => hv v (List.mem_cons_of_mem _ hv'))
    · exact ⟨_, rfl⟩

theorem lev_fanins_ready (Node : List NSTRUC) (us : List Nat) (m0 : Int)
    (hv : ∀ u ∈ us, ∃ un, Node[u]? = some un ∧ un.islevel = true) :
    ∃ m, lev_fanins Node us m0 = some (some m) := by
  induction us generalizing m0 with
  | nil => exact ⟨_, rfl⟩
  | cons u us ih =>
    obtain ⟨un, hun, hl⟩ := hv u (List.mem_cons_self _ _)
    simp only [lev_fanins, hun, hl, if_true]
    exact ih _ (fun v hv' => hv v (List.mem_cons_of_mem _ hv'))

theorem lev_fanins_some (Node : List NSTRUC) (us : List Nat) (m0 m : Int)
    (h : lev_fanins Node us m0 = some (some m)) :
    (∀ u ∈ us, ∃ un, Node[u]? = some un ∧ un.islevel = true ∧ un.level ≤ m) ∧ m0 ≤ m ∧
    (m = m0 ∨ ∃ u ∈ us, ∃ un, Node[u]? = some un ∧ un.level = m) := by
  induction us generalizing m0 with
  | nil =>
    simp only [lev_fanins, Option.some.injEq] at h
    subst h
    exact ⟨by simp, le_refl _, Or.inl rfl⟩
  | cons u us ih =>
    cases hun : Node[u]? with
    | none => simp [lev_fanins, hun] at h
    | some un =>
      simp only [lev_fanins, hun] at h
      by_cases hl : un.islevel = true
      · simp only [hl, if_true] at h
        obtain ⟨ha, hb, hc⟩ := ih _ h
        refine ⟨?_, ?_, ?_⟩
        · intro v hv
          rcases List.mem_cons.mp hv with rfl | hv
          · refine ⟨un, hun, hl, ?_⟩
            split at hb <;> omega
          · exact ha v hv
        · split at hb <;> omega
        · rcases hc with hc | ⟨v, hv, vn, hvn, he⟩
          · by_cases hge : un.level ≥ m0
            · simp only [hge, if_true] at hc
              exact Or.inr ⟨u, List.mem_cons_self _ _, un, hun, hc.symm⟩
            · simp only [hge, if_false] at hc
              exact Or.inl hc
          · exact Or.inr ⟨v, List.mem_cons_of_mem _ hv, vn, hvn, he⟩
      · simp [hl] at h

theorem set_keeps_levelled {Node : List NSTRUC} {i : Nat} {np : NSTRUC} (np' : NSTRUC)
    (hnp : Node[i]? = some np) (hl : np.islevel = false) :
    ∀ (k : Nat) (r : NSTRUC), Node[k]? = some r → r.islevel = true →
      (Node.set i np')[k]? = some r := by
  intro k r hr hrl
  have hne : i ≠ k := by
    rintro rfl
    rw [hnp] at hr
    have := Option.some.inj hr
    subst this
    rw [hl] at hrl
    exact Bool.noConfusion hrl
  rw [List.getElem?_set_ne hne]
  exact hr

theorem LevInv.mark {Node0 : List NSTRUC} {s : LevState} (inv : LevInv Node0 s)
    {i : Nat} {np : NSTRUC} (hnp : s.Node[i]? = some np) (hl : np.islevel = false)
    (l M : Int) (hdone : LevDone s.Node { np with level := l, islevel := true })
    (hM1 : s.Maxlevel ≤ M) (hM2 : l ≤ M) (hM3 : M = s.Maxlevel ∨ M = l) :
    LevInv Node0 { Node := s.Node.set i { np with level := l, islevel := true },
                   Maxlevel := M, sumnode := s.sumnode + 1 } := by
  have hi : i < s.Node.length := by
    rcases Nat.lt_or_ge i s.Node.length with h | h
    · exact h
    · rw [List.getElem?_eq_none h] at hnp
      exact Option.noConfusion hnp
  have hget : s.Node[i] = np := by
    rw [List.getElem?_eq_getElem hi] at hnp
    exact Option.some.inj hnp
  have hkeep := set_keeps_levelled { np with level := l, islevel := true } hnp hl
  refine ⟨?_, ?_, ?_, ?_, ?_, ?_, ?_⟩
  · simp [inv.len]
  · intro x np0 hx
    obtain ⟨r, hr, ht, hu⟩ := inv.frame x np0 hx
    by_cases hxi : i = x
    · subst hxi
      rw [hnp] at hr
      have := Option.some.inj hr
      subst this
      exact ⟨{ np with level := l, islevel := true }, List.getElem?_set_self hi, ht, hu⟩
    · exact ⟨r, by rw [List.getElem?_set_ne hxi]; exact hr, ht, hu⟩
  · show s.sumnode + 1 = _
    rw [List.countP_set _ _ _ _ hi, hget, inv.count]
    simp [hl]
  · intro x r hr hrl
    show LevDone (s.Node.set i _) r
    by_cases hxi : i = x
    · subst hxi
      rw [List.getElem?_set_self hi] at hr
      have := Option.some.inj hr
      subst this
      exact hdone.stable hkeep
    · rw [List.getElem?_set_ne hxi] at hr
      exact (inv.done x r hr hrl).stable hkeep
  · exact le_trans inv.maxNonneg hM1
  · intro x r hr hrl
    show r.level ≤ M
    by_cases hxi : i = x
    · subst hxi
      rw [List.getElem?_set_self hi] at hr
      have := Option.some.inj hr
      subst this
      exact hM2
    · rw [List.getElem?_set_ne hxi] at hr
      exact le_trans (inv.maxUpper x r hr hrl) hM1
  · show M = 0 ∨ ∃ (x : Nat) (r : NSTRUC), (s.Node.set i _)[x]? = some r ∧ r.islevel = true ∧ r.level = M
    rcases hM3 with hM | hM
    · rcases inv.maxAttained with h0 | ⟨x, r, hr, hrl, he⟩
      · exact Or.inl (hM.trans h0)
      · exact Or.inr ⟨x, r, hkeep x r hr hrl, hrl, he.trans hM.symm⟩
    · exact Or.inr ⟨i, _, List.getElem?_set_self hi, rfl, hM.symm⟩

theorem getElem?_of_lt {α : Type} (l : List α) (i : Nat) (h : i < l.length) :
    ∃ a, l[i]? = some a ∧ a ∈ l :=
  ⟨l[i], List.getElem?_eq_getElem h, List.getElem_mem h⟩

theorem lt_of_getElem?_some {α : Type} {l : List α} {i : Nat} {a : α} (h : l[i]? = some a) :
    i < l.length := by
  rcases Nat.lt_or_ge i l.length with h' | h'
  · exact h'
  · rw [List.getElem?_eq_none h'] at h
    exact Option.noConfusion h

theorem branches_of_gates {Node : List NSTRUC} (hg : GatesHaveFanin Node) :
    BranchesHaveFanin Node :=
  fun np hnp ht => hg np hnp (by rw [ht]; decide)

theorem lev_visit_eq {s : LevState} {i : Nat} {np : NSTRUC} (hnp : s.Node[i]? = some np) :
    lev_visit i s =
      if np.islevel then some s
      else if np.type = 0 then
        some { s with Node := s.Node.set i { np with level := 0, islevel := true },
                      sumnode := s.sumnode + 1 }
      else if np.type = 1 then
        match np.unodes[0]? with
        | none => none
        | some u =>
          match s.Node[u]? with
          | none => none
          | some un =>
            if un.islevel then
              some { Node := s.Node.set i { np with level := un.level + 1, islevel := true },
                     sumnode := s.sumnode + 1,
                     Maxlevel := if un.level + 1 > s.Maxlevel then un.level + 1 else s.Maxlevel }
            else some s
      else
        match lev_fanins s.Node np.unodes 0 with
        | none => none
        | some none => some s
        | some (some maxlev) =>
          some { Node := s.Node.set i { np with level := maxlev + 1, islevel := true },
                 sumnode := s.sumnode + 1,
                 Maxlevel := if maxlev + 1 > s.Maxlevel then maxlev + 1 else s.Maxlevel } := by
  unfold lev_visit
  simp only [hnp]

theorem lev_visit_spec {Node0 : List NSTRUC} (hv : FaninsValid Node0)
    (hg : BranchesHaveFanin Node0) (s : LevState) (inv : LevInv Node0 s) (i : Nat)
    (hi : i < Node0.length) :
    ∃ s', lev_visit i s = some s' ∧ LevInv Node0 s' ∧
      (∀ k : Nat, k ≠ i → s'.Node[k]? = s.Node[k]?) ∧
      (∀ (k : Nat) (r : NSTRUC), s.Node[k]? = some r → r.islevel = true →
        s'.Node[k]? = some r) ∧
      s.sumnode ≤ s'.sumnode ∧
      (∀ np : NSTRUC, s.Node[i]? = some np → np.islevel = false →
        (∀ u ∈ np.unodes, ∃ un : NSTRUC, s.Node[u]? = some un ∧ un.islevel = true) →
        s.sumnode < s'.sumnode) := by
  obtain ⟨np0, hnp0, hmem0⟩ := getElem?_of_lt Node0 i hi
  obtain ⟨np, hnp, htype, hun⟩ := inv.frame i np0 hnp0
  have hvalid : ∀ u ∈ np.unodes, u < s.Node.length := by
    intro u hu
    rw [inv.len]
    rw [hun] at hu
    exact hv np0 hmem0 u hu
  have hfan : np.type = 1 → np.unodes ≠ [] := by
    intro h
    rw [hun]
    rw [htype] at h
    exact hg np0 hmem0 h
  have hsame : ∀ t : LevState, t = s →
      ∃ s', some t = some s' ∧ LevInv Node0 s' ∧
      (∀ k : Nat, k ≠ i → s'.Node[k]? = s.Node[k]?) ∧
      (∀ (k : Nat) (r : NSTRUC), s.Node[k]? = some r → r.islevel = true →
        s'.Node[k]? = some r) ∧
      s.sumnode ≤ s'.sumnode := by
    intro t ht
    subst ht
    exact ⟨t, rfl, inv, fun _ _ => rfl, fun _ _ h _ => h, le_refl _⟩
  have hmark : ∀ (l M : Int), LevDone s.Node { np with level := l, islevel := true } →
      np.islevel = false → s.Maxlevel ≤ M → l ≤ M → (M = s.Maxlevel ∨ M = l) →
      ∃ s', some ({ Node := s.Node.set i { np with level := l, islevel := true },
                    Maxlevel := M, sumnode := s.sumnode + 1 } : LevState) = some s' ∧
      LevInv Node0 s' ∧
      (∀ k : Nat, k ≠ i → s'.Node[k]? = s.Node[k]?) ∧
      (∀ (k : Nat) (r : NSTRUC), s.Node[k]? = some r → r.islevel = true →
        s'.Node[k]? = some r) ∧
      s.sumnode ≤ s'.sumnode ∧
      (∀ np : NSTRUC, s.Node[i]? = some np → np.islevel = false →
        (∀ u ∈ np.unodes, ∃ un : NSTRUC, s.Node[u]? = some un ∧ un.islevel = true) →
        s.sumnode < s'.sumnode) := by
    intro l M hd hl h1 h2 h3
    refine ⟨_, rfl, inv.mark hnp hl l M hd h1 h2 h3, ?_, ?_, ?_, ?_⟩
    · intro k hk
      exact List.getElem?_set_ne (Ne.symm hk)
    · exact set_keeps_levelled _ hnp hl
    · exact Nat.le_succ _
    · intro _ _ _ _
      exact Nat.lt_succ_self _
  rw [lev_visit_eq hnp]
  by_cases hl : np.islevel = true
  · rw [if_pos hl]
    obtain ⟨s', h1, h2, h3, h4, h5⟩ := hsame s rfl
    refine ⟨s', h1, h2, h3, h4, h5, ?_⟩
    intro r hr hrl
    rw [hnp] at hr
    have := Option.some.inj hr
    subst this
    rw [hl] at hrl
    exact Bool.noConfusion hrl
  · have hl' : np.islevel = false := by
      cases h : np.islevel
      · rfl
      · exact absurd h hl
    rw [if_neg hl]
    by_cases ht0 : np.type = 0
    · rw [if_pos ht0]
      refine hmark 0 s.Maxlevel ⟨le_refl _, fun _ => rfl, ?_, ?_⟩ hl' (le_refl _)
        inv.maxNonneg (Or.inl rfl)
      · intro h
        exact absurd (ht0.symm.trans h) (by decide)
      · intro h
        exact absurd ht0 h
    · rw [if_neg ht0]
      by_cases ht1 : np.type = 1
      · rw [if_pos ht1]
        obtain ⟨u, us, hus⟩ := List.exists_cons_of_ne_nil (hfan ht1)
        have hu0 : np.unodes[0]? = some u := by rw [hus]; simp
        have hmemu : u ∈ np.unodes := by rw [hus]; exact List.mem_cons_self _ _
        obtain ⟨un, hunode, _⟩ := getElem?_of_lt s.Node u (hvalid u hmemu)
        simp only [hu0, hunode]
        by_cases hul : un.islevel = true
        · rw [if_pos hul]
          have hnn : 0 ≤ un.level := (inv.done u un hunode hul).1
          refine hmark (un.level + 1) _ ⟨by show (0 : Int) ≤ un.level + 1; omega, ?_, ?_, ?_⟩ hl' ?_ ?_ ?_
          · intro h
            exact absurd h ht0
          · intro _
            exact ⟨u, un, hu0, hunode, hul, rfl⟩
          · intro _ h
            exact absurd ht1 h
          · split <;> omega
          · split <;> omega
          · split
            · exact Or.inr rfl
            · exact Or.inl rfl
        · rw [if_neg hul]
          obtain ⟨s', h1, h2, h3, h4, h5⟩ := hsame s rfl
          refine ⟨s', h1, h2, h3, h4, h5, ?_⟩
          intro r hr _ hready
          rw [hnp] at hr
          have := Option.some.inj hr
          subst this
          obtain ⟨un', hun', hl''⟩ := hready u hmemu
          rw [hunode] at hun'
          have := Option.some.inj hun'
          subst this
          exact absurd hl'' hul
      · rw [if_neg ht1]
        obtain ⟨r, hr⟩ := lev_fanins_total s.Node np.unodes 0 hvalid
        cases r with
        | none =>
          simp only [hr]
          obtain ⟨s', h1, h2, h3, h4, h5⟩ := hsame s rfl
          refine ⟨s', h1, h2, h3, h4, h5, ?_⟩
          intro r' hr' _ hready
          rw [hnp] at hr'
          have := Option.some.inj hr'
          subst this
          obtain ⟨m, hm⟩ := lev_fanins_ready s.Node np.unodes 0 hready
          rw [hr] at hm
          exact absurd hm (by simp)
        | some m =>
          simp only [hr]
          obtain ⟨ha, hb, hc⟩ := lev_fanins_some s.Node np.unodes 0 m hr
          refine hmark (m + 1) _ ⟨by show (0 : Int) ≤ m + 1; omega, ?_, ?_, ?_⟩ hl' ?_ ?_ ?_
          · intro h
            exact absurd h ht0
          · intro h
            exact absurd h ht1
          · intro _ _
            refine ⟨?_, ?_, ?_⟩
            · intro u hu
              obtain ⟨un, h1, h2, h3⟩ := ha u hu
              exact ⟨un, h1, h2, by show un.level + 1 ≤ m + 1; omega⟩
            · intro hnil
              show m + 1 = 1
              rcases hc with hc | ⟨u, hu, _⟩
              · omega
              · change u ∈ np.unodes at hu
                change np.unodes = [] at hnil
                rw [hnil] at hu
                exact absurd hu (List.not_mem_nil _)
            · intro hne
              change np.unodes ≠ [] at hne
              show ∃ u ∈ np.unodes, ∃ un : NSTRUC, s.Node[u]? = some un ∧ un.level + 1 = m + 1
              rcases hc with hc | ⟨u, hu, un, h1, h2⟩
              · obtain ⟨u, us, hus⟩ := List.exists_cons_of_ne_nil hne
                have hmemu : u ∈ np.unodes := by rw [hus]; exact List.mem_cons_self _ _
                obtain ⟨un, h1, h2, h3⟩ := ha u hmemu
                have hnn : 0 ≤ un.level := (inv.done u un h1 h2).1
                exact ⟨u, hmemu, un, h1, by omega⟩
              · exact ⟨u, hu, un, h1, by omega⟩
          · split <;> omega
          · split <;> omega
          · split
            · exact Or.inr rfl
            · exact Or.inl rfl

theorem lev_sweep_spec {Node0 : List NSTRUC} (hv : FaninsValid Node0)
    (hg : BranchesHaveFanin Node0) (s : LevState) (inv : LevInv Node0 s) :
    ∃ s', lev_sweep s = some s' ∧ LevInv Node0 s' ∧
      (∀ (k : Nat) (r : NSTRUC), s.Node[k]? = some r → r.islevel = true →
        s'.Node[k]? = some r) ∧
      s.sumnode ≤ s'.sumnode ∧
      (∀ (x : Nat) (np : NSTRUC), s.Node[x]? = some np → np.islevel = false →
        (∀ u ∈ np.unodes, ∃ un : NSTRUC, s.Node[u]? = some un ∧ un.islevel = true) →
        s.sumnode < s'.sumnode) := by
  have h := forLoop_inv lev_visit
    (fun j t => LevInv Node0 t ∧
      (∀ k : Nat, j ≤ k → t.Node[k]? = s.Node[k]?) ∧
      (∀ (k : Nat) (r : NSTRUC), s.Node[k]? = some r → r.islevel = true →
        t.Node[k]? = some r) ∧
      s.sumnode ≤ t.sumnode ∧
      (∀ (x : Nat) (np : NSTRUC), x < j → s.Node[x]? = some np → np.islevel = false →
        (∀ u ∈ np.unodes, ∃ un : NSTRUC, s.Node[u]? = some un ∧ un.islevel = true) →
        s.sumnode < t.sumnode))
    s.Node.length s
    ⟨inv, fun _ _ => rfl, fun _ _ h _ => h, le_refl _, fun x _ hx => absurd hx (Nat.not_lt_zero x)⟩
    (by
      rintro j t hj ⟨hinv, hrest, hkeep, hle, hprog⟩
      obtain ⟨t', h1, h2, h3, h4, h5, h6⟩ :=
        lev_visit_spec hv hg t hinv j (by rw [← inv.len]; exact hj)
      refine ⟨t', h1, h2, ?_, ?_, le_trans hle h5, ?_⟩
      · intro k hk
        rw [h3 k (by omega)]
        exact hrest k (by omega)
      · intro k r hr hrl
        exact h4 k r (hkeep k r hr hrl) hrl
      · intro x np hx hnp hl hready
        rcases Nat.lt_succ_iff_lt_or_eq.mp hx with hlt | heq
        · exact lt_of_lt_of_le (hprog x np hlt hnp hl hready) h5
        · subst heq
          have hnp' : t.Node[x]? = some np := by rw [hrest x (le_refl _)]; exact hnp
          refine lt_of_le_of_lt hle (h6 np hnp' hl ?_)
          intro u hu
          obtain ⟨un, hun, hul⟩ := hready u hu
          exact ⟨un, hkeep u un hun hul, hul⟩)
  obtain ⟨s', h1, h2, _, h4, h5, h6⟩ := h
  refine ⟨s', h1, h2, h4, h5, ?_⟩
  intro x np hnp hl hready
  exact h6 x np (lt_of_getElem?_some hnp) hnp hl hready

/-- In an acyclic netlist every non-empty set of lines has a line none of
whose fanins is in the set. -/
theorem acyclic_min {Node : List NSTRUC} (hv : FaninsValid Node) (hac : Acyclic Node)
    (S : Nat → Prop) (x : Nat) (hx : x < Node.length) (hS : S x) :
    ∃ y, y < Node.length ∧ S y ∧
      ∀ np : NSTRUC, Node[y]? = some np → ∀ u ∈ np.unodes, ¬ S u := by
  let r : Fin Node.length → Fin Node.length → Prop := fun a b => IsFanin Node a.val b.val
  haveI : IsIrrefl (Fin Node.length) (Relation.TransGen r) :=
    ⟨fun a h => hac a.val (Relation.TransGen.lift Fin.val (fun _ _ h' => h') h)⟩
  have hwf : WellFounded (Relation.TransGen r) :=
    Finite.wellFounded_of_trans_of_irrefl (Relation.TransGen r)
  have hwf' : WellFounded r :=
    Subrelation.wf (fun {a b} (h : r a b) => Relation.TransGen.single h) hwf
  obtain ⟨a, ha, hmin⟩ := hwf'.has_min { a : Fin Node.length | S a.val } ⟨⟨x, hx⟩, hS⟩
  refine ⟨a.val, a.isLt, ha, ?_⟩
  intro np hnp u hu hSu
  have hmem : np ∈ Node := List.getElem?_mem hnp
  have hul : u < Node.length := hv np hmem u hu
  exact hmin ⟨u, hul⟩ hSu ⟨np, hnp, hu⟩

theorem lev_loop_spec {Node0 : List NSTRUC} (hv : FaninsValid Node0)
    (hg : BranchesHaveFanin Node0) (hac : Acyclic Node0) :
    ∀ (fuel : Nat) (s : LevState), LevInv Node0 s → Node0.length - s.sumnode < fuel →
      ∃ s', lev_loop fuel s = Run.ret s' ∧ LevInv Node0 s' ∧ s'.sumnode = Node0.length := by
  intro fuel
  induction fuel with
  | zero => intro s _ h; exact absurd h (Nat.not_lt_zero _)
  | succ fuel ih =>
    intro s inv hfuel
    obtain ⟨s1, hs1, inv1, hkeep, hle, hprog⟩ := lev_sweep_spec hv hg s inv
    simp only [lev_loop, hs1]
    by_cases hdone : s1.sumnode = s1.Node.length
    · rw [if_pos hdone]
      exact ⟨s1, rfl, inv1, by rw [hdone, inv1.len]⟩
    · rw [if_neg hdone]
      have hlt1 : s1.sumnode < Node0.length := by
        have := List.countP_le_length (fun np : NSTRUC => np.islevel) (l := s1.Node)
        rw [← inv1.count, inv1.len] at this
        rw [inv1.len] at hdone
        omega
      have hne : ¬ ∀ a ∈ s.Node, (fun np : NSTRUC => np.islevel) a = true := by
        intro hall
        have := (List.countP_eq_length (p := fun np : NSTRUC => np.islevel)).mpr hall
        rw [← inv.count, inv.len] at this
        omega
      push_neg at hne
      obtain ⟨a, ha, hal⟩ := hne
      obtain ⟨x, hx, hxa⟩ := List.getElem_of_mem ha
      have hxa' : s.Node[x]? = some a := by rw [List.getElem?_eq_getElem hx, hxa]
      obtain ⟨y, hy, ⟨np, hnp, hnl⟩, hmin⟩ := acyclic_min hv hac
        (fun y => ∃ np : NSTRUC, s.Node[y]? = some np ∧ np.islevel = false) x
        (by rw [← inv.len]; exact hx) ⟨a, hxa', by simpa using hal⟩
      obtain ⟨np0, hnp0, hmem0⟩ := getElem?_of_lt Node0 y hy
      obtain ⟨np', hnp', _, hun⟩ := inv.frame y np0 hnp0
      rw [hnp] at hnp'
      have := Option.some.inj hnp'
      subst this
      have hstrict : s.sumnode < s1.sumnode := by
        refine hprog y np hnp hnl ?_
        intro u hu
        have hu0 : u ∈ np0.unodes := by rw [← hun]; exact hu
        obtain ⟨un, hun', _⟩ := getElem?_of_lt s.Node u
          (by rw [inv.len]; exact hv np0 hmem0 u hu0)
        refine ⟨un, hun', ?_⟩
        cases hl : un.islevel
        · exact absurd ⟨un, hun', hl⟩ (hmin np0 hnp0 u hu0)
        · rfl
      exact ih s1 inv1 (by omega)

/-- What `lev` computes on an acyclic netlist whose flags are clear: it
returns within `Nnodes + 1` sweeps with every line marked and the
invariant of its loops established. -/
theorem lev_spec (c : Circuit) (hv : FaninsValid c.Node) (hac : Acyclic c.Node)
    (hg : BranchesHaveFanin c.Node) (hclr : FlagsClear c.Node) :
    ∃ s : LevState, lev (c.Node.length + 1) c =
        Run.ret { c with Node := s.Node, Maxlevel := s.Maxlevel } ∧
      LevInv c.Node s ∧ ∀ np ∈ s.Node, np.islevel = true := by
  have inv0 : LevInv c.Node { Node := c.Node, Maxlevel := 0, sumnode := 0 } := by
    have hnone : ∀ (x : Nat) (np : NSTRUC), c.Node[x]? = some np → np.islevel = true → False := by
      intro x np hnp hl
      rw [hclr np (List.getElem?_mem hnp)] at hl
      exact Bool.noConfusion hl
    refine ⟨rfl, fun x np0 h => ⟨np0, h, rfl, rfl⟩, ?_, ?_, le_refl _, ?_, Or.inl rfl⟩
    · show 0 = List.countP (fun np : NSTRUC => np.islevel) c.Node
      symm
      rw [List.countP_eq_zero]
      intro a ha
      simp [hclr a ha]
    · intro x np hnp hl
      exact (hnone x np hnp hl).elim
    · intro x np hnp hl
      exact (hnone x np hnp hl).elim
  obtain ⟨s, hs, inv, hsum⟩ := lev_loop_spec hv hg hac (c.Node.length + 1) _ inv0
    (by show c.Node.length - 0 < c.Node.length + 1; omega)
  refine ⟨s, ?_, inv, ?_⟩
  · simp only [lev, hs]
  · have := inv.count
    rw [hsum, ← inv.len] at this
    exact (List.countP_eq_length (p := fun np : NSTRUC => np.islevel)).mp this.symm

theorem acyclic_of_faninsBefore {Node : List NSTRUC} (h : FaninsBefore Node) :
    Acyclic Node := by
  have hlt : ∀ a b : Nat, Relation.TransGen (IsFanin Node) a b → a < b := by
    intro a b hab
    induction hab with
    | single hab =>
      obtain ⟨np, hnp, hu⟩ := hab
      exact h (_, np) (List.mk_mem_enum_iff_getElem?.mpr hnp) a hu
    | tail _ hbc ih =>
      obtain ⟨np, hnp, hu⟩ := hbc
      exact lt_trans ih (h (_, np) (List.mk_mem_enum_iff_getElem?.mpr hnp) _ hu)
  intro x hx
  exact lt_irrefl x (hlt x x hx)

theorem LevDone.rule {Node : List NSTRUC} {np : NSTRUC} (h : LevDone Node np)
    (hfan : np.type ≠ 0 → np.unodes ≠ []) : LevelRule Node np := by
  obtain ⟨_, h1, h2, h3⟩ := h
  refine ⟨h1, ?_, ?_⟩
  · intro ht
    obtain ⟨u, un, hu, hun, _, he⟩ := h2 ht
    exact ⟨u, hu, by simp only [levelOf, hun]; exact he⟩
  · intro ht0 ht1
    obtain ⟨ha, _, hc⟩ := h3 ht0 ht1
    obtain ⟨u, hu, un, hun, he⟩ := hc (hfan ht0)
    refine ⟨np.level - 1, ⟨⟨u, hu, ?_⟩, ?_⟩, by omega⟩
    · simp only [levelOf, hun]; omega
    · intro v hv
      obtain ⟨vn, hvn, _, hle⟩ := ha v hv
      simp only [levelOf, hvn]; omega

theorem LevelRule.spec {Node : List NSTRUC} {np : NSTRUC} (h : LevelRule Node np)
    (hb : np.type = BRCH → np.unodes.length = 1) : LevelSpec Node np := by
  obtain ⟨h1, h2, h3⟩ := h
  refine ⟨h1, ?_⟩
  intro ht0
  by_cases ht1 : np.type = BRCH
  · obtain ⟨u, hu, he⟩ := h2 ht1
    have hlen := hb ht1
    obtain ⟨v, hv⟩ := List.length_eq_one.mp hlen
    have huv : u = v := by
      rw [hv] at hu
      simpa using hu.symm
    subst huv
    refine ⟨levelOf Node u, ⟨⟨u, by rw [hv]; simp, rfl⟩, ?_⟩, by omega⟩
    intro w hw
    rw [hv] at hw
    have : w = u := by simpa using hw
    subst this
    exact le_refl _
  · exact h3 ht0 ht1

/-! ### C1: the levels `lev` assigns -/

/-- C1 (as the code has it): on an acyclic netlist whose fanin pointers are
valid, whose lines other than `IPT` have a fanin and whose `islevel` flags
are clear, `lev` returns within `Nnodes + 1` sweeps; it keeps the type and
the fanins of every line, an `IPT` line has level 0, a `BRCH` line has the
level of `unodes[0]` plus one, and every other line has one more than the
maximum of the levels of its fanins.  When every `BRCH` line has exactly one
fanin this is the level equation of the specification. -/
theorem lev_levels (c : Circuit) (hv : FaninsValid c.Node) (hac : Acyclic c.Node)
    (hg : GatesHaveFanin c.Node) (hclr : FlagsClear c.Node) :
    ∃ c', lev (c.Node.length + 1) c = Run.ret c' ∧ c'.Node.length = c.Node.length ∧
      ∀ (x : Nat) (np : NSTRUC), c.Node[x]? = some np →
        ∃ np', c'.Node[x]? = some np' ∧ np'.type = np.type ∧ np'.unodes = np.unodes ∧
          LevelRule c'.Node np' ∧
          ((np'.type = BRCH → np'.unodes.length = 1) → LevelSpec c'.Node np') := by
  obtain ⟨s, hs, inv, hall⟩ := lev_spec c hv hac (branches_of_gates hg) hclr
  refine ⟨_, hs, inv.len, ?_⟩
  intro x np hnp
  obtain ⟨np', hnp', ht, hu⟩ := inv.frame x np hnp
  have hrule : LevelRule s.Node np' := by
    refine (inv.done x np' hnp' (hall np' (List.getElem?_mem hnp'))).rule ?_
    intro h
    rw [hu]
    rw [ht] at h
    exact hg np (List.getElem?_mem hnp) h
  exact ⟨np', hnp', ht, hu, hrule, fun hb => hrule.spec hb⟩

/-- C1, witness: `lev` on the benchmark c17. -/
theorem lev_levels_witness :
    FaninsValid c17.Node ∧ Acyclic c17.Node ∧ GatesHaveFanin c17.Node ∧ FlagsClear c17.Node ∧
    ∃ c', lev (c17.Node.length + 1) c17 = Run.ret c' ∧ c'.Node.length = c17.Node.length ∧
      ∀ (x : Nat) (np : NSTRUC), c17.Node[x]? = some np →
        ∃ np', c'.Node[x]? = some np' ∧ np'.type = np.type ∧ np'.unodes = np.unodes ∧
          LevelRule c'.Node np' ∧
          ((np'.type = BRCH → np'.unodes.length = 1) → LevelSpec c'.Node np') :=
  ⟨by decide, acyclic_of_faninsBefore (by decide), by decide, by decide,
    lev_levels c17 (by decide) (acyclic_of_faninsBefore (by decide)) (by decide) (by decide)⟩

/-- C1, counterexample to the claim as stated: the netlist `twoFaninBranch`
is acyclic, its `IPT` line has no fanin, its other lines have at least one
fanin and its flags are clear; `lev` returns on it, and whenever it returns
the `BRCH` line 2, whose fanins end at levels 0 and 1, has level 1 and not
`1 + max`. -/
theorem lev_levels_counterexample :
    FaninsValid twoFaninBranch.Node ∧ Acyclic twoFaninBranch.Node ∧
    InputsHaveNoFanin twoFaninBranch.Node ∧ GatesHaveFanin twoFaninBranch.Node ∧
    FlagsClear twoFaninBranch.Node ∧
    (∃ c', lev 1 twoFaninBranch = Run.ret c') ∧
    ∀ (fuel : Nat) (c' : Circuit), lev fuel twoFaninBranch = Run.ret c' →
      ∃ np, c'.Node[2]? = some np ∧ np.type = BRCH ∧ np.level = 1 ∧
        levelOf c'.Node 1 = 1 ∧ 1 ∈ np.unodes ∧ ¬ LevelSpec c'.Node np := by
  refine ⟨by decide, acyclic_of_faninsBefore (by decide), by decide, by decide, by decide,
    ⟨_, rfl⟩, ?_⟩
  intro fuel c' h
  cases fuel with
  | zero => exact Run.noConfusion h
  | succ fuel =>
    have h' : lev (fuel + 1) twoFaninBranch = lev 1 twoFaninBranch := rfl
    rw [h'] at h
    have hc : c' = { twoFaninBranch with
        Node := [{ line 0 IPT [] with islevel := true },
                 { line 1 NOT [0] with level := 1, islevel := true },
                 { line 2 BRCH [0, 1] with level := 1, islevel := true }],
        Maxlevel := 1 } := by
      have h2 : lev 1 twoFaninBranch = Run.ret { twoFaninBranch with
        Node := [{ line 0 IPT [] with islevel := true },
                 { line 1 NOT [0] with level := 1, islevel := true },
                 { line 2 BRCH [0, 1] with level := 1, islevel := true }],
        Maxlevel := 1 } := by decide
      rw [h2] at h
      exact (Run.ret.inj h).symm
    subst hc
    refine ⟨_, rfl, rfl, rfl, rfl, by decide, ?_⟩
    rintro ⟨_, hspec⟩
    obtain ⟨m, ⟨_, hmax⟩, he⟩ := hspec (by decide)
    have h1 := hmax 1 (by decide)
    have hl : levelOf
        [{ line 0 IPT [] with islevel := true },
         { line 1 NOT [0] with level := 1, islevel := true },
         { line 2 BRCH [0, 1] with level := 1, islevel := true }] 1 = 1 := rfl
    rw [hl] at h1
    have he' : (1 : Int) = 1 + m := he
    omega

/-! ### Level-ordered sweeps -/

theorem visitWith_spec {upd : List NSTRUC → Nat → NSTRUC → Option NSTRUC}
    {Fr : NSTRUC → NSTRUC → Prop} {Q : List NSTRUC → Nat → NSTRUC → Prop}
    {base : Int} {Node0 : List NSTRUC} (H : SweepHyp upd Fr Q base Node0) (i : Int)
    (hi : base ≤ i) (j : Nat)
    (Node : List NSTRUC) (inv : SweepInv Fr Q Node0 i j Node) (hj : j < Node0.length) :
    ∃ Node', visitWith upd i j Node = some Node' ∧ SweepInv Fr Q Node0 i (j + 1) Node' := by
  obtain ⟨np0, hnp0, _⟩ := getElem?_of_lt Node0 j hj
  obtain ⟨np, hnp, hfr⟩ := inv.frame j np0 hnp0
  have hjl : j < Node.length := lt_of_getElem?_some hnp
  obtain ⟨hlev, hun⟩ := H.frLevel np0 np hfr
  unfold visitWith
  simp only [hnp]
  by_cases hl : np.level = i
  · rw [if_pos hl]
    have htodo : Node[j]? = some np0 := by
      refine inv.todo j np0 hnp0 ?_
      rintro (h | ⟨_, h⟩)
      · omega
      · exact lt_irrefl j h
    have hnn : np = np0 := by
      rw [hnp] at htodo
      exact Option.some.inj htodo
    subst hnn
    have hfan : ∀ u ∈ np.unodes, ∃ un : NSTRUC, Node[u]? = some un ∧ Q Node u un := by
      intro u hu
      obtain ⟨un0, hun0, hlt⟩ := H.lower j np hnp0 u hu
      obtain ⟨un, hun', hfru⟩ := inv.frame u un0 hun0
      have := (H.frLevel un0 un hfru).1
      exact ⟨un, hun', inv.done u un hun' (Or.inl (by omega))⟩
    obtain ⟨np', hupd, hfr', hQ⟩ :=
      H.step Node j np inv.len inv.frame hnp0 hnp (by omega) hfan
    refine ⟨Node.set j np', by simp [hupd], ?_, ?_, ?_, ?_⟩
    · simp [inv.len]
    · intro k r0 hr0
      by_cases hjk : j = k
      · subst hjk
        rw [hnp0] at hr0
        have := Option.some.inj hr0
        subst this
        exact ⟨np', List.getElem?_set_self hjl, hfr'⟩
      · obtain ⟨r, hr, hfrr⟩ := inv.frame k r0 hr0
        exact ⟨r, by rw [List.getElem?_set_ne hjk]; exact hr, hfrr⟩
    · intro k r0 hr0 hnd
      have hjk : j ≠ k := by
        rintro rfl
        rw [hnp0] at hr0
        have := Option.some.inj hr0
        subst this
        exact hnd (Or.inr ⟨hl, Nat.lt_succ_self _⟩)
      rw [List.getElem?_set_ne hjk]
      refine inv.todo k r0 hr0 ?_
      rintro (h | ⟨h1, h2⟩)
      · exact hnd (Or.inl h)
      · exact hnd (Or.inr ⟨h1, Nat.lt_succ_of_lt h2⟩)
    · intro k r hr hd
      by_cases hjk : j = k
      · subst hjk
        rw [List.getElem?_set_self hjl] at hr
        have := Option.some.inj hr
        subst this
        exact hQ
      · rw [List.getElem?_set_ne hjk] at hr
        have hd' : r.level < i ∨ (r.level = i ∧ k < j) := by
          rcases hd with h | ⟨h1, h2⟩
          · exact Or.inl h
          · exact Or.inr ⟨h1, by omega⟩
        have hkl : k < Node0.length := by rw [← inv.len]; exact lt_of_getElem?_some hr
        obtain ⟨r0, hr0, _⟩ := getElem?_of_lt Node0 k hkl
        obtain ⟨r', hr', hfrr⟩ := inv.frame k r0 hr0
        rw [hr] at hr'
        have := Option.some.inj hr'
        subst this
        obtain ⟨hrl, hru⟩ := H.frLevel r0 r hfrr
        have hnotin : j ∉ r.unodes := by
          intro hin
          rw [hru] at hin
          obtain ⟨un0, hun0, hlt⟩ := H.lower k r0 hr0 j hin
          rw [hnp0] at hun0
          have := Option.some.inj hun0
          subst this
          rcases hd' with h | ⟨h1, _⟩ <;> omega
        exact H.stable Node j np np' k r inv.len hnp hfr' hjk hnotin hr (inv.done k r hr hd')
  · rw [if_neg hl]
    refine ⟨Node, rfl, inv.len, inv.frame, ?_, ?_⟩
    · intro k r0 hr0 hnd
      refine inv.todo k r0 hr0 ?_
      rintro (h | ⟨h1, h2⟩)
      · exact hnd (Or.inl h)
      · exact hnd (Or.inr ⟨h1, Nat.lt_succ_of_lt h2⟩)
    · intro k r hr hd
      refine inv.done k r hr ?_
      rcases hd with h | ⟨h1, h2⟩
      · exact Or.inl h
      · refine Or.inr ⟨h1, ?_⟩
        rcases Nat.lt_succ_iff_lt_or_eq.mp h2 with h3 | h3
        · exact h3
        · subst h3
          rw [hnp] at hr
          have := Option.some.inj hr
          subst this
          exact absurd h1 hl

theorem sweep_level_spec {upd : List NSTRUC → Nat → NSTRUC → Option NSTRUC}
    {Fr : NSTRUC → NSTRUC → Prop} {Q : List NSTRUC → Nat → NSTRUC → Prop}
    {base : Int} {Node0 : List NSTRUC} (H : SweepHyp upd Fr Q base Node0) (i : Int)
    (hi : base ≤ i) (Node : List NSTRUC) (inv : SweepInv Fr Q Node0 i 0 Node) :
    ∃ Node', forLoop (visitWith upd i) Node.length Node = some Node' ∧
      SweepInv Fr Q Node0 (i + 1) 0 Node' := by
  obtain ⟨Node', h1, h2⟩ := forLoop_inv (visitWith upd i)
    (fun j t => SweepInv Fr Q Node0 i j t) Node.length Node inv
    (fun j t hj hinv => visitWith_spec H i hi j t hinv (by rw [← inv.len]; exact hj))
  refine ⟨Node', h1, h2.len, h2.frame, ?_, ?_⟩
  · intro k r0 hr0 hnd
    refine h2.todo k r0 hr0 ?_
    rintro (h | ⟨h, _⟩)
    · exact hnd (Or.inl (by omega))
    · exact hnd (Or.inl (by omega))
  · intro k r hr hd
    refine h2.done k r hr ?_
    rcases hd with h | ⟨_, h⟩
    · rcases lt_or_eq_of_le (Int.lt_add_one_iff.mp h) with h' | h'
      · exact Or.inl h'
      · refine Or.inr ⟨h', ?_⟩
        rw [inv.len, ← h2.len]
        exact lt_of_getElem?_some hr
    · exact absurd h (Nat.not_lt_zero k)

theorem sweep_levels_spec {upd : List NSTRUC → Nat → NSTRUC → Option NSTRUC}
    {Fr : NSTRUC → NSTRUC → Prop} {Q : List NSTRUC → Nat → NSTRUC → Prop}
    {base : Int} {Node0 : List NSTRUC} (H : SweepHyp upd Fr Q base Node0)
    (body : Nat → List NSTRUC → Option (List NSTRUC))
    (hbody : ∀ (k : Nat) (Node : List NSTRUC),
      body k Node = forLoop (visitWith upd (base + k)) Node.length Node)
    (n : Nat) (Node : List NSTRUC) (inv : SweepInv Fr Q Node0 base 0 Node) :
    ∃ Node', forLoop body n Node = some Node' ∧ SweepInv Fr Q Node0 (base + n) 0 Node' := by
  have h := forLoop_inv body (fun k t => SweepInv Fr Q Node0 (base + k) 0 t) n Node
    (by simpa using inv)
    (by
      intro k t _ hinv
      rw [hbody]
      obtain ⟨t', h1, h2⟩ := sweep_level_spec H (base + k) (by omega) t hinv
      refine ⟨t', h1, ?_⟩
      have he : base + ((k + 1 : Nat) : Int) = base + (k : Int) + 1 := by push_cast; ring
      show SweepInv Fr Q Node0 (base + ((k + 1 : Nat) : Int)) 0 t'
      rw [he]
      exact h2)
  exact h

/-! ### Static facts -/

theorem netOK_of {c : Circuit} (hw : WellFormed c) (hl : Levelized c) : NetOK c.Node := by
  have hw' := fun (k : Nat) (np : NSTRUC) (h : c.Node[k]? = some np) =>
    hw.1 (k, np) (List.mk_mem_enum_iff_getElem?.mpr h)
  have hl' := fun (k : Nat) (np : NSTRUC) (h : c.Node[k]? = some np) =>
    hl (k, np) (List.mk_mem_enum_iff_getElem?.mpr h)
  refine ⟨fun k np h => (hw' k np h).1, fun k np h => (hw' k np h).2.1,
    fun k np h => (hw' k np h).2.2.1, fun k np h => (hw' k np h).2.2.2.2,
    fun k np h => (hl' k np h).1, fun k np h => (hl' k np h).2.1, ?_⟩
  intro k np h u hu
  obtain ⟨un, hun, _⟩ := getElem?_of_lt c.Node u ((hw' k np h).2.2.1 u hu)
  exact ⟨un, hun, (hl' k np h).2.2.2 u hu un hun⟩

theorem SameNet.netOK {Node Node' : List NSTRUC} (h : SameNet Node Node') (ok : NetOK Node) :
    NetOK Node' := by
  obtain ⟨hlen, hrec⟩ := h
  have back : ∀ (k : Nat) (np' : NSTRUC), Node'[k]? = some np' →
      ∃ np : NSTRUC, Node[k]? = some np ∧ np'.indx = np.indx ∧ np'.type = np.type ∧
        np'.unodes = np.unodes ∧ np'.level = np.level := by
    intro k np' hk
    obtain ⟨np, hnp, _⟩ := getElem?_of_lt Node k (by rw [← hlen]; exact lt_of_getElem?_some hk)
    obtain ⟨r, hr, h1, h2, h3, h4⟩ := hrec k np hnp
    rw [hk] at hr
    have := Option.some.inj hr
    subst this
    exact ⟨np, hnp, h1, h2, h3, h4⟩
  refine ⟨?_, ?_, ?_, ?_, ?_, ?_, ?_⟩
  · intro k np' hk
    obtain ⟨np, hnp, h1, _⟩ := back k np' hk
    rw [h1]; exact ok.indx k np hnp
  · intro k np' hk
    obtain ⟨np, hnp, _, h2, _⟩ := back k np' hk
    rw [h2]; exact ok.typeLe k np hnp
  · intro k np' hk u hu
    obtain ⟨np, hnp, _, _, h3, _⟩ := back k np' hk
    rw [hlen]; rw [h3] at hu; exact ok.valid k np hnp u hu
  · intro k np' hk ht
    obtain ⟨np, hnp, _, h2, h3, _⟩ := back k np' hk
    rw [h3]; rw [h2] at ht; exact ok.single k np hnp ht
  · intro k np' hk ht
    obtain ⟨np, hnp, _, h2, _, h4⟩ := back k np' hk
    rw [h4]; rw [h2] at ht; exact ok.inputLevel k np hnp ht
  · intro k np' hk ht
    obtain ⟨np, hnp, _, h2, _, h4⟩ := back k np' hk
    rw [h4]; rw [h2] at ht; exact ok.gateLevel k np hnp ht
  · intro k np' hk u hu
    obtain ⟨np, hnp, _, _, h3, h4⟩ := back k np' hk
    rw [h3] at hu
    obtain ⟨un, hun, hlt⟩ := ok.lower k np hnp u hu
    obtain ⟨un', hun', _, _, _, h4'⟩ := hrec u un hun
    exact ⟨un', hun', by rw [h4, h4']; exact hlt⟩

theorem NetOK.not_self {Node : List NSTRUC} (ok : NetOK Node) {k : Nat} {np : NSTRUC}
    (h : Node[k]? = some np) : k ∉ np.unodes := by
  intro hin
  obtain ⟨un, hun, hlt⟩ := ok.lower k np h k hin
  rw [h] at hun
  have := Option.some.inj hun
  subst this
  exact lt_irrefl _ hlt

theorem valueOf_set_ne (Node : List NSTRUC) (j : Nat) (np' : NSTRUC) (u : Nat) (h : j ≠ u) :
    valueOf (Node.set j np') u = valueOf Node u := by
  unfold valueOf
  rw [List.getElem?_set_ne h]

theorem map_valueOf_set (Node : List NSTRUC) (j : Nat) (np' : NSTRUC) (us : List Nat)
    (h : j ∉ us) : us.map (valueOf (Node.set j np')) = us.map (valueOf Node) := by
  apply List.map_congr_left
  intro u hu
  exact valueOf_set_ne Node j np' u (fun e => h (e ▸ hu))

/-! ### Fault-free simulation -/

theorem ffs_visit_eq (i : Int) : ffs_visit i = visitWith ffs_upd i := by
  funext j Node
  unfold ffs_visit visitWith ffs_upd
  cases Node[j]? with
  | none => rfl
  | some np =>
    simp only
    split
    · cases ffs_value Node j np <;> rfl
    · rfl

theorem ffs_inputs_spec : ∀ (ps : List Nat) (Node : List NSTRUC),
    (∀ q ∈ ps, q < Node.length) →
    ∃ Node', ffs_inputs ps Node = some Node' ∧ Node'.length = Node.length ∧
      ∀ (k : Nat) (np : NSTRUC), Node[k]? = some np →
        Node'[k]? = some (if k ∈ ps then { np with node_value := 0 } else np) := by
  intro ps
  induction ps with
  | nil =>
    intro Node _
    exact ⟨Node, rfl, rfl, fun k np h => by simpa using h⟩
  | cons p ps ih =>
    intro Node hv
    have hp : p < Node.length := hv p (List.mem_cons_self _ _)
    obtain ⟨r, hr, _⟩ := getElem?_of_lt Node p hp
    obtain ⟨Node', h1, h2, h3⟩ := ih (Node.set p { r with node_value := 0 })
      (fun q hq => by rw [List.length_set]; exact hv q (List.mem_cons_of_mem _ hq))
    refine ⟨Node', by simp only [ffs_inputs, hr]; exact h1, by rw [h2, List.length_set], ?_⟩
    intro k np hk
    by_cases hpk : p = k
    · subst hpk
      rw [hr] at hk
      have := Option.some.inj hk
      subst this
      rw [h3 p _ (List.getElem?_set_self hp)]
      by_cases hin : p ∈ ps <;> simp [hin]
    · rw [h3 k np (by rw [List.getElem?_set_ne hpk]; exact hk)]
      have : (k ∈ p :: ps) ↔ k ∈ ps := by
        simp only [List.mem_cons]
        exact ⟨fun h => h.resolve_left (fun e => hpk e.symm), Or.inr⟩
      by_cases hin : k ∈ ps <;> simp [hin, this]

theorem ffs_fanins_eq (upd : Int → Int → Int) (Node : List NSTRUC) (j : Nat) :
    ∀ (us : List Nat) (cur : Int), j ∉ us → (∀ u ∈ us, u < Node.length) →
      ffs_fanins upd Node j us cur = some ((us.map (valueOf Node)).foldl upd cur) := by
  intro us
  induction us with
  | nil => intro cur _ _; rfl
  | cons u us ih =>
    intro cur hj hv
    have huj : u ≠ j := fun e => hj (e ▸ List.mem_cons_self _ _)
    obtain ⟨un, hun, _⟩ := getElem?_of_lt Node u (hv u (List.mem_cons_self _ _))
    have hval : valueOf Node u = un.node_value := by simp only [valueOf, hun]
    simp only [ffs_fanins, fanin_value, if_neg huj, hun, Option.map_some', List.map_cons,
      List.foldl_cons, hval]
    exact ih _ (fun h => hj (List.mem_cons_of_mem _ h))
      (fun v hv' => hv v (List.mem_cons_of_mem _ hv'))

theorem foldl_latch (a b : Int) : ∀ (vals : List Int) (cur : Int),
    vals.foldl (fun cur v => if v = a then b else cur) cur =
      if ∃ v ∈ vals, v = a then b else cur := by
  intro vals
  induction vals with
  | nil => intro cur; simp
  | cons v vals ih =>
    intro cur
    rw [List.foldl_cons, ih]
    by_cases hv : v = a
    · by_cases hex : ∃ w ∈ vals, w = a
      · rw [if_pos hex, if_pos ⟨v, List.mem_cons_self _ _, hv⟩]
      · rw [if_neg hex, if_pos hv, if_pos ⟨v, List.mem_cons_self _ _, hv⟩]
    · by_cases hex : ∃ w ∈ vals, w = a
      · obtain ⟨w, hw, hwa⟩ := hex
        rw [if_pos ⟨w, hw, hwa⟩, if_pos ⟨w, List.mem_cons_of_mem _ hw, hwa⟩]
      · rw [if_neg hex, if_neg hv, if_neg]
        rintro ⟨w, hw, hwa⟩
        rcases List.mem_cons.mp hw with rfl | hw
        · exact hv hwa
        · exact hex ⟨w, hw, hwa⟩

theorem xor_bool (v cur : Int) (hv : v = 0 ∨ v = 1) (hc : cur = 0 ∨ cur = 1) :
    Int.xor v cur = (cur + v) % 2 := by
  rcases hv with rfl | rfl <;> rcases hc with rfl | rfl <;> rfl

theorem foldl_xor : ∀ (vals : List Int) (cur : Int), (cur = 0 ∨ cur = 1) →
    (∀ v ∈ vals, v = 0 ∨ v = 1) →
    vals.foldl (fun cur v => Int.xor v cur) cur = (cur + vals.sum) % 2 := by
  intro vals
  induction vals with
  | nil =>
    intro cur hc _
    rcases hc with rfl | rfl <;> rfl
  | cons v vals ih =>
    intro cur hc hv
    have hvb := hv v (List.mem_cons_self _ _)
    rw [List.foldl_cons, xor_bool v cur hvb hc,
      ih _ (by omega) (fun w hw => hv w (List.mem_cons_of_mem _ hw)), List.sum_cons]
    omega

theorem lnot_bool (v : Int) (hv : v = 0 ∨ v = 1) : lnot v = 1 - v := by
  rcases hv with rfl | rfl <;> rfl

theorem lnot_is_bool (v : Int) : lnot v = 0 ∨ lnot v = 1 := by
  unfold lnot
  split
  · exact Or.inr rfl
  · exact Or.inl rfl

theorem ffs_value_spec (Node : List NSTRUC) (j : Nat) (np : NSTRUC)
    (ht0 : np.type ≠ 0) (ht7 : np.type ≤ 7) (hj : j ∉ np.unodes)
    (hv : ∀ u ∈ np.unodes, u < Node.length)
    (hs : np.type = 1 ∨ np.type = 5 → np.unodes.length = 1)
    (hb : ∀ u ∈ np.unodes, valueOf Node u = 0 ∨ valueOf Node u = 1) :
    ∃ v, ffs_value Node j np = some v ∧ (v = 0 ∨ v = 1) ∧
      v = gate_function np.type (np.unodes.map (valueOf Node)) := by
  have hb' : ∀ v ∈ np.unodes.map (valueOf Node), v = 0 ∨ v = 1 := by
    intro v hv'
    obtain ⟨u, hu, rfl⟩ := List.mem_map.mp hv'
    exact hb u hu
  have hcases : np.type = 1 ∨ np.type = 2 ∨ np.type = 3 ∨ np.type = 4 ∨ np.type = 5 ∨
      np.type = 6 ∨ np.type = 7 := by omega
  rcases hcases with ht | ht | ht | ht | ht | ht | ht
  · obtain ⟨u, hu⟩ := List.length_eq_one.mp (hs (Or.inl ht))
    obtain ⟨un, hun, _⟩ := getElem?_of_lt Node u (hv u (by rw [hu]; simp))
    have hval : valueOf Node u = un.node_value := by simp only [valueOf, hun]
    refine ⟨un.node_value, ?_, ?_, ?_⟩
    · simp [ffs_value, ht, hu, hun]
    · rw [← hval]; exact hb u (by rw [hu]; simp)
    · simp [gate_function, ht, hu, hval]
  · refine ⟨(np.unodes.map (valueOf Node)).foldl (fun cur v => Int.xor v cur) 0, ?_, ?_, ?_⟩
    · simp only [ffs_value, ht]
      exact ffs_fanins_eq _ Node j np.unodes 0 hj hv
    · rw [foldl_xor _ 0 (Or.inl rfl) hb']
      omega
    · rw [foldl_xor _ 0 (Or.inl rfl) hb']
      simp [gate_function, ht]
  · refine ⟨(np.unodes.map (valueOf Node)).foldl (fun cur v => if v = 1 then 1 else cur) 0, ?_, ?_, ?_⟩
    · simp only [ffs_value, ht]
      exact ffs_fanins_eq _ Node j np.unodes 0 hj hv
    · rw [foldl_latch]
      split
      · exact Or.inr rfl
      · exact Or.inl rfl
    · rw [foldl_latch]
      simp [gate_function, ht]
  · refine ⟨(np.unodes.map (valueOf Node)).foldl (fun cur v => if v = 1 then 0 else cur) 1, ?_, ?_, ?_⟩
    · simp only [ffs_value, ht]
      exact ffs_fanins_eq _ Node j np.unodes 1 hj hv
    · rw [foldl_latch]
      split
      · exact Or.inl rfl
      · exact Or.inr rfl
    · rw [foldl_latch]
      simp [gate_function, ht]
  · obtain ⟨u, hu⟩ := List.length_eq_one.mp (hs (Or.inr ht))
    obtain ⟨un, hun, _⟩ := getElem?_of_lt Node u (hv u (by rw [hu]; simp))
    have hval : valueOf Node u = un.node_value := by simp only [valueOf, hun]
    have hbu : un.node_value = 0 ∨ un.node_value = 1 := by
      rw [← hval]; exact hb u (by rw [hu]; simp)
    refine ⟨lnot un.node_value, ?_, lnot_is_bool _, ?_⟩
    · simp [ffs_value, ht, hu, hun]
    · simp [gate_function, ht, hu, hval, lnot_bool _ hbu]
  · have hiff : (∃ v ∈ np.unodes.map (valueOf Node), v = 0) ↔
        ¬ ∀ v ∈ np.unodes.map (valueOf Node), v = 1 := by
      constructor
      · rintro ⟨v, hv', rfl⟩ hall
        exact absurd (hall 0 hv') (by decide)
      · intro hn
        push_neg at hn
        obtain ⟨v, hv', hne⟩ := hn
        exact ⟨v, hv', (hb' v hv').resolve_right hne⟩
    refine ⟨(np.unodes.map (valueOf Node)).foldl (fun cur v => if v = 0 then 1 else cur) 0, ?_, ?_, ?_⟩
    · simp only [ffs_value, ht]
      exact ffs_fanins_eq _ Node j np.unodes 0 hj hv
    · rw [foldl_latch]
      split
      · exact Or.inr rfl
      · exact Or.inl rfl
    · rw [foldl_latch]
      by_cases hall : ∀ v ∈ np.unodes.map (valueOf Node), v = 1
      · rw [if_neg (fun h => hiff.mp h hall)]
        simp only [gate_function, ht]
        simp only [if_pos hall]
        rfl
      · rw [if_pos (hiff.mpr hall)]
        simp only [gate_function, ht]
        simp only [if_neg hall]
        rfl
  · have hiff : (∃ v ∈ np.unodes.map (valueOf Node), v = 0) ↔
        ¬ ∀ v ∈ np.unodes.map (valueOf Node), v = 1 := by
      constructor
      · rintro ⟨v, hv', rfl⟩ hall
        exact absurd (hall 0 hv') (by decide)
      · intro hn
        push_neg at hn
        obtain ⟨v, hv', hne⟩ := hn
        exact ⟨v, hv', (hb' v hv').resolve_right hne⟩
    refine ⟨(np.unodes.map (valueOf Node)).foldl (fun cur v => if v = 0 then 0 else cur) 1, ?_, ?_, ?_⟩
    · simp only [ffs_value, ht]
      exact ffs_fanins_eq _ Node j np.unodes 1 hj hv
    · rw [foldl_latch]
      split
      · exact Or.inl rfl
      · exact Or.inr rfl
    · rw [foldl_latch]
      by_cases hall : ∀ v ∈ np.unodes.map (valueOf Node), v = 1
      · rw [if_neg (fun h => hiff.mp h hall)]
        simp only [gate_function, ht]
        simp only [if_pos hall]
        rfl
      · rw [if_pos (hiff.mpr hall)]
        simp only [gate_function, ht]
        simp only [if_neg hall]
        rfl

theorem FfsFrame.ffs_fields {a b : NSTRUC} (h : FfsFrame a b) :
    b.indx = a.indx ∧ b.type = a.type ∧ b.unodes = a.unodes ∧ b.level = a.level ∧
      b.L = a.L := by
  have h' : b = { a with node_value := b.node_value } := h
  have h1 := congrArg NSTRUC.indx h'
  have h2 := congrArg NSTRUC.type h'
  have h3 := congrArg NSTRUC.unodes h'
  have h4 := congrArg NSTRUC.level h'
  have h5 := congrArg NSTRUC.L h'
  exact ⟨h1, h2, h3, h4, h5⟩

theorem ffs_sweepHyp {Node0 : List NSTRUC} (ok : NetOK Node0) :
    SweepHyp ffs_upd FfsFrame FfsDone 1 Node0 := by
  refine ⟨?_, ?_, ok.lower, ?_, ?_⟩
  · intro a b h
    exact ⟨h.ffs_fields.2.2.2.1, h.ffs_fields.2.2.1⟩
  · intro a
    rfl
  · intro Node j npj npj' k np _ _ _ _ hnotin _ hQ
    obtain ⟨⟨hb, hg⟩, hi⟩ := hQ
    refine ⟨⟨hb, ?_⟩, hi⟩
    intro ht
    rw [map_valueOf_set Node j npj' np.unodes hnotin]
    exact hg ht
  · intro Node j np hlen _ hnp0 _ hlev hfan
    have ht0 : np.type ≠ 0 := by
      intro h
      have := ok.inputLevel j np hnp0 h
      omega
    have hnotin : j ∉ np.unodes := ok.not_self hnp0
    obtain ⟨v, hv, hvb, hvg⟩ := ffs_value_spec Node j np ht0 (ok.typeLe j np hnp0) hnotin
      (fun u hu => by rw [hlen]; exact ok.valid j np hnp0 u hu)
      (ok.single j np hnp0)
      (by
        intro u hu
        obtain ⟨un, hun, hQ⟩ := hfan u hu
        simp only [valueOf, hun]
        exact hQ.1.1)
    refine ⟨{ np with node_value := v }, by simp [ffs_upd, hv], rfl, ⟨hvb, ?_⟩, ?_⟩
    · intro _
      show v = gate_function np.type (np.unodes.map (valueOf (Node.set j _)))
      rw [map_valueOf_set Node j _ np.unodes hnotin]
      exact hvg
    · intro h
      exact absurd h ht0

/-- What `fault_free_simulation` computes on a levelized well-formed
netlist: it returns, changes only `node_value` fields, and every record
satisfies the value rule, the `IPT` lines holding 0. -/
theorem ffs_spec (c : Circuit) (hw : WellFormed c) (hl : Levelized c) :
    ∃ c1, fault_free_simulation c = some c1 ∧ c1.Pinput = c.Pinput ∧
      c1.Poutput = c.Poutput ∧ c1.Maxlevel = c.Maxlevel ∧
      c1.Node.length = c.Node.length ∧
      (∀ (k : Nat) (np : NSTRUC), c.Node[k]? = some np →
        ∃ np1 : NSTRUC, c1.Node[k]? = some np1 ∧ FfsFrame np np1) ∧
      (∀ (k : Nat) (np1 : NSTRUC), c1.Node[k]? = some np1 → FfsDone c1.Node k np1) := by
  have ok := netOK_of hw hl
  obtain ⟨Node0, h0, hlen0, hrec0⟩ := ffs_inputs_spec c.Pinput c.Node hw.2
  have hfr0 : ∀ (k : Nat) (np : NSTRUC), c.Node[k]? = some np →
      ∃ np0 : NSTRUC, Node0[k]? = some np0 ∧ FfsFrame np np0 ∧
        (k ∈ c.Pinput → np0.node_value = 0) := by
    intro k np hk
    refine ⟨_, hrec0 k np hk, ?_, ?_⟩
    · by_cases hin : k ∈ c.Pinput
      · rw [if_pos hin]; rfl
      · rw [if_neg hin]; rfl
    · intro hin
      rw [if_pos hin]
  have hsame : SameNet c.Node Node0 := by
    refine ⟨hlen0, ?_⟩
    intro k np hk
    obtain ⟨np0, h1, h2, _⟩ := hfr0 k np hk
    exact ⟨np0, h1, h2.ffs_fields.1, h2.ffs_fields.2.1, h2.ffs_fields.2.2.1, h2.ffs_fields.2.2.2.1⟩
  have ok0 := hsame.netOK ok
  have H := ffs_sweepHyp ok0
  have inv0 : SweepInv FfsFrame FfsDone Node0 1 0 Node0 := by
    refine ⟨rfl, fun k np0 h => ⟨np0, h, rfl⟩, fun k np0 h _ => h, ?_⟩
    intro k np0 hk hd
    have hlev : np0.level < 1 := by
      rcases hd with h | ⟨_, h⟩
      · exact h
      · exact absurd h (Nat.not_lt_zero k)
    have ht : np0.type = IPT := by
      by_contra hne
      have := ok0.gateLevel k np0 hk hne
      omega
    obtain ⟨np, hnp, _⟩ := getElem?_of_lt c.Node k
      (by rw [← hlen0]; exact lt_of_getElem?_some hk)
    obtain ⟨np0', h1, h2, h3⟩ := hfr0 k np hnp
    rw [hk] at h1
    have := Option.some.inj h1
    subst this
    have htn : np.type = IPT := by
      rw [← h2.ffs_fields.2.1]; exact ht
    have hin : k ∈ c.Pinput :=
      (hw.1 (k, np) (List.mk_mem_enum_iff_getElem?.mpr hnp)).2.2.2.1 htn
    exact ⟨⟨Or.inl (h3 hin), fun h => absurd ht h⟩, fun _ => h3 hin⟩
  obtain ⟨Node1, hloop, inv1⟩ := sweep_levels_spec H ffs_level
    (by
      intro k Node
      unfold ffs_level
      rw [ffs_visit_eq, add_comm])
    c.Maxlevel.toNat Node0 inv0
  refine ⟨{ c with Node := Node1 }, ?_, rfl, rfl, rfl, ?_, ?_, ?_⟩
  · simp only [fault_free_simulation, h0, hloop, Option.map_some']
  · show Node1.length = c.Node.length
    rw [inv1.len, hlen0]
  · intro k np hk
    obtain ⟨np0, h1, h2, _⟩ := hfr0 k np hk
    obtain ⟨np1, h3, h4⟩ := inv1.frame k np0 h1
    refine ⟨np1, h3, ?_⟩
    unfold FfsFrame at h2 h4 ⊢
    rw [h4, h2]
  · intro k np1 hk
    refine inv1.done k np1 hk (Or.inl ?_)
    obtain ⟨np, hnp, _⟩ := getElem?_of_lt c.Node k
      (by rw [← hlen0, ← inv1.len]; exact lt_of_getElem?_some hk)
    obtain ⟨np0, h1, h2, _⟩ := hfr0 k np hnp
    obtain ⟨np1', h3, h4⟩ := inv1.frame k np0 h1
    rw [hk] at h3
    have := Option.some.inj h3
    subst this
    have e1 : np1.level = np0.level := h4.ffs_fields.2.2.2.1
    have e0 : np0.level = np.level := h2.ffs_fields.2.2.2.1
    have hmax : np.level ≤ c.Maxlevel := (hl (k, np) (List.mk_mem_enum_iff_getElem?.mpr hnp)).2.2.1
    have := Int.self_le_toNat c.Maxlevel
    omega

/-! ### Fault list cells -/

theorem union_cell_spec (a x y : Int) (ha : a = 0 ∨ a = 1) (hx : x = 2 ∨ x = a)
    (hy : y = 2 ∨ y = a) :
    (union_cell x y = 2 ∨ union_cell x y = a) ∧
    ∀ p : Int, (p = 0 ∨ p = 1) →
      ((union_cell x y = p ∨ union_cell x y = 3) ↔ ((x = p ∨ x = 3) ∨ (y = p ∨ y = 3))) := by
  rcases ha with rfl | rfl <;> rcases hx with rfl | rfl <;> rcases hy with rfl | rfl <;>
    refine ⟨by decide, ?_⟩ <;> rintro p (rfl | rfl) <;> decide

theorem intersaction_cell_spec (a x y : Int) (ha : a = 0 ∨ a = 1)
    (hx : x = 3 ∨ x = 2 ∨ x = a) (hy : y = 2 ∨ y = a) :
    ∃ z, intersaction_cell x y = some z ∧ (z = 2 ∨ z = a) ∧
    ∀ p : Int, (p = 0 ∨ p = 1) →
      ((z = p ∨ z = 3) ↔ ((x = p ∨ x = 3) ∧ (y = p ∨ y = 3))) := by
  rcases ha with rfl | rfl <;> rcases hx with rfl | rfl | rfl <;> rcases hy with rfl | rfl <;>
    refine ⟨_, rfl, by decide, ?_⟩ <;> rintro p (rfl | rfl) <;> decide

theorem minus_cell_spec (a x y : Int) (ha : a = 0 ∨ a = 1) (hx : x = 2 ∨ x = a)
    (hy : y = 2 ∨ y = a) :
    (minus_cell x y = 2 ∨ minus_cell x y = a) ∧
    ∀ p : Int, (p = 0 ∨ p = 1) →
      ((minus_cell x y = p ∨ minus_cell x y = 3) ↔ ((x = p ∨ x = 3) ∧ ¬ (y = p ∨ y = 3))) := by
  rcases ha with rfl | rfl <;> rcases hx with rfl | rfl <;> rcases hy with rfl | rfl <;>
    refine ⟨by decide, ?_⟩ <;> rintro p (rfl | rfl) <;> decide

theorem cellwise_spec (f : Int → Int → Option Int) :
    ∀ (n : Nat) (x y : List Int), x.length = n → y.length = n →
      (∀ (m : Nat) (a b : Int), x[m]? = some a → y[m]? = some b → ∃ c, f a b = some c) →
      ∃ z, cellwise f n x y = some z ∧ z.length = n ∧
        ∀ (m : Nat) (a b : Int), x[m]? = some a → y[m]? = some b → z[m]? = f a b := by
  intro n
  induction n with
  | zero =>
    intro x y hx hy _
    refine ⟨[], rfl, rfl, ?_⟩
    intro m a b ha _
    rw [List.length_eq_zero.mp hx] at ha
    simp at ha
  | succ n ih =>
    intro x y hx hy hf
    obtain ⟨a, x', rfl⟩ := List.exists_cons_of_length_eq_add_one hx
    obtain ⟨b, y', rfl⟩ := List.exists_cons_of_length_eq_add_one hy
    obtain ⟨c, hc⟩ := hf 0 a b (by simp) (by simp)
    obtain ⟨z, hz, hzl, hzc⟩ := ih x' y' (by simpa using hx) (by simpa using hy)
      (fun m a' b' ha' hb' => hf (m + 1) a' b' (by simpa using ha') (by simpa using hb'))
    refine ⟨c :: z, by simp [cellwise, hc, hz], by simp [hzl], ?_⟩
    intro m a' b' ha' hb'
    cases m with
    | zero =>
      simp only [List.getElem?_cons_zero, Option.some.injEq] at ha' hb' ⊢
      subst ha' hb'
      exact hc.symm
    | succ m =>
      simp only [List.getElem?_cons_succ] at ha' hb' ⊢
      exact hzc m a' b' ha' hb'

theorem cellwise_rel (f : Int → Int → Option Int) (R : Nat → Int → Int → Int → Prop)
    (n : Nat) (x y : List Int) (hx : x.length = n) (hy : y.length = n)
    (hf : ∀ (m : Nat) (a b : Int), x[m]? = some a → y[m]? = some b →
      ∃ c, f a b = some c ∧ R m a b c) :
    ∃ z, cellwise f n x y = some z ∧ z.length = n ∧
      ∀ m : Nat,
        (m < n → ∃ a b c, x[m]? = some a ∧ y[m]? = some b ∧ z[m]? = some c ∧ R m a b c) ∧
        (n ≤ m → x[m]? = none ∧ y[m]? = none ∧ z[m]? = none) := by
  obtain ⟨z, hz, hzl, hzc⟩ := cellwise_spec f n x y hx hy
    (fun m a b ha hb => by
      obtain ⟨c, hc, _⟩ := hf m a b ha hb
      exact ⟨c, hc⟩)
  refine ⟨z, hz, hzl, ?_⟩
  intro m
  constructor
  · intro hm
    obtain ⟨a, ha, _⟩ := getElem?_of_lt x m (by rw [hx]; exact hm)
    obtain ⟨b, hb, _⟩ := getElem?_of_lt y m (by rw [hy]; exact hm)
    obtain ⟨c, hc, hR⟩ := hf m a b ha hb
    exact ⟨a, b, c, ha, hb, by rw [hzc m a b ha hb, hc], hR⟩
  · intro hm
    exact ⟨List.getElem?_eq_none (by rw [hx]; exact hm),
      List.getElem?_eq_none (by rw [hy]; exact hm),
      List.getElem?_eq_none (by rw [hzl]; exact hm)⟩

theorem holdsAt_some {L : List Int} {m : Nat} {c : Int} (h : L[m]? = some c) (p : Int) :
    holdsAt L m p ↔ (c = p ∨ c = 3) := by
  unfold holdsAt
  rw [h]
  simp

theorem holdsAt_none {L : List Int} {m : Nat} (h : L[m]? = none) (p : Int) :
    ¬ holdsAt L m p := by
  unfold holdsAt
  rw [h]
  simp

theorem union_op_spec (val : Nat → Int) (n : Nat) (x y : List Int)
    (hx : Alpha val n x) (hy : Alpha val n y) :
    ∃ z, union_op n x y = some z ∧ Alpha val n z ∧
      ∀ (m : Nat) (p : Int), (p = 0 ∨ p = 1) →
        (holdsAt z m p ↔ (holdsAt x m p ∨ holdsAt y m p)) := by
  obtain ⟨z, hz, hzl, hzc⟩ := cellwise_rel (fun a b => some (union_cell a b))
    (fun m a b c => (c = 2 ∨ c = lnot (val m)) ∧
      ∀ p : Int, (p = 0 ∨ p = 1) → ((c = p ∨ c = 3) ↔ ((a = p ∨ a = 3) ∨ (b = p ∨ b = 3))))
    n x y hx.1 hy.1
    (fun m a b ha hb =>
      ⟨_, rfl, union_cell_spec (lnot (val m)) a b (lnot_is_bool _) (hx.2 m a ha) (hy.2 m b hb)⟩)
  refine ⟨z, hz, ⟨hzl, ?_⟩, ?_⟩
  · intro m v hv
    obtain ⟨a, b, c, _, _, hc, hR, _⟩ := (hzc m).1 (by rw [← hzl]; exact lt_of_getElem?_some hv)
    rw [hv] at hc
    rw [Option.some.inj hc]
    exact hR
  · intro m p hp
    rcases Nat.lt_or_ge m n with hm | hm
    · obtain ⟨a, b, c, ha, hb, hc, _, hR⟩ := (hzc m).1 hm
      rw [holdsAt_some ha, holdsAt_some hb, holdsAt_some hc]
      exact hR p hp
    · obtain ⟨ha, hb, hc⟩ := (hzc m).2 hm
      exact ⟨fun h => absurd h (holdsAt_none hc p),
        fun h => h.elim (fun h => absurd h (holdsAt_none ha p))
          (fun h => absurd h (holdsAt_none hb p))⟩

theorem intersaction_op_spec (val : Nat → Int) (n : Nat) (x y : List Int)
    (hx : Alpha3 val n x) (hy : Alpha val n y) :
    ∃ z, intersaction_op n x y = some z ∧ Alpha val n z ∧
      ∀ (m : Nat) (p : Int), (p = 0 ∨ p = 1) →
        (holdsAt z m p ↔ (holdsAt x m p ∧ holdsAt y m p)) := by
  obtain ⟨z, hz, hzl, hzc⟩ := cellwise_rel intersaction_cell
    (fun m a b c => (c = 2 ∨ c = lnot (val m)) ∧
      ∀ p : Int, (p = 0 ∨ p = 1) → ((c = p ∨ c = 3) ↔ ((a = p ∨ a = 3) ∧ (b = p ∨ b = 3))))
    n x y hx.1 hy.1
    (fun m a b ha hb =>
      intersaction_cell_spec (lnot (val m)) a b (lnot_is_bool _) (hx.2 m a ha) (hy.2 m b hb))
  refine ⟨z, hz, ⟨hzl, ?_⟩, ?_⟩
  · intro m v hv
    obtain ⟨a, b, c, _, _, hc, hR, _⟩ := (hzc m).1 (by rw [← hzl]; exact lt_of_getElem?_some hv)
    rw [hv] at hc
    rw [Option.some.inj hc]
    exact hR
  · intro m p hp
    rcases Nat.lt_or_ge m n with hm | hm
    · obtain ⟨a, b, c, ha, hb, hc, _, hR⟩ := (hzc m).1 hm
      rw [holdsAt_some ha, holdsAt_some hb, holdsAt_some hc]
      exact hR p hp
    · obtain ⟨ha, _, hc⟩ := (hzc m).2 hm
      exact ⟨fun h => absurd h (holdsAt_none hc p), fun h => absurd h.1 (holdsAt_none ha p)⟩

theorem minus_op_spec (val : Nat → Int) (n : Nat) (x y : List Int)
    (hx : Alpha val n x) (hy : Alpha val n y) :
    ∃ z, minus_op n x y = some z ∧ Alpha val n z ∧
      ∀ (m : Nat) (p : Int), (p = 0 ∨ p = 1) →
        (holdsAt z m p ↔ (holdsAt x m p ∧ ¬ holdsAt y m p)) := by
  obtain ⟨z, hz, hzl, hzc⟩ := cellwise_rel (fun a b => some (minus_cell a b))
    (fun m a b c => (c = 2 ∨ c = lnot (val m)) ∧
      ∀ p : Int, (p = 0 ∨ p = 1) →
        ((c = p ∨ c = 3) ↔ ((a = p ∨ a = 3) ∧ ¬ (b = p ∨ b = 3))))
    n x y hx.1 hy.1
    (fun m a b ha hb =>
      ⟨_, rfl, minus_cell_spec (lnot (val m)) a b (lnot_is_bool _) (hx.2 m a ha) (hy.2 m b hb)⟩)
  refine ⟨z, hz, ⟨hzl, ?_⟩, ?_⟩
  · intro m v hv
    obtain ⟨a, b, c, _, _, hc, hR, _⟩ := (hzc m).1 (by rw [← hzl]; exact lt_of_getElem?_some hv)
    rw [hv] at hc
    rw [Option.some.inj hc]
    exact hR
  · intro m p hp
    rcases Nat.lt_or_ge m n with hm | hm
    · obtain ⟨a, b, c, ha, hb, hc, _, hR⟩ := (hzc m).1 hm
      rw [holdsAt_some ha, holdsAt_some hb, holdsAt_some hc]
      exact hR p hp
    · obtain ⟨ha, _, hc⟩ := (hzc m).2 hm
      exact ⟨fun h => absurd h (holdsAt_none hc p), fun h => absurd h.1 (holdsAt_none ha p)⟩

/-! ### The fanin loops of `fault_list_propogate` -/

theorem inFaults_of {Node : List NSTRUC} {u : Nat} {un : NSTRUC} (h : Node[u]? = some un)
    (m : Nat) (p : Int) : inFaults Node u m p ↔ holdsAt un.L m p := by
  simp only [inFaults, faultList, h]

theorem valueOf_of {Node : List NSTRUC} {u : Nat} {un : NSTRUC} (h : Node[u]? = some un) :
    valueOf Node u = un.node_value := by
  simp only [valueOf, h]

theorem alpha_replicate (val : Nat → Int) (n : Nat) : Alpha val n (List.replicate n 2) := by
  refine ⟨List.length_replicate _ _, ?_⟩
  intro m v hv
  rw [List.getElem?_replicate] at hv
  split at hv
  · exact Or.inl (Option.some.inj hv).symm
  · exact Option.noConfusion hv

theorem alpha3_replicate (val : Nat → Int) (n : Nat) : Alpha3 val n (List.replicate n 3) := by
  refine ⟨List.length_replicate _ _, ?_⟩
  intro m v hv
  rw [List.getElem?_replicate] at hv
  split at hv
  · exact Or.inl (Option.some.inj hv).symm
  · exact Option.noConfusion hv

theorem Alpha.alpha3 {val : Nat → Int} {n : Nat} {L : List Int} (h : Alpha val n L) :
    Alpha3 val n L :=
  ⟨h.1, fun m v hv => Or.inr (h.2 m v hv)⟩

theorem holdsAt_replicate_two (n m : Nat) (p : Int) (hp : p = 0 ∨ p = 1) :
    ¬ holdsAt (List.replicate n (2 : Int)) m p := by
  unfold holdsAt
  rw [List.getElem?_replicate]
  split
  · rcases hp with rfl | rfl <;> simp
  · simp

theorem holdsAt_replicate_three (n m : Nat) (p : Int) :
    holdsAt (List.replicate n (3 : Int)) m p ↔ m < n := by
  unfold holdsAt
  rw [List.getElem?_replicate]
  split
  · simp [*]
  · simp [*]

theorem holdsAt_lt {L : List Int} {m : Nat} {p : Int} (h : holdsAt L m p) : m < L.length := by
  rcases h with h | h <;> exact lt_of_getElem?_some h

theorem union_fanins_spec (val : Nat → Int) (n : Nat) (Node : List NSTRUC) :
    ∀ (us : List Nat) (L2 : List Int),
      (∀ u ∈ us, ∃ un : NSTRUC, Node[u]? = some un ∧ Alpha val n un.L) →
      Alpha val n L2 →
      ∃ L2', union_fanins n Node us L2 = some L2' ∧ Alpha val n L2' ∧
        ∀ (m : Nat) (p : Int), (p = 0 ∨ p = 1) →
          (holdsAt L2' m p ↔ (holdsAt L2 m p ∨ ∃ u ∈ us, inFaults Node u m p)) := by
  intro us
  induction us with
  | nil =>
    intro L2 _ h2
    exact ⟨L2, rfl, h2, fun m p _ => by simp⟩
  | cons u us ih =>
    intro L2 hfan h2
    obtain ⟨un, hun, hal⟩ := hfan u (List.mem_cons_self _ _)
    obtain ⟨z, hz, hza, hzs⟩ := union_op_spec val n L2 un.L h2 hal
    obtain ⟨L2', h1, h3, h4⟩ := ih z (fun v hv => hfan v (List.mem_cons_of_mem _ hv)) hza
    refine ⟨L2', by simp only [union_fanins, hun, hz]; exact h1, h3, ?_⟩
    intro m p hp
    rw [h4 m p hp, hzs m p hp, ← inFaults_of hun]
    constructor
    · rintro ((h | h) | ⟨v, hv, h⟩)
      · exact Or.inl h
      · exact Or.inr ⟨u, List.mem_cons_self _ _, h⟩
      · exact Or.inr ⟨v, List.mem_cons_of_mem _ hv, h⟩
    · rintro (h | ⟨v, hv, h⟩)
      · exact Or.inl (Or.inl h)
      · rcases List.mem_cons.mp hv with rfl | hv
        · exact Or.inl (Or.inr h)
        · exact Or.inr ⟨v, hv, h⟩

theorem split_fanins_spec (val : Nat → Int) (n : Nat) (Node : List NSTRUC) (ctrl : Int) :
    ∀ (us : List Nat) (L1 L2 : List Int),
      (∀ u ∈ us, ∃ un : NSTRUC, Node[u]? = some un ∧ Alpha val n un.L) →
      Alpha3 val n L1 → Alpha val n L2 →
      ∃ L1' L2', split_fanins n Node ctrl us L1 L2 = some (L1', L2') ∧
        Alpha3 val n L1' ∧ Alpha val n L2' ∧
        ((Alpha val n L1 ∨ ∃ u ∈ us, valueOf Node u = ctrl) → Alpha val n L1') ∧
        ∀ (m : Nat) (p : Int), (p = 0 ∨ p = 1) →
          (holdsAt L1' m p ↔
            (holdsAt L1 m p ∧ ∀ u ∈ us, valueOf Node u = ctrl → inFaults Node u m p)) ∧
          (holdsAt L2' m p ↔
            (holdsAt L2 m p ∨ ∃ u ∈ us, valueOf Node u ≠ ctrl ∧ inFaults Node u m p)) := by
  intro us
  induction us with
  | nil =>
    intro L1 L2 _ h1 h2
    refine ⟨L1, L2, rfl, h1, h2, ?_, fun m p _ => by simp⟩
    rintro (h | ⟨u, hu, _⟩)
    · exact h
    · exact absurd hu (List.not_mem_nil _)
  | cons u us ih =>
    intro L1 L2 hfan h1 h2
    obtain ⟨un, hun, hal⟩ := hfan u (List.mem_cons_self _ _)
    have hval := valueOf_of hun
    have hrest := fun v hv => hfan v (List.mem_cons_of_mem u hv)
    by_cases hc : un.node_value = ctrl
    · obtain ⟨z, hz, hza, hzs⟩ := intersaction_op_spec val n L1 un.L h1 hal
      obtain ⟨L1', L2', e, a1, a2, a3, a4⟩ := ih z L2 hrest hza.alpha3 h2
      refine ⟨L1', L2', by simp only [split_fanins, hun, if_pos hc, hz]; exact e, a1, a2,
        fun _ => a3 (Or.inl hza), ?_⟩
      intro m p hp
      obtain ⟨b1, b2⟩ := a4 m p hp
      rw [b1, b2, hzs m p hp, ← inFaults_of hun]
      constructor
      · constructor
        · rintro ⟨⟨h, hu⟩, hall⟩
          refine ⟨h, ?_⟩
          intro v hv hvc
          rcases List.mem_cons.mp hv with rfl | hv
          · exact hu
          · exact hall v hv hvc
        · rintro ⟨h, hall⟩
          exact ⟨⟨h, hall u (List.mem_cons_self _ _) (hval.trans hc)⟩,
            fun v hv hvc => hall v (List.mem_cons_of_mem _ hv) hvc⟩
      · constructor
        · rintro (h | ⟨v, hv, hvc, hin⟩)
          · exact Or.inl h
          · exact Or.inr ⟨v, List.mem_cons_of_mem _ hv, hvc, hin⟩
        · rintro (h | ⟨v, hv, hvc, hin⟩)
          · exact Or.inl h
          · rcases List.mem_cons.mp hv with rfl | hv
            · exact absurd (hval.trans hc) hvc
            · exact Or.inr ⟨v, hv, hvc, hin⟩
    · obtain ⟨z, hz, hza, hzs⟩ := union_op_spec val n L2 un.L h2 hal
      obtain ⟨L1', L2', e, a1, a2, a3, a4⟩ := ih L1 z hrest h1 hza
      refine ⟨L1', L2', by simp only [split_fanins, hun, if_neg hc, hz]; exact e, a1, a2,
        ?_, ?_⟩
      · rintro (h | ⟨v, hv, hvc⟩)
        · exact a3 (Or.inl h)
        · rcases List.mem_cons.mp hv with rfl | hv
          · exact absurd (hval.symm.trans hvc) hc
          · exact a3 (Or.inr ⟨v, hv, hvc⟩)
      · intro m p hp
        obtain ⟨b1, b2⟩ := a4 m p hp
        rw [b1, b2, hzs m p hp, ← inFaults_of hun]
        constructor
        · constructor
          · rintro ⟨h, hall⟩
            refine ⟨h, ?_⟩
            intro v hv hvc
            rcases List.mem_cons.mp hv with rfl | hv
            · exact absurd (hval.symm.trans hvc) hc
            · exact hall v hv hvc
          · rintro ⟨h, hall⟩
            exact ⟨h, fun v hv hvc => hall v (List.mem_cons_of_mem _ hv) hvc⟩
        · constructor
          · rintro ((h | h) | ⟨v, hv, hvc, hin⟩)
            · exact Or.inl h
            · exact Or.inr ⟨u, List.mem_cons_self _ _, fun e => hc (hval.symm.trans e), h⟩
            · exact Or.inr ⟨v, List.mem_cons_of_mem _ hv, hvc, hin⟩
          · rintro (h | ⟨v, hv, hvc, hin⟩)
            · exact Or.inl (Or.inl h)
            · rcases List.mem_cons.mp hv with rfl | hv
              · exact Or.inl (Or.inr hin)
              · exact Or.inr ⟨v, hv, hvc, hin⟩

theorem gate_list_ruleA (val : Nat → Int) (n : Nat) (Node : List NSTRUC) (np : NSTRUC)
    (free ctrl : Int) (hfree : np.node_value = free)
    (hfan : ∀ u ∈ np.unodes, ∃ un : NSTRUC, Node[u]? = some un ∧ Alpha val n un.L) :
    ∃ L, gate_list n Node np free ctrl = some L ∧ Alpha val n L ∧
      ∀ (m : Nat) (p : Int), (p = 0 ∨ p = 1) →
        (holdsAt L m p ↔ ∃ u ∈ np.unodes, inFaults Node u m p) := by
  obtain ⟨L, h1, h2, h3⟩ := union_fanins_spec val n Node np.unodes _ hfan (alpha_replicate val n)
  refine ⟨L, by simp only [gate_list, if_pos hfree]; exact h1, h2, ?_⟩
  intro m p hp
  rw [h3 m p hp]
  exact ⟨fun h => h.resolve_left (holdsAt_replicate_two n m p hp), Or.inr⟩

theorem gate_list_ruleB (val : Nat → Int) (n : Nat) (Node : List NSTRUC) (np : NSTRUC)
    (free ctrl : Int) (hfree : np.node_value ≠ free)
    (hctrl : ∃ u ∈ np.unodes, valueOf Node u = ctrl)
    (hfan : ∀ u ∈ np.unodes, ∃ un : NSTRUC, Node[u]? = some un ∧ Alpha val n un.L) :
    ∃ L, gate_list n Node np free ctrl = some L ∧ Alpha val n L ∧
      ∀ (m : Nat) (p : Int), (p = 0 ∨ p = 1) →
        (holdsAt L m p ↔
          ((∀ u ∈ np.unodes, valueOf Node u = ctrl → inFaults Node u m p) ∧
            ¬ ∃ u ∈ np.unodes, valueOf Node u ≠ ctrl ∧ inFaults Node u m p)) := by
  obtain ⟨L1, L2, h1, _, a2, a3, a4⟩ := split_fanins_spec val n Node ctrl np.unodes _ _ hfan
    (alpha3_replicate val n) (alpha_replicate val n)
  have a1 := a3 (Or.inr hctrl)
  obtain ⟨L, hL, hLa, hLs⟩ := minus_op_spec val n L1 L2 a1 a2
  refine ⟨L, by simp only [gate_list, if_neg hfree, h1]; exact hL, hLa, ?_⟩
  intro m p hp
  obtain ⟨b1, b2⟩ := a4 m p hp
  rw [hLs m p hp, b1, b2, holdsAt_replicate_three]
  constructor
  · rintro ⟨⟨_, hall⟩, hno⟩
    exact ⟨hall, fun h => hno (Or.inr h)⟩
  · rintro ⟨hall, hno⟩
    obtain ⟨u, hu, huc⟩ := hctrl
    obtain ⟨un, hun, hal⟩ := hfan u hu
    have hm : m < n := by
      have := holdsAt_lt ((inFaults_of hun m p).mp (hall u hu huc))
      rw [hal.1] at this
      exact this
    refine ⟨⟨hm, hall⟩, ?_⟩
    rintro (h | h)
    · exact holdsAt_replicate_two n m p hp h
    · exact hno h

theorem set_cell_spec (val : Nat → Int) (n : Nat) (L : List Int) (i : Nat) (v : Int)
    (hL : Alpha val n L) (hi : i < n) (hv : v = lnot (val i)) :
    set_cell L i v = some (L.set i v) ∧ Alpha val n (L.set i v) := by
  refine ⟨by simp [set_cell, hL.1, hi], by simp [hL.1], ?_⟩
  intro m w hw
  by_cases him : i = m
  · subst him
    rw [List.getElem?_set_self (by rw [hL.1]; exact hi)] at hw
    rw [← Option.some.inj hw]
    exact Or.inr hv
  · rw [List.getElem?_set_ne him] at hw
    exact hL.2 m w hw

theorem gate_free_iff (Node : List NSTRUC) (np : NSTRUC) (free ctrl : Int)
    (hcase : GateCase np.type free ctrl) (hval : ValueRule Node np)
    (hb : ∀ u ∈ np.unodes, valueOf Node u = 0 ∨ valueOf Node u = 1) :
    np.node_value = free ↔ ¬ ∃ u ∈ np.unodes, valueOf Node u = ctrl := by
  have hex : ∀ a : Int, (∃ v ∈ np.unodes.map (valueOf Node), v = a) ↔
      ∃ u ∈ np.unodes, valueOf Node u = a := by
    intro a
    simp only [List.mem_map]
    constructor
    · rintro ⟨v, ⟨u, hu, rfl⟩, h⟩
      exact ⟨u, hu, h⟩
    · rintro ⟨u, hu, h⟩
      exact ⟨_, ⟨u, hu, rfl⟩, h⟩
  have hall : (∀ v ∈ np.unodes.map (valueOf Node), v = 1) ↔
      ¬ ∃ u ∈ np.unodes, valueOf Node u = 0 := by
    constructor
    · rintro h ⟨u, hu, h0⟩
      have := h _ (List.mem_map.mpr ⟨u, hu, rfl⟩)
      omega
    · intro h v hv
      obtain ⟨u, hu, rfl⟩ := List.mem_map.mp hv
      exact (hb u hu).resolve_left (fun h0 => h ⟨u, hu, h0⟩)
  rcases hcase with ⟨ht, rfl, rfl⟩ | ⟨ht, rfl, rfl⟩ | ⟨ht, rfl, rfl⟩ | ⟨ht, rfl, rfl⟩
  · have he := hval.2 (by rw [ht]; decide)
    rw [ht] at he
    simp only [gate_function] at he
    rw [he, ← hex]
    by_cases h : ∃ v ∈ np.unodes.map (valueOf Node), v = 1 <;> simp [h]
  · have he := hval.2 (by rw [ht]; decide)
    rw [ht] at he
    simp only [gate_function] at he
    rw [he, ← hex]
    by_cases h : ∃ v ∈ np.unodes.map (valueOf Node), v = 1 <;> simp [h]
  · have he := hval.2 (by rw [ht]; decide)
    rw [ht] at he
    simp only [gate_function] at he
    rw [he, ← hall]
    by_cases h : ∀ v ∈ np.unodes.map (valueOf Node), v = 1 <;> simp [h]
  · have he := hval.2 (by rw [ht]; decide)
    rw [ht] at he
    simp only [gate_function] at he
    rw [he, ← hall]
    by_cases h : ∀ v ∈ np.unodes.map (valueOf Node), v = 1 <;> simp [h]

theorem propagate_gate (Node : List NSTRUC) (np : NSTRUC) (free ctrl : Int)
    (hcase : GateCase np.type free ctrl) :
    propagate_list Node np =
      (gate_list Node.length Node np free ctrl).bind
        (fun L => set_cell L np.indx (lnot np.node_value)) := by
  rcases hcase with ⟨ht, rfl, rfl⟩ | ⟨ht, rfl, rfl⟩ | ⟨ht, rfl, rfl⟩ | ⟨ht, rfl, rfl⟩ <;>
    simp only [propagate_list, ht]

/-! ### One call of `fault_list_propogate` -/

theorem union_fanins_congr (n : Nat) (Node Node' : List NSTRUC) :
    ∀ (us : List Nat) (L2 : List Int), (∀ u ∈ us, Node'[u]? = Node[u]?) →
      union_fanins n Node' us L2 = union_fanins n Node us L2 := by
  intro us
  induction us with
  | nil => intro L2 _; rfl
  | cons u us ih =>
    intro L2 h
    simp only [union_fanins, h u (List.mem_cons_self _ _)]
    cases Node[u]? with
    | none => rfl
    | some un =>
      simp only
      cases union_op n L2 un.L with
      | none => rfl
      | some z => exact ih z (fun v hv => h v (List.mem_cons_of_mem _ hv))

theorem split_fanins_congr (n : Nat) (Node Node' : List NSTRUC) (ctrl : Int) :
    ∀ (us : List Nat) (L1 L2 : List Int), (∀ u ∈ us, Node'[u]? = Node[u]?) →
      split_fanins n Node' ctrl us L1 L2 = split_fanins n Node ctrl us L1 L2 := by
  intro us
  induction us with
  | nil => intro L1 L2 _; rfl
  | cons u us ih =>
    intro L1 L2 h
    have hrest := fun v hv => h v (List.mem_cons_of_mem u hv)
    simp only [split_fanins, h u (List.mem_cons_self _ _)]
    cases Node[u]? with
    | none => rfl
    | some un =>
      simp only
      split
      · cases intersaction_op n L1 un.L with
        | none => rfl
        | some z => exact ih z L2 hrest
      · cases union_op n L2 un.L with
        | none => rfl
        | some z => exact ih L1 z hrest

theorem gate_list_congr (n : Nat) (Node Node' : List NSTRUC) (np : NSTRUC) (free ctrl : Int)
    (h : ∀ u ∈ np.unodes, Node'[u]? = Node[u]?) :
    gate_list n Node' np free ctrl = gate_list n Node np free ctrl := by
  simp only [gate_list, union_fanins_congr n Node Node' np.unodes _ h,
    split_fanins_congr n Node Node' ctrl np.unodes _ _ h]

theorem propagate_list_congr (Node Node' : List NSTRUC) (np : NSTRUC)
    (hlen : Node'.length = Node.length) (h : ∀ u ∈ np.unodes, Node'[u]? = Node[u]?) :
    propagate_list Node' np = propagate_list Node np := by
  have hg := fun free ctrl => gate_list_congr Node.length Node Node' np free ctrl h
  unfold propagate_list
  rw [hlen]
  split
  · rfl
  · cases hu : np.unodes[0]? with
    | none => rfl
    | some u =>
      simp only
      rw [h u (List.getElem?_mem hu)]
  · rfl
  · rw [hg]
  · rw [hg]
  · rfl
  · rw [hg]
  · rw [hg]
  · rfl

theorem propagate_list_alpha (Node : List NSTRUC) (np : NSTRUC)
    (hL : Alpha (valueOf Node) Node.length np.L) (hi : np.indx < Node.length)
    (hself : valueOf Node np.indx = np.node_value) (ht7 : np.type ≤ 7)
    (hs : np.type = 1 ∨ np.type = 5 → np.unodes.length = 1)
    (hfan : ∀ u ∈ np.unodes, ∃ un : NSTRUC, Node[u]? = some un ∧
      Alpha (valueOf Node) Node.length un.L)
    (hval : ValueRule Node np)
    (hb : ∀ u ∈ np.unodes, valueOf Node u = 0 ∨ valueOf Node u = 1) :
    ∃ L', propagate_list Node np = some L' ∧ Alpha (valueOf Node) Node.length L' := by
  have hv : lnot np.node_value = lnot (valueOf Node np.indx) := by rw [hself]
  have hgate : ∀ free ctrl : Int, GateCase np.type free ctrl →
      ∃ L', propagate_list Node np = some L' ∧ Alpha (valueOf Node) Node.length L' := by
    intro free ctrl hcase
    rw [propagate_gate Node np free ctrl hcase]
    by_cases hfree : np.node_value = free
    · obtain ⟨L, h1, h2, _⟩ := gate_list_ruleA (valueOf Node) Node.length Node np free ctrl
        hfree hfan
      obtain ⟨h3, h4⟩ := set_cell_spec _ _ L np.indx _ h2 hi hv
      exact ⟨_, by rw [h1]; exact h3, h4⟩
    · have hctrl : ∃ u ∈ np.unodes, valueOf Node u = ctrl := by
        by_contra hno
        exact hfree ((gate_free_iff Node np free ctrl hcase hval hb).mpr hno)
      obtain ⟨L, h1, h2, _⟩ := gate_list_ruleB (valueOf Node) Node.length Node np free ctrl
        hfree hctrl hfan
      obtain ⟨h3, h4⟩ := set_cell_spec _ _ L np.indx _ h2 hi hv
      exact ⟨_, by rw [h1]; exact h3, h4⟩
  have hcases : np.type = 0 ∨ np.type = 1 ∨ np.type = 2 ∨ np.type = 3 ∨ np.type = 4 ∨
      np.type = 5 ∨ np.type = 6 ∨ np.type = 7 := by omega
  rcases hcases with ht | ht | ht | ht | ht | ht | ht | ht
  · obtain ⟨h3, h4⟩ := set_cell_spec _ _ np.L np.indx _ hL hi hv
    exact ⟨_, by simp only [propagate_list, ht]; exact h3, h4⟩
  · obtain ⟨u, hu⟩ := List.length_eq_one.mp (hs (Or.inl ht))
    obtain ⟨un, hun, hal⟩ := hfan u (by rw [hu]; simp)
    have htake : List.take Node.length un.L ++ List.drop Node.length np.L = un.L := by
      rw [List.take_of_length_le (le_of_eq hal.1), List.drop_of_length_le (le_of_eq hL.1)]
      simp
    obtain ⟨h3, h4⟩ := set_cell_spec _ _ un.L np.indx _ hal hi hv
    refine ⟨_, ?_, h4⟩
    simp only [propagate_list, ht, hu, List.getElem?_cons_zero, hun, hal.1, hL.1, le_refl,
      and_self, if_true, htake]
    exact h3
  · exact ⟨np.L, by simp only [propagate_list, ht], hL⟩
  · exact hgate 0 1 (Or.inl ⟨ht, rfl, rfl⟩)
  · exact hgate 1 1 (Or.inr (Or.inl ⟨ht, rfl, rfl⟩))
  · obtain ⟨h3, h4⟩ := set_cell_spec _ _ np.L np.indx _ hL hi hv
    exact ⟨_, by simp only [propagate_list, ht]; exact h3, h4⟩
  · exact hgate 0 0 (Or.inr (Or.inr (Or.inl ⟨ht, rfl, rfl⟩)))
  · exact hgate 1 0 (Or.inr (Or.inr (Or.inr ⟨ht, rfl, rfl⟩)))

/-! ### Deductive fault simulation -/

theorem DfsFrame.dfs_fields {a b : NSTRUC} (h : DfsFrame a b) :
    b.indx = a.indx ∧ b.type = a.type ∧ b.unodes = a.unodes ∧ b.level = a.level ∧
      b.node_value = a.node_value := by
  have h' : b = { a with L := b.L } := h
  have h1 := congrArg NSTRUC.indx h'
  have h2 := congrArg NSTRUC.type h'
  have h3 := congrArg NSTRUC.unodes h'
  have h4 := congrArg NSTRUC.level h'
  have h5 := congrArg NSTRUC.node_value h'
  exact ⟨h1, h2, h3, h4, h5⟩

theorem dfs_visit_eq (i : Int) : dfs_visit i = visitWith dfs_upd i := by
  funext j Node
  unfold dfs_visit visitWith dfs_upd fault_list_propogate
  cases h : Node[j]? with
  | none => rfl
  | some np =>
    simp only
    split
    · cases propagate_list Node np <;> rfl
    · rfl

theorem valueOf_set_same (Node : List NSTRUC) (j : Nat) (np np' : NSTRUC)
    (hj : Node[j]? = some np) (hv : np'.node_value = np.node_value) :
    valueOf (Node.set j np') = valueOf Node := by
  funext m
  by_cases hjm : j = m
  · subst hjm
    simp only [valueOf, List.getElem?_set_self (lt_of_getElem?_some hj), hj, hv]
  · exact valueOf_set_ne Node j np' m hjm

theorem valueOf_eq_of_frame {Node0 Node : List NSTRUC} (hlen : Node.length = Node0.length)
    (hfr : ∀ (k : Nat) (np0 : NSTRUC), Node0[k]? = some np0 →
      ∃ r : NSTRUC, Node[k]? = some r ∧ r.node_value = np0.node_value) :
    valueOf Node = valueOf Node0 := by
  funext m
  rcases Nat.lt_or_ge m Node0.length with hm | hm
  · obtain ⟨np0, h0, _⟩ := getElem?_of_lt Node0 m hm
    obtain ⟨r, hr, hv⟩ := hfr m np0 h0
    simp only [valueOf, h0, hr, hv]
  · simp only [valueOf, List.getElem?_eq_none hm,
      List.getElem?_eq_none (show Node.length ≤ m by rw [hlen]; exact hm)]

theorem getElem?_set_notin (Node : List NSTRUC) (j : Nat) (np' : NSTRUC) (us : List Nat)
    (h : j ∉ us) : ∀ u ∈ us, (Node.set j np')[u]? = Node[u]? :=
  fun u hu => List.getElem?_set_ne (fun e : j = u => h (e ▸ hu))

theorem dfs_sweepHyp {Node0 : List NSTRUC} (ok : NetOK Node0)
    (hvals : ∀ (k : Nat) (np : NSTRUC), Node0[k]? = some np → ValueRule Node0 np)
    (hinit : ∀ (k : Nat) (np : NSTRUC), Node0[k]? = some np →
      np.L = List.replicate Node0.length 2) :
    SweepHyp dfs_upd DfsFrame DfsDone 0 Node0 := by
  refine ⟨?_, ?_, ok.lower, ?_, ?_⟩
  · intro a b h
    exact ⟨h.dfs_fields.2.2.2.1, h.dfs_fields.2.2.1⟩
  · intro a
    rfl
  · intro Node j npj npj' k np _ hj hfr _ hnotin _ hQ
    obtain ⟨hal, heq⟩ := hQ
    have hval := valueOf_set_same Node j npj npj' hj hfr.dfs_fields.2.2.2.2
    refine ⟨?_, ?_⟩
    · rw [hval, List.length_set]
      exact hal
    · rw [List.length_set]
      exact Eq.trans (propagate_list_congr Node (Node.set j npj') _
        (List.length_set _ _ _) (getElem?_set_notin Node j npj' np.unodes hnotin)) heq
  · intro Node j np hlen hframe hnp0 hnp _ hfan
    have hvaleq : valueOf Node = valueOf Node0 :=
      valueOf_eq_of_frame hlen (fun k np0 h0 => by
        obtain ⟨r, hr, hfr⟩ := hframe k np0 h0
        exact ⟨r, hr, hfr.dfs_fields.2.2.2.2⟩)
    have hL : np.L = List.replicate Node.length 2 := by
      rw [hlen]; exact hinit j np hnp0
    have hjl : j < Node.length := lt_of_getElem?_some hnp
    have hindx : np.indx = j := ok.indx j np hnp0
    have hrule : ValueRule Node np := by
      have := hvals j np hnp0
      unfold ValueRule at this ⊢
      rw [hvaleq]
      exact this
    have hb : ∀ u ∈ np.unodes, valueOf Node u = 0 ∨ valueOf Node u = 1 := by
      intro u hu
      obtain ⟨un0, hun0, _⟩ := ok.lower j np hnp0 u hu
      rw [hvaleq, valueOf_of hun0]
      exact (hvals u un0 hun0).1
    obtain ⟨L', h1, h2⟩ := propagate_list_alpha Node np
      (by rw [hL]; exact alpha_replicate _ _) (by rw [hindx]; exact hjl)
      (by rw [hindx]; exact valueOf_of hnp) (ok.typeLe j np hnp0) (ok.single j np hnp0)
      (fun u hu => by
        obtain ⟨un, hun, hQ⟩ := hfan u hu
        exact ⟨un, hun, hQ.1⟩)
      hrule hb
    have hval := valueOf_set_same Node j np { np with L := L' } hnp rfl
    have hnotin : j ∉ np.unodes := ok.not_self hnp0
    refine ⟨{ np with L := L' }, by simp only [dfs_upd, h1, Option.map_some'], rfl, ?_, ?_⟩
    · rw [hval, List.length_set]
      exact h2
    · have hrec : ({ ({ np with L := L' } : NSTRUC) with
          L := List.replicate (Node.set j { np with L := L' }).length (2 : Int) } : NSTRUC)
          = np := by
        rw [List.length_set]
        cases np
        simp only at hL
        subst hL
        rfl
      rw [hrec, propagate_list_congr Node (Node.set j _) np (List.length_set _ _ _)
        (getElem?_set_notin Node j _ _ hnotin)]
      exact h1

/-- What `deductive_fault_simulation` computes on a levelized well-formed
netlist whose values obey the value rule: it returns, changes only the
lists `L`, and every record satisfies `DfsDone` in the final state. -/
theorem dfs_spec (c1 : Circuit) (ok : NetOK c1.Node)
    (hmax : ∀ (k : Nat) (np : NSTRUC), c1.Node[k]? = some np → np.level ≤ c1.Maxlevel)
    (hvals : ∀ (k : Nat) (np : NSTRUC), c1.Node[k]? = some np → ValueRule c1.Node np) :
    ∃ c2, deductive_fault_simulation c1 = some c2 ∧ c2.Node.length = c1.Node.length ∧
      (∀ (k : Nat) (np : NSTRUC), c1.Node[k]? = some np →
        ∃ np2 : NSTRUC, c2.Node[k]? = some np2 ∧ DfsFrame np np2) ∧
      ∀ (k : Nat) (np2 : NSTRUC), c2.Node[k]? = some np2 → DfsDone c2.Node k np2 := by
  have hlen0 : (dfs_init c1.Node).length = c1.Node.length := by simp [dfs_init]
  have h0 : ∀ (k : Nat) (np : NSTRUC), c1.Node[k]? = some np →
      (dfs_init c1.Node)[k]? =
        some { np with L := List.replicate c1.Node.length (2 : Int) } := by
    intro k np hk
    simp [dfs_init, List.getElem?_map, hk]
  have hback : ∀ (k : Nat) (np0 : NSTRUC), (dfs_init c1.Node)[k]? = some np0 →
      ∃ np : NSTRUC, c1.Node[k]? = some np ∧
        np0 = { np with L := List.replicate c1.Node.length (2 : Int) } := by
    intro k np0 hk
    obtain ⟨np, hnp, _⟩ := getElem?_of_lt c1.Node k (by rw [← hlen0]; exact lt_of_getElem?_some hk)
    refine ⟨np, hnp, ?_⟩
    rw [h0 k np hnp] at hk
    exact (Option.some.inj hk).symm
  have hsame : SameNet c1.Node (dfs_init c1.Node) :=
    ⟨hlen0, fun k np hk => ⟨_, h0 k np hk, rfl, rfl, rfl, rfl⟩⟩
  have ok0 := hsame.netOK ok
  have hvaleq : valueOf (dfs_init c1.Node) = valueOf c1.Node :=
    valueOf_eq_of_frame hlen0 (fun k np hk => ⟨_, h0 k np hk, rfl⟩)
  have H := dfs_sweepHyp ok0
    (by
      intro k np0 hk
      obtain ⟨np, hnp, rfl⟩ := hback k np0 hk
      have := hvals k np hnp
      unfold ValueRule at this ⊢
      rw [hvaleq]
      exact this)
    (by
      intro k np0 hk
      obtain ⟨np, _, rfl⟩ := hback k np0 hk
      rw [hlen0])
  have inv0 : SweepInv DfsFrame DfsDone (dfs_init c1.Node) 0 0 (dfs_init c1.Node) := by
    refine ⟨rfl, fun k np0 h => ⟨np0, h, rfl⟩, fun k np0 h _ => h, ?_⟩
    intro k np0 hk hd
    exfalso
    have hnn : 0 ≤ np0.level := by
      by_cases ht : np0.type = IPT
      · rw [ok0.inputLevel k np0 hk ht]
      · have := ok0.gateLevel k np0 hk ht
        omega
    rcases hd with h | ⟨_, h⟩
    · omega
    · exact Nat.not_lt_zero k h
  obtain ⟨Node2, hloop, inv2⟩ := sweep_levels_spec H dfs_level
    (by
      intro k Node
      unfold dfs_level
      rw [dfs_visit_eq, zero_add])
    (c1.Maxlevel + 1).toNat (dfs_init c1.Node) inv0
  refine ⟨{ c1 with Node := Node2 }, ?_, ?_, ?_, ?_⟩
  · simp only [deductive_fault_simulation, hloop, Option.map_some']
  · show Node2.length = c1.Node.length
    rw [inv2.len, hlen0]
  · intro k np hk
    obtain ⟨np2, h2, hfr⟩ := inv2.frame k _ (h0 k np hk)
    refine ⟨np2, h2, ?_⟩
    unfold DfsFrame at hfr ⊢
    rw [hfr]
  · intro k np2 hk
    refine inv2.done k np2 hk (Or.inl ?_)
    obtain ⟨np0, hnp0, _⟩ := getElem?_of_lt (dfs_init c1.Node) k
      (by rw [← inv2.len]; exact lt_of_getElem?_some hk)
    obtain ⟨np, hnp, hrec⟩ := hback k np0 hnp0
    obtain ⟨np2', h2, hfr⟩ := inv2.frame k np0 hnp0
    rw [hk] at h2
    have := Option.some.inj h2
    subst this
    have e1 : np2.level = np0.level := hfr.dfs_fields.2.2.2.1
    have e0 : np0.level = np.level := by rw [hrec]
    have := hmax k np hnp
    have := Int.self_le_toNat (c1.Maxlevel + 1)
    omega

/-- Fault-free simulation followed by deductive fault simulation on a
levelized well-formed netlist. -/
theorem simulate_spec (c : Circuit) (hw : WellFormed c) (hl : Levelized c) :
    ∃ c2, Simulated c c2 := by
  have ok := netOK_of hw hl
  obtain ⟨c1, hffs, _, _, hmaxeq, hlen1, hfr1, hdone1⟩ := ffs_spec c hw hl
  have hsame1 : SameNet c.Node c1.Node := by
    refine ⟨hlen1, ?_⟩
    intro k np hk
    obtain ⟨np1, h1, h2⟩ := hfr1 k np hk
    exact ⟨np1, h1, h2.ffs_fields.1, h2.ffs_fields.2.1, h2.ffs_fields.2.2.1, h2.ffs_fields.2.2.2.1⟩
  have ok1 := hsame1.netOK ok
  have hmax1 : ∀ (k : Nat) (np : NSTRUC), c1.Node[k]? = some np → np.level ≤ c1.Maxlevel := by
    intro k np1 hk
    obtain ⟨np, hnp, _⟩ := getElem?_of_lt c.Node k (by rw [← hlen1]; exact lt_of_getElem?_some hk)
    obtain ⟨np1', h1, h2⟩ := hfr1 k np hnp
    rw [hk] at h1
    have := Option.some.inj h1
    subst this
    have hm : np.level ≤ c.Maxlevel :=
      (hl (k, np) (List.mk_mem_enum_iff_getElem?.mpr hnp)).2.2.1
    rw [h2.ffs_fields.2.2.2.1, hmaxeq]
    exact hm
  obtain ⟨c2, hdfs, hlen2, hfr2, hdone2⟩ := dfs_spec c1 ok1 hmax1 (fun k np h => (hdone1 k np h).1)
  have hsame2 : SameNet c1.Node c2.Node := by
    refine ⟨hlen2, ?_⟩
    intro k np hk
    obtain ⟨np2, h1, h2⟩ := hfr2 k np hk
    exact ⟨np2, h1, h2.dfs_fields.1, h2.dfs_fields.2.1, h2.dfs_fields.2.2.1, h2.dfs_fields.2.2.2.1⟩
  have hvaleq : valueOf c2.Node = valueOf c1.Node :=
    valueOf_eq_of_frame hlen2 (fun k np hk => by
      obtain ⟨np2, h1, h2⟩ := hfr2 k np hk
      exact ⟨np2, h1, h2.dfs_fields.2.2.2.2⟩)
  have hback : ∀ (k : Nat) (np2 : NSTRUC), c2.Node[k]? = some np2 →
      ∃ np1 : NSTRUC, c1.Node[k]? = some np1 ∧ DfsFrame np1 np2 := by
    intro k np2 hk
    obtain ⟨np1, hnp1, _⟩ := getElem?_of_lt c1.Node k
      (by rw [← hlen2]; exact lt_of_getElem?_some hk)
    obtain ⟨np2', h1, h2⟩ := hfr2 k np1 hnp1
    rw [hk] at h1
    have := Option.some.inj h1
    subst this
    exact ⟨np1, hnp1, h2⟩
  refine ⟨c2, ⟨c1, hffs, hdfs, fun x => congrFun hvaleq x⟩, ?_, hsame2.netOK ok1, ?_, ?_, hdone2⟩
  · refine ⟨hlen2.trans hlen1, ?_⟩
    intro k np hk
    obtain ⟨np1, h1, a1, a2, a3, a4⟩ := hsame1.2 k np hk
    obtain ⟨np2, h2, b1, b2, b3, b4⟩ := hsame2.2 k np1 h1
    exact ⟨np2, h2, b1.trans a1, b2.trans a2, b3.trans a3, b4.trans a4⟩
  · intro k np2 hk
    obtain ⟨np1, hnp1, hfr⟩ := hback k np2 hk
    have := (hdone1 k np1 hnp1).1
    unfold ValueRule at this ⊢
    rw [hvaleq, hfr.dfs_fields.2.2.2.2, hfr.dfs_fields.2.1, hfr.dfs_fields.2.2.1]
    exact this
  · intro k np2 hk ht
    obtain ⟨np1, hnp1, hfr⟩ := hback k np2 hk
    rw [hfr.dfs_fields.2.2.2.2]
    exact (hdone1 k np1 hnp1).2 (by rw [← hfr.dfs_fields.2.1]; exact ht)

/-! ### The list a line ends with -/

theorem set_cell_some {L L' : List Int} {i : Nat} {v : Int} (h : set_cell L i v = some L') :
    i < L.length ∧ L' = L.set i v := by
  unfold set_cell at h
  split at h
  · exact ⟨by assumption, (Option.some.inj h).symm⟩
  · exact Option.noConfusion h

theorem set_cell_local {L L' : List Int} {i : Nat} {v : Int} (h : set_cell L i v = some L') :
    L'[i]? = some v := by
  obtain ⟨hi, rfl⟩ := set_cell_some h
  exact List.getElem?_set_self hi

theorem bind_set_cell_local {o : Option (List Int)} {L' : List Int} {i : Nat} {v : Int}
    (h : o.bind (fun L => set_cell L i v) = some L') : L'[i]? = some v := by
  cases o with
  | none => exact Option.noConfusion h
  | some L => exact set_cell_local h

theorem propagate_list_local (Node : List NSTRUC) (np : NSTRUC) (L : List Int)
    (h : propagate_list Node np = some L) (ht2 : np.type ≠ 2) (ht7 : np.type ≤ 7) :
    L[np.indx]? = some (lnot np.node_value) := by
  have hcases : np.type = 0 ∨ np.type = 1 ∨ np.type = 3 ∨ np.type = 4 ∨
      np.type = 5 ∨ np.type = 6 ∨ np.type = 7 := by omega
  rcases hcases with ht | ht | ht | ht | ht | ht | ht
  · simp only [propagate_list, ht] at h
    exact set_cell_local h
  · simp only [propagate_list, ht] at h
    split at h
    · exact Option.noConfusion h
    · split at h
      · exact Option.noConfusion h
      · split at h
        · exact set_cell_local h
        · exact Option.noConfusion h
  · simp only [propagate_list, ht] at h
    exact bind_set_cell_local h
  · simp only [propagate_list, ht] at h
    exact bind_set_cell_local h
  · simp only [propagate_list, ht] at h
    exact set_cell_local h
  · simp only [propagate_list, ht] at h
    exact bind_set_cell_local h
  · simp only [propagate_list, ht] at h
    exact bind_set_cell_local h

theorem holdsAt_set_local (val : Nat → Int) (n : Nat) (L : List Int) (x : Nat) (v : Int)
    (hL : Alpha val n L) (hx : x < n) (hv : v = lnot (val x)) (k : Nat) (p : Int)
    (hp : p = 0 ∨ p = 1) :
    holdsAt (L.set x v) k p ↔ (holdsAt L k p ∨ (k = x ∧ p = v)) := by
  have hvb : v = 0 ∨ v = 1 := by rw [hv]; exact lnot_is_bool _
  by_cases hk : x = k
  · subst hk
    rw [holdsAt_some (List.getElem?_set_self (by rw [hL.1]; exact hx))]
    obtain ⟨w, hw, _⟩ := getElem?_of_lt L x (by rw [hL.1]; exact hx)
    rw [holdsAt_some hw]
    have hwa := hL.2 x w hw
    rw [← hv] at hwa
    constructor
    · intro h
      exact Or.inr ⟨rfl, by omega⟩
    · rintro (h | ⟨_, h⟩) <;> omega
  · unfold holdsAt
    rw [List.getElem?_set_ne hk]
    constructor
    · exact Or.inl
    · rintro (h | ⟨h, _⟩)
      · exact h
      · exact absurd h.symm hk

/-- The fault list a gate ends with under `DfsDone`: the union of the fanin
lists when the output has the value `free`, else the intersection over the
fanins at `ctrl` minus the union over the others, in both cases with the
local fault added. -/
theorem gate_faults (Node : List NSTRUC) (x : Nat) (np : NSTRUC) (free ctrl : Int)
    (hcase : GateCase np.type free ctrl) (hindx : np.indx = x) (hx : x < Node.length)
    (hself : valueOf Node x = np.node_value)
    (hfan : ∀ u ∈ np.unodes, ∃ un : NSTRUC, Node[u]? = some un ∧
      Alpha (valueOf Node) Node.length un.L)
    (heq : propagate_list Node { np with L := List.replicate Node.length (2 : Int) } =
      some np.L) :
    (np.node_value = free → ∀ (k : Nat) (p : Int), (p = 0 ∨ p = 1) →
      (holdsAt np.L k p ↔
        ((∃ u ∈ np.unodes, inFaults Node u k p) ∨ (k = x ∧ p = lnot np.node_value)))) ∧
    (np.node_value ≠ free → (∃ u ∈ np.unodes, valueOf Node u = ctrl) →
      ∀ (k : Nat) (p : Int), (p = 0 ∨ p = 1) →
      (holdsAt np.L k p ↔
        (((∀ u ∈ np.unodes, valueOf Node u = ctrl → inFaults Node u k p) ∧
            ¬ ∃ u ∈ np.unodes, valueOf Node u ≠ ctrl ∧ inFaults Node u k p) ∨
          (k = x ∧ p = lnot np.node_value)))) := by
  have hv : lnot np.node_value = lnot (valueOf Node x) := by rw [hself]
  rw [propagate_gate Node { np with L := List.replicate Node.length (2 : Int) } free ctrl
    hcase] at heq
  constructor
  · intro hfree k p hp
    obtain ⟨L, h1, h2, h3⟩ := gate_list_ruleA (valueOf Node) Node.length Node
      { np with L := List.replicate Node.length (2 : Int) } free ctrl hfree hfan
    rw [h1] at heq
    obtain ⟨_, hL⟩ := set_cell_some heq
    change np.L = L.set np.indx (lnot np.node_value) at hL
    rw [hL, hindx, holdsAt_set_local _ _ L x _ h2 hx hv k p hp, h3 k p hp]
  · intro hfree hctrl k p hp
    obtain ⟨L, h1, h2, h3⟩ := gate_list_ruleB (valueOf Node) Node.length Node
      { np with L := List.replicate Node.length (2 : Int) } free ctrl hfree hctrl hfan
    rw [h1] at heq
    obtain ⟨_, hL⟩ := set_cell_some heq
    change np.L = L.set np.indx (lnot np.node_value) at hL
    rw [hL, hindx, holdsAt_set_local _ _ L x _ h2 hx hv k p hp, h3 k p hp]

/-- In a simulated state every fanin of a line is a line with a list over
the alphabet and a Boolean value. -/
theorem Simulated.fanin {c c2 : Circuit} (h : Simulated c c2) {x : Nat} {np : NSTRUC}
    (hnp : c2.Node[x]? = some np) :
    ∀ u ∈ np.unodes, ∃ un : NSTRUC, c2.Node[u]? = some un ∧
      Alpha (valueOf c2.Node) c2.Node.length un.L ∧
      (valueOf c2.Node u = 0 ∨ valueOf c2.Node u = 1) := by
  intro u hu
  obtain ⟨un, hun, _⟩ := h.ok.lower x np hnp u hu
  refine ⟨un, hun, (h.lists u un hun).1, ?_⟩
  rw [valueOf_of hun]
  exact (h.values u un hun).1

theorem SameNet.back {Node Node' : List NSTRUC} (h : SameNet Node Node') :
    ∀ (k : Nat) (np' : NSTRUC), Node'[k]? = some np' →
      ∃ np : NSTRUC, Node[k]? = some np ∧ np'.indx = np.indx ∧ np'.type = np.type ∧
        np'.unodes = np.unodes ∧ np'.level = np.level := by
  intro k np' hk
  obtain ⟨np, hnp, _⟩ := getElem?_of_lt Node k (by rw [← h.1]; exact lt_of_getElem?_some hk)
  obtain ⟨r, hr, h1, h2, h3, h4⟩ := h.2 k np hnp
  rw [hk] at hr
  have := Option.some.inj hr
  subst this
  exact ⟨np, hnp, h1, h2, h3, h4⟩

/-- The benchmark `c17` as `lev` leaves it. -/
theorem lev_c17 : lev 18 c17 = Run.ret c17Levelized := by decide

/-! ### C2: the values of the gates -/

/-- C2: on every levelized well-formed netlist `fault_free_simulation`
returns, keeps the netlist, and afterwards the value of every line that is
not an `IPT` is 0 or 1 and equals the gate function of its type (`BRCH`
copies `fanin[0]`, `NOT` negates it, `AND`, `NAND`, `OR`, `NOR` are the
conjunction, the disjunction and their negations, `XOR` is the parity)
applied to the final values of its fanins. -/
theorem ffs_gate_values (c : Circuit) (hw : WellFormed c) (hl : Levelized c) :
    ∃ c1, fault_free_simulation c = some c1 ∧ SameNet c.Node c1.Node ∧
      ∀ (x : Nat) (np : NSTRUC), c1.Node[x]? = some np → np.type ≠ IPT →
        (np.node_value = 0 ∨ np.node_value = 1) ∧
        np.node_value = gate_function np.type (np.unodes.map (valueOf c1.Node)) := by
  obtain ⟨c1, h1, _, _, _, hlen, hfr, hdone⟩ := ffs_spec c hw hl
  refine ⟨c1, h1, ⟨hlen, ?_⟩, ?_⟩
  · intro k np hk
    obtain ⟨np1, a, b⟩ := hfr k np hk
    exact ⟨np1, a, b.ffs_fields.1, b.ffs_fields.2.1, b.ffs_fields.2.2.1, b.ffs_fields.2.2.2.1⟩
  · intro x np hx ht
    exact ⟨(hdone x np hx).1.1, (hdone x np hx).1.2 ht⟩

/-- C2, witness: the levelized benchmark c17. -/
theorem ffs_gate_values_witness :
    WellFormed c17Levelized ∧ Levelized c17Levelized ∧
    ∃ c1, fault_free_simulation c17Levelized = some c1 ∧
      SameNet c17Levelized.Node c1.Node ∧
      ∀ (x : Nat) (np : NSTRUC), c1.Node[x]? = some np → np.type ≠ IPT →
        (np.node_value = 0 ∨ np.node_value = 1) ∧
        np.node_value = gate_function np.type (np.unodes.map (valueOf c1.Node)) :=
  ⟨by decide, by decide, ffs_gate_values c17Levelized (by decide) (by decide)⟩

/-! ### C3: the values of the primary inputs -/

/-- C3, the code at the failing input: a primary input that holds the
pattern value 1 holds 0 after `fault_free_simulation`, which assigns the
constant 0 to every line of `Pinput`. -/
theorem ffs_ignores_pattern :
    WellFormed onePrimaryInput ∧ Levelized onePrimaryInput ∧
    valueOf onePrimaryInput.Node 0 = 1 ∧
    ∃ c1, fault_free_simulation onePrimaryInput = some c1 ∧ valueOf c1.Node 0 = 0 :=
  ⟨by decide, by decide, rfl, _, rfl, rfl⟩

/-! ### C4: injection agreement -/

/-- C4, the code at the failing input: in the inverter netlist the fault
"line 0 stuck-at-1" flips the inverter output (the fault-free value of
line 1 is 1, with line 0 clamped to 1 it is 0), yet after fault-free and
deductive fault simulation the fault is not in `faults(1)`: the `NOT` case
of `fault_list_propogate` stores the local fault only. -/
theorem injection_fails_at_not :
    WellFormed inverter ∧ Levelized inverter ∧
    ∃ c1 c2 cf, fault_free_simulation inverter = some c1 ∧
      deductive_fault_simulation c1 = some c2 ∧ ffs_clamped 0 1 inverter = some cf ∧
      valueOf c2.Node 1 = 1 ∧ valueOf cf.Node 1 = 0 ∧ ¬ inFaults c2.Node 1 0 1 ∧
      faultList c2.Node 1 = [2, 0] :=
  ⟨by decide, by decide, _, _, _, rfl, rfl, rfl, rfl, rfl, by decide, rfl⟩

/-! ### C5: the local fault -/

/-- C5: on every levelized well-formed netlist without `XOR` lines,
fault-free and deductive fault simulation return a node array that holds
the lines of the netlist (same length and, line by line, the same `indx`,
type, fanins and level) with the values of fault-free simulation, and in it
the own cell `L[indx]` of every line holds `1 - node_value`, so the fault
that sticks the line at the complement of its value is in its fault set. -/
theorem local_fault_present (c : Circuit) (hw : WellFormed c) (hl : Levelized c)
    (hx : ∀ np ∈ c.Node, np.type ≠ XOR) :
    ∃ c1 c2, fault_free_simulation c = some c1 ∧ deductive_fault_simulation c1 = some c2 ∧
      SameNet c.Node c2.Node ∧
      (∀ x : Nat, valueOf c2.Node x = valueOf c1.Node x) ∧
      ∀ (x : Nat) (np : NSTRUC), c2.Node[x]? = some np →
        np.indx = x ∧ (np.node_value = 0 ∨ np.node_value = 1) ∧
        np.L[np.indx]? = some (1 - np.node_value) ∧
        inFaults c2.Node x x (1 - np.node_value) := by
  obtain ⟨c2, hsim⟩ := simulate_spec c hw hl
  obtain ⟨c1, h1, h2, hvals⟩ := hsim.runs
  refine ⟨c1, c2, h1, h2, hsim.same, hvals, ?_⟩
  intro x np hnp
  have hb := (hsim.values x np hnp).1
  have hindx := hsim.ok.indx x np hnp
  obtain ⟨np0, hnp0, _, ht, _⟩ := hsim.same.back x np hnp
  have ht2 : np.type ≠ 2 := by
    rw [ht]
    exact hx np0 (List.getElem?_mem hnp0)
  have hloc := propagate_list_local c2.Node _ np.L (hsim.lists x np hnp).2 ht2
    (hsim.ok.typeLe x np hnp)
  have hcell : np.L[np.indx]? = some (1 - np.node_value) := by
    rw [← lnot_bool _ hb]
    exact hloc
  refine ⟨hindx, hb, hcell, ?_⟩
  rw [inFaults_of hnp]
  rw [hindx] at hcell
  exact Or.inl hcell

/-- C5, witness: the levelized benchmark c17. -/
theorem local_fault_present_witness :
    WellFormed c17Levelized ∧ Levelized c17Levelized ∧
    (∀ np ∈ c17Levelized.Node, np.type ≠ XOR) ∧
    ∃ c1 c2, fault_free_simulation c17Levelized = some c1 ∧
      deductive_fault_simulation c1 = some c2 ∧
      SameNet c17Levelized.Node c2.Node ∧
      (∀ x : Nat, valueOf c2.Node x = valueOf c1.Node x) ∧
      ∀ (x : Nat) (np : NSTRUC), c2.Node[x]? = some np →
        np.indx = x ∧ (np.node_value = 0 ∨ np.node_value = 1) ∧
        np.L[np.indx]? = some (1 - np.node_value) ∧
        inFaults c2.Node x x (1 - np.node_value) :=
  ⟨by decide, by decide, by decide,
    local_fault_present c17Levelized (by decide) (by decide) (by decide)⟩

/-! ### C6: stem and branch -/

/-- C6: on every levelized well-formed netlist, fault-free and deductive
fault simulation return a node array that holds the lines of the netlist
(same length and, line by line, the same `indx`, type, fanins and level)
with the values of fault-free simulation, and in it the fault set of a
`BRCH` line `b` with stem `s = unodes[0]` is the fault set of `s` together
with the local fault of `b`: a fault `(k, p)` is in `faults(b)` iff it is in
`faults(s)` or it is `(b, 1 - value(b))`. -/
theorem branch_faults (c : Circuit) (hw : WellFormed c) (hl : Levelized c) :
    ∃ c1 c2, fault_free_simulation c = some c1 ∧ deductive_fault_simulation c1 = some c2 ∧
      SameNet c.Node c2.Node ∧
      (∀ x : Nat, valueOf c2.Node x = valueOf c1.Node x) ∧
      ∀ (b : Nat) (np : NSTRUC), c2.Node[b]? = some np → np.type = BRCH →
        ∀ s : Nat, np.unodes[0]? = some s →
          ∀ (k : Nat) (p : Int), (p = 0 ∨ p = 1) →
            (inFaults c2.Node b k p ↔
              (inFaults c2.Node s k p ∨ (k = b ∧ p = 1 - np.node_value))) := by
  obtain ⟨c2, hsim⟩ := simulate_spec c hw hl
  obtain ⟨c1, h1, h2, hvals⟩ := hsim.runs
  refine ⟨c1, c2, h1, h2, hsim.same, hvals, ?_⟩
  intro b np hnp ht s hs k p hp
  have hb := (hsim.values b np hnp).1
  have hindx := hsim.ok.indx b np hnp
  obtain ⟨un, hun, hal, _⟩ := hsim.fanin hnp s (List.getElem?_mem hs)
  have heq := (hsim.lists b np hnp).2
  have htake : List.take c2.Node.length un.L ++
      List.drop c2.Node.length (List.replicate c2.Node.length (2 : Int)) = un.L := by
    rw [List.take_of_length_le (le_of_eq hal.1), List.drop_of_length_le (by simp)]
    simp
  simp only [propagate_list, ht, hs, hun, hal.1, List.length_replicate, le_refl, and_self,
    if_true, htake] at heq
  obtain ⟨_, hL⟩ := set_cell_some heq
  rw [inFaults_of hnp, inFaults_of hun, hL, hindx, ← lnot_bool _ hb]
  exact holdsAt_set_local (valueOf c2.Node) c2.Node.length un.L b _ hal
    (lt_of_getElem?_some hnp) (by rw [valueOf_of hnp]) k p hp

/-- C6, witness: the levelized benchmark c17. -/
theorem branch_faults_witness :
    WellFormed c17Levelized ∧ Levelized c17Levelized ∧
    ∃ c1 c2, fault_free_simulation c17Levelized = some c1 ∧
      deductive_fault_simulation c1 = some c2 ∧
      SameNet c17Levelized.Node c2.Node ∧
      (∀ x : Nat, valueOf c2.Node x = valueOf c1.Node x) ∧
      ∀ (b : Nat) (np : NSTRUC), c2.Node[b]? = some np → np.type = BRCH →
        ∀ s : Nat, np.unodes[0]? = some s →
          ∀ (k : Nat) (p : Int), (p = 0 ∨ p = 1) →
            (inFaults c2.Node b k p ↔
              (inFaults c2.Node s k p ∨ (k = b ∧ p = 1 - np.node_value))) :=
  ⟨by decide, by decide, branch_faults c17Levelized (by decide) (by decide)⟩

/-! ### C7: inverters -/

/-- C7, the code at the failing input: in the chain of four inverters
driven by a primary input at 0, after fault-free and deductive fault
simulation every inverter holds its local fault only; the fault "line 0
stuck-at-1" of the primary input is in `faults(0)` and not in `faults(1)`. -/
theorem not_drops_fanin_faults :
    WellFormed inverterChain ∧ Levelized inverterChain ∧
    ∃ c1 c2, fault_free_simulation inverterChain = some c1 ∧
      deductive_fault_simulation c1 = some c2 ∧
      c2.Node.map (fun np => np.node_value) = [0, 1, 0, 1, 0] ∧
      c2.Node.map (fun np => np.L) =
        [[1, 2, 2, 2, 2], [2, 0, 2, 2, 2], [2, 2, 1, 2, 2], [2, 2, 2, 0, 2], [2, 2, 2, 2, 1]] ∧
      inFaults c2.Node 0 0 1 ∧ ¬ inFaults c2.Node 1 0 1 :=
  ⟨by decide, by decide, _, _, rfl, rfl, rfl, rfl, by decide, by decide⟩

/-! ### C8 and C9: the gates -/

theorem gateCase_of (type : Nat)
    (h : type = AND ∨ type = NAND ∨ type = OR ∨ type = NOR) :
    GateCase type (freeValue type) (controlling type) := by
  rcases h with rfl | rfl | rfl | rfl
  · exact Or.inr (Or.inr (Or.inr ⟨rfl, rfl, rfl⟩))
  · exact Or.inr (Or.inr (Or.inl ⟨rfl, rfl, rfl⟩))
  · exact Or.inl ⟨rfl, rfl, rfl⟩
  · exact Or.inr (Or.inl ⟨rfl, rfl, rfl⟩)

/-- C8 (rule B): on every levelized well-formed netlist, fault-free and
deductive fault simulation return a node array that holds the lines of the
netlist (same length and, line by line, the same `indx`, type, fanins and
level) with the values of fault-free simulation, and in it, for every `AND`,
`NAND`, `OR`, `NOR` line
`x` with at least one fanin at the controlling value, a fault `(k, p)` is in
`faults(x)` iff it is in the fault set of every fanin at the controlling
value and of no other fanin, or it is the local fault `(x, 1 - value(x))`;
when every fanin is at the controlling value this is the intersection of
the fanin sets plus the local fault. -/
theorem rule_B_faults (c : Circuit) (hw : WellFormed c) (hl : Levelized c) :
    ∃ c1 c2, fault_free_simulation c = some c1 ∧ deductive_fault_simulation c1 = some c2 ∧
      SameNet c.Node c2.Node ∧
      (∀ x : Nat, valueOf c2.Node x = valueOf c1.Node x) ∧
      ∀ (x : Nat) (np : NSTRUC), c2.Node[x]? = some np →
        (np.type = AND ∨ np.type = NAND ∨ np.type = OR ∨ np.type = NOR) →
        (∃ y ∈ np.unodes, valueOf c2.Node y = controlling np.type) →
        ∀ (k : Nat) (p : Int), (p = 0 ∨ p = 1) →
          (inFaults c2.Node x k p ↔
            (((∀ y ∈ np.unodes, valueOf c2.Node y = controlling np.type →
                  inFaults c2.Node y k p) ∧
                ¬ ∃ y ∈ np.unodes, valueOf c2.Node y ≠ controlling np.type ∧
                  inFaults c2.Node y k p) ∨
              (k = x ∧ p = 1 - np.node_value))) ∧
          ((∀ y ∈ np.unodes, valueOf c2.Node y = controlling np.type) →
            (inFaults c2.Node x k p ↔
              ((∀ y ∈ np.unodes, inFaults c2.Node y k p) ∨
                (k = x ∧ p = 1 - np.node_value)))) := by
  obtain ⟨c2, hsim⟩ := simulate_spec c hw hl
  obtain ⟨c1, h1, h2, hvals⟩ := hsim.runs
  refine ⟨c1, c2, h1, h2, hsim.same, hvals, ?_⟩
  intro x np hnp ht hctrl k p hp
  have hcase := gateCase_of np.type ht
  have hrule := hsim.values x np hnp
  have hfan := hsim.fanin hnp
  have hfree : np.node_value ≠ freeValue np.type := by
    intro h
    exact (gate_free_iff c2.Node np _ _ hcase hrule (fun u hu => by
      obtain ⟨_, _, _, hb⟩ := hfan u hu
      exact hb)).mp h hctrl
  have hmain := (gate_faults c2.Node x np _ _ hcase (hsim.ok.indx x np hnp)
    (lt_of_getElem?_some hnp) (valueOf_of hnp)
    (fun u hu => by
      obtain ⟨un, hun, hal, _⟩ := hfan u hu
      exact ⟨un, hun, hal⟩)
    (hsim.lists x np hnp).2).2 hfree hctrl k p hp
  rw [lnot_bool _ hrule.1, ← inFaults_of hnp] at hmain
  refine ⟨hmain, ?_⟩
  intro hall
  rw [hmain]
  constructor
  · rintro (⟨h, _⟩ | h)
    · exact Or.inl (fun y hy => h y hy (hall y hy))
    · exact Or.inr h
  · rintro (h | h)
    · exact Or.inl ⟨fun y hy _ => h y hy, fun ⟨y, hy, hne, _⟩ => hne (hall y hy)⟩
    · exact Or.inr h

/-- C8, witness: the levelized benchmark c17. -/
theorem rule_B_faults_witness :
    WellFormed c17Levelized ∧ Levelized c17Levelized ∧
    ∃ c1 c2, fault_free_simulation c17Levelized = some c1 ∧
      deductive_fault_simulation c1 = some c2 ∧
      SameNet c17Levelized.Node c2.Node ∧
      (∀ x : Nat, valueOf c2.Node x = valueOf c1.Node x) ∧
      ∀ (x : Nat) (np : NSTRUC), c2.Node[x]? = some np →
        (np.type = AND ∨ np.type = NAND ∨ np.type = OR ∨ np.type = NOR) →
        (∃ y ∈ np.unodes, valueOf c2.Node y = controlling np.type) →
        ∀ (k : Nat) (p : Int), (p = 0 ∨ p = 1) →
          (inFaults c2.Node x k p ↔
            (((∀ y ∈ np.unodes, valueOf c2.Node y = controlling np.type →
                  inFaults c2.Node y k p) ∧
                ¬ ∃ y ∈ np.unodes, valueOf c2.Node y ≠ controlling np.type ∧
                  inFaults c2.Node y k p) ∨
              (k = x ∧ p = 1 - np.node_value))) ∧
          ((∀ y ∈ np.unodes, valueOf c2.Node y = controlling np.type) →
            (inFaults c2.Node x k p ↔
              ((∀ y ∈ np.unodes, inFaults c2.Node y k p) ∨
                (k = x ∧ p = 1 - np.node_value)))) :=
  ⟨by decide, by decide, rule_B_faults c17Levelized (by decide) (by decide)⟩

/-- C9 (rule A): on every levelized well-formed netlist, fault-free and
deductive fault simulation return a node array that holds the lines of the
netlist (same length and, line by line, the same `indx`, type, fanins and
level) with the values of fault-free simulation, and in it, for every `AND`,
`NAND`, `OR`, `NOR` line
`x` none of whose fanins is at the controlling value, a fault `(k, p)` is in
`faults(x)` iff it is in the fault set of some fanin or it is the local
fault `(x, 1 - value(x))`. -/
theorem rule_A_faults (c : Circuit) (hw : WellFormed c) (hl : Levelized c) :
    ∃ c1 c2, fault_free_simulation c = some c1 ∧ deductive_fault_simulation c1 = some c2 ∧
      SameNet c.Node c2.Node ∧
      (∀ x : Nat, valueOf c2.Node x = valueOf c1.Node x) ∧
      ∀ (x : Nat) (np : NSTRUC), c2.Node[x]? = some np →
        (np.type = AND ∨ np.type = NAND ∨ np.type = OR ∨ np.type = NOR) →
        (¬ ∃ y ∈ np.unodes, valueOf c2.Node y = controlling np.type) →
        ∀ (k : Nat) (p : Int), (p = 0 ∨ p = 1) →
          (inFaults c2.Node x k p ↔
            ((∃ y ∈ np.unodes, inFaults c2.Node y k p) ∨
              (k = x ∧ p = 1 - np.node_value))) := by
  obtain ⟨c2, hsim⟩ := simulate_spec c hw hl
  obtain ⟨c1, h1, h2, hvals⟩ := hsim.runs
  refine ⟨c1, c2, h1, h2, hsim.same, hvals, ?_⟩
  intro x np hnp ht hctrl k p hp
  have hcase := gateCase_of np.type ht
  have hrule := hsim.values x np hnp
  have hfan := hsim.fanin hnp
  have hfree : np.node_value = freeValue np.type :=
    (gate_free_iff c2.Node np _ _ hcase hrule (fun u hu => by
      obtain ⟨_, _, _, hb⟩ := hfan u hu
      exact hb)).mpr hctrl
  have hmain := (gate_faults c2.Node x np _ _ hcase (hsim.ok.indx x np hnp)
    (lt_of_getElem?_some hnp) (valueOf_of hnp)
    (fun u hu => by
      obtain ⟨un, hun, hal, _⟩ := hfan u hu
      exact ⟨un, hun, hal⟩)
    (hsim.lists x np hnp).2).1 hfree k p hp
  rw [lnot_bool _ hrule.1, ← inFaults_of hnp] at hmain
  exact hmain

/-- C9, witness: the levelized benchmark c17. -/
theorem rule_A_faults_witness :
    WellFormed c17Levelized ∧ Levelized c17Levelized ∧
    ∃ c1 c2, fault_free_simulation c17Levelized = some c1 ∧
      deductive_fault_simulation c1 = some c2 ∧
      SameNet c17Levelized.Node c2.Node ∧
      (∀ x : Nat, valueOf c2.Node x = valueOf c1.Node x) ∧
      ∀ (x : Nat) (np : NSTRUC), c2.Node[x]? = some np →
        (np.type = AND ∨ np.type = NAND ∨ np.type = OR ∨ np.type = NOR) →
        (¬ ∃ y ∈ np.unodes, valueOf c2.Node y = controlling np.type) →
        ∀ (k : Nat) (p : Int), (p = 0 ∨ p = 1) →
          (inFaults c2.Node x k p ↔
            ((∃ y ∈ np.unodes, inFaults c2.Node y k p) ∨
              (k = x ∧ p = 1 - np.node_value))) :=
  ⟨by decide, by decide, rule_A_faults c17Levelized (by decide) (by decide)⟩

/-! ### C10: a 2-input `AND` with fanin values (1, 0) -/

theorem alpha_of_enum (val : Nat → Int) (n : Nat) (L : List Int) (hlen : L.length = n)
    (h : ∀ q ∈ L.enum, q.2 = 2 ∨ q.2 = lnot (val q.1)) : Alpha val n L :=
  ⟨hlen, fun m v hv => h (m, v) (List.mk_mem_enum_iff_getElem?.mpr hv)⟩

/-- C10 (as the code has it): let `out` be a 2-input `AND` line with value 0
whose fanins `a`, `b` have the values 1 and 0, in a state where the lists of
`a` and `b` have `Nnodes` cells, each 2 or the complement of the value of
its line.  Then `fault_list_propogate(out)` returns and afterwards a fault
`(k, p)` is in `faults(out)` iff it is in `L(b)` and not in `L(a)`, where
`b` is the fanin at the controlling value 0 and `a` the other one, or it
is the local fault `(out, 1)`. -/
theorem and_one_zero_faults (Node : List NSTRUC) (out a b : Nat) (np : NSTRUC)
    (hnp : Node[out]? = some np) (ht : np.type = AND) (hu : np.unodes = [a, b])
    (hindx : np.indx = out) (hv : np.node_value = 0)
    (ha : valueOf Node a = 1) (hb : valueOf Node b = 0)
    (hla : Alpha (valueOf Node) Node.length (faultList Node a))
    (hlb : Alpha (valueOf Node) Node.length (faultList Node b)) :
    ∃ Node', fault_list_propogate Node out = some Node' ∧
      ∀ (k : Nat) (p : Int), (p = 0 ∨ p = 1) →
        (inFaults Node' out k p ↔
          ((inFaults Node b k p ∧ ¬ inFaults Node a k p) ∨ (k = out ∧ p = 1))) := by
  have hout : out < Node.length := lt_of_getElem?_some hnp
  have hsome : ∀ u : Nat, Alpha (valueOf Node) Node.length (faultList Node u) →
      ∃ un : NSTRUC, Node[u]? = some un ∧ Alpha (valueOf Node) Node.length un.L := by
    intro u hal
    cases hun : Node[u]? with
    | none =>
      have := hal.1
      simp only [faultList, hun, List.length_nil] at this
      omega
    | some un =>
      simp only [faultList, hun] at hal
      exact ⟨un, rfl, hal⟩
  have hfan : ∀ u ∈ np.unodes, ∃ un : NSTRUC, Node[u]? = some un ∧
      Alpha (valueOf Node) Node.length un.L := by
    intro u hmem
    rw [hu] at hmem
    rcases List.mem_cons.mp hmem with rfl | hmem
    · exact hsome _ hla
    · rcases List.mem_cons.mp hmem with rfl | hmem
      · exact hsome _ hlb
      · exact absurd hmem (List.not_mem_nil _)
  obtain ⟨L, h1, h2, h3⟩ := gate_list_ruleB (valueOf Node) Node.length Node np 1 0
    (by rw [hv]; decide) ⟨b, by rw [hu]; simp, hb⟩ hfan
  have hlv : lnot np.node_value = lnot (valueOf Node out) := by rw [valueOf_of hnp]
  obtain ⟨h4, _⟩ := set_cell_spec (valueOf Node) Node.length L out (lnot np.node_value) h2
    hout hlv
  have hprop : propagate_list Node np = some (L.set out (lnot np.node_value)) := by
    rw [propagate_gate Node np 1 0 (Or.inr (Or.inr (Or.inr ⟨ht, rfl, rfl⟩))), h1, hindx]
    exact h4
  refine ⟨Node.set out { np with L := L.set out (lnot np.node_value) },
    by simp only [fault_list_propogate, hnp, hprop, Option.map_some'], ?_⟩
  intro k p hp
  rw [inFaults_of (List.getElem?_set_self hout)]
  show holdsAt (L.set out (lnot np.node_value)) k p ↔ _
  rw [holdsAt_set_local _ _ L out _ h2 hout hlv k p hp, h3 k p hp, hu, hv]
  have e1 : lnot 0 = 1 := rfl
  rw [e1]
  constructor
  · rintro (⟨hall, hno⟩ | h)
    · refine Or.inl ⟨hall b (by simp) hb, ?_⟩
      intro hin
      exact hno ⟨a, by simp, by rw [ha]; decide, hin⟩
    · exact Or.inr h
  · rintro (⟨hin, hno⟩ | h)
    · refine Or.inl ⟨?_, ?_⟩
      · intro u hmem huv
        rcases List.mem_cons.mp hmem with rfl | hmem
        · rw [ha] at huv
          exact absurd huv (by decide)
        · rcases List.mem_cons.mp hmem with rfl | hmem
          · exact hin
          · exact absurd hmem (List.not_mem_nil _)
      · rintro ⟨u, hmem, hne, hinu⟩
        rcases List.mem_cons.mp hmem with rfl | hmem
        · exact hno hinu
        · rcases List.mem_cons.mp hmem with rfl | hmem
          · exact hne hb
          · exact absurd hmem (List.not_mem_nil _)
    · exact Or.inr h

/-- C10, witness: the `AND` line 3 of `andOneZeroState`, with the fanins 2
(at 1) and 1 (at 0). -/
theorem and_one_zero_faults_witness :
    valueOf andOneZeroState 2 = 1 ∧ valueOf andOneZeroState 1 = 0 ∧
    Alpha (valueOf andOneZeroState) andOneZeroState.length (faultList andOneZeroState 2) ∧
    Alpha (valueOf andOneZeroState) andOneZeroState.length (faultList andOneZeroState 1) ∧
    ∃ Node', fault_list_propogate andOneZeroState 3 = some Node' ∧
      ∀ (k : Nat) (p : Int), (p = 0 ∨ p = 1) →
        (inFaults Node' 3 k p ↔
          ((inFaults andOneZeroState 1 k p ∧ ¬ inFaults andOneZeroState 2 k p) ∨
            (k = 3 ∧ p = 1))) :=
  ⟨rfl, rfl, alpha_of_enum _ _ _ rfl (by decide), alpha_of_enum _ _ _ rfl (by decide),
    and_one_zero_faults andOneZeroState 3 2 1
      { levelled 2 (line 3 AND [2, 1]) with node_value := 0, L := [2, 2, 2, 2] }
      rfl rfl rfl rfl rfl rfl rfl
      (alpha_of_enum _ _ _ rfl (by decide)) (alpha_of_enum _ _ _ rfl (by decide))⟩

/-- C10, counterexample to the claim as stated: `andOneZeroState` is the
state in which `deductive_fault_simulation` reaches the `AND` line 3 of
`andOneZero`, whose fanins 2 and 1 have the values (1, 0).  After
`fault_list_propogate` the fault "line 1 stuck-at-1" is in `faults(3)`
although it is neither in `L(2)` minus `L(1)`, the list of the fanin at 1
minus that of the controlling fanin, nor the local fault; and the fault
"line 2 stuck-at-0", which is in `L(2)` minus `L(1)`, is not in
`faults(3)`. -/
theorem and_one_zero_counterexample :
    (fault_free_simulation andOneZero).bind
        (fun c1 => forLoop dfs_level 2 (dfs_init c1.Node)) = some andOneZeroState ∧
    valueOf andOneZeroState 2 = 1 ∧ valueOf andOneZeroState 1 = 0 ∧
    valueOf andOneZeroState 3 = 0 ∧
    ∃ Node', fault_list_propogate andOneZeroState 3 = some Node' ∧
      faultList Node' 3 = [2, 1, 2, 1] ∧
      inFaults Node' 3 1 1 ∧
      ¬ ((inFaults andOneZeroState 2 1 1 ∧ ¬ inFaults andOneZeroState 1 1 1) ∨
          (1 = 3 ∧ (1 : Int) = 1)) ∧
      ¬ inFaults Node' 3 2 0 ∧
      (inFaults andOneZeroState 2 2 0 ∧ ¬ inFaults andOneZeroState 1 2 0) :=
  ⟨by decide, rfl, rfl, rfl, _, rfl, rfl, by decide, by decide, by decide, by decide⟩

/-! ### C11 and C12: `preprocessor` -/

theorem preprocessor_spec (c : Circuit) :
    preprocessor c = some
      { CompleteFL := (List.range c.Node.length).map
          (fun i => some { indx := i, s_a_0 := true, s_a_1 := true }),
        CollapsedFL := List.replicate (c.Node.countP isCheckpoint) none } := by
  obtain ⟨st, hst, hlen, hdone, _, hcnt⟩ := forLoop_inv (preprocessor_visit c.Node)
    (fun i st => st.1.length = c.Node.length ∧
      (∀ k : Nat, k < i → st.1[k]? = some (some { indx := k, s_a_0 := true, s_a_1 := true })) ∧
      (∀ k : Nat, i ≤ k → k < c.Node.length → st.1[k]? = some none) ∧
      st.2 = (c.Node.take i).countP isCheckpoint)
    c.Node.length (List.replicate c.Node.length none, 0)
    ⟨by simp, fun k hk => absurd hk (Nat.not_lt_zero k),
      fun k _ hk => by simp [List.getElem?_replicate, hk], by simp⟩
    (by
      rintro i ⟨fl, n⟩ hi ⟨hlen, hdone, htodo, hcnt⟩
      obtain ⟨np, hnp, _⟩ := getElem?_of_lt c.Node i hi
      have hil : i < fl.length := by rw [hlen]; exact hi
      refine ⟨_, by simp only [preprocessor_visit, hnp, hil, if_true]; rfl, ?_, ?_, ?_, ?_⟩
      · simp [hlen]
      · intro k hk
        rcases Nat.lt_succ_iff_lt_or_eq.mp hk with h | h
        · show (fl.set i _)[k]? = _
          rw [List.getElem?_set_ne (by omega)]
          exact hdone k h
        · subst h
          exact List.getElem?_set_self hil
      · intro k hk hkl
        show (fl.set i _)[k]? = _
        rw [List.getElem?_set_ne (by omega)]
        exact htodo k (by omega) hkl
      · show (if np.type = 0 ∨ np.type = 1 then n + 1 else n) = _
        have hn : n = (c.Node.take i).countP isCheckpoint := hcnt
        rw [List.take_succ, hnp, List.countP_append, ← hn]
        by_cases ht : np.type = 0 ∨ np.type = 1
        · simp [ht, isCheckpoint]
        · simp [ht, isCheckpoint])
  have hfl : st.1 = (List.range c.Node.length).map
      (fun i => some ({ indx := i, s_a_0 := true, s_a_1 := true } : FAULTLIST)) := by
    apply List.ext_getElem?
    intro k
    rcases Nat.lt_or_ge k c.Node.length with hk | hk
    · rw [hdone k hk, List.getElem?_map, List.getElem?_range hk]
      rfl
    · rw [List.getElem?_eq_none (by rw [hlen]; exact hk),
        List.getElem?_eq_none (by simpa using hk)]
  simp only [preprocessor, hst, Option.map_some']
  rw [hfl, hcnt, List.take_length]

theorem representedFaults_complete (n : Nat) :
    representedFaults ((List.range n).map
      (fun i => some ({ indx := i, s_a_0 := true, s_a_1 := true } : FAULTLIST))) =
    (List.range n).flatMap (fun i => [(i, (0 : Int)), (i, (1 : Int))]) := by
  simp [representedFaults, List.flatMap_map]

/-- C11: for every netlist with `N` lines `preprocessor` returns with a
complete fault list of exactly `N` cells, the cell `i` holding `indx = i`
with `s_a_0` and `s_a_1` set; the faults it represents are, without
repetition, exactly the `2N` pairs `(i, 0)`, `(i, 1)` with `i < N`. -/
theorem complete_fault_list (c : Circuit) :
    ∃ fl, preprocessor c = some fl ∧ fl.CompleteFL.length = c.Node.length ∧
      (∀ i : Nat, i < c.Node.length →
        fl.CompleteFL[i]? = some (some { indx := i, s_a_0 := true, s_a_1 := true })) ∧
      (representedFaults fl.CompleteFL).length = 2 * c.Node.length ∧
      (representedFaults fl.CompleteFL).Nodup ∧
      ∀ (k : Nat) (p : Int), (k, p) ∈ representedFaults fl.CompleteFL ↔
        (k < c.Node.length ∧ (p = 0 ∨ p = 1)) := by
  refine ⟨_, preprocessor_spec c, by simp, ?_, ?_, ?_, ?_⟩
  · intro i hi
    simp [List.getElem?_map, List.getElem?_range hi]
  · show (representedFaults (List.map _ (List.range c.Node.length))).length = _
    rw [representedFaults_complete]
    induction c.Node.length with
    | zero => rfl
    | succ n ih =>
      rw [List.range_succ, List.flatMap_append, List.length_append, ih]
      simp
      omega
  · show (representedFaults (List.map _ (List.range c.Node.length))).Nodup
    rw [representedFaults_complete, List.nodup_flatMap]
    refine ⟨fun i _ => by simp, ?_⟩
    refine (List.nodup_range _).imp ?_
    intro a b hab
    simp [Function.onFun, List.disjoint_left, hab]
  · intro k p
    show (k, p) ∈ representedFaults (List.map _ (List.range c.Node.length)) ↔ _
    rw [representedFaults_complete]
    simp only [List.mem_flatMap, List.mem_range, List.mem_cons, Prod.mk.injEq,
      List.mem_singleton, List.not_mem_nil, or_false]
    constructor
    · rintro ⟨i, hi, ⟨rfl, rfl⟩ | ⟨rfl, rfl⟩⟩
      · exact ⟨hi, Or.inl rfl⟩
      · exact ⟨hi, Or.inr rfl⟩
    · rintro ⟨hk, rfl | rfl⟩
      · exact ⟨k, hk, Or.inl ⟨rfl, rfl⟩⟩
      · exact ⟨k, hk, Or.inr ⟨rfl, rfl⟩⟩

/-- C12, the code on every netlist and at the failing input: `preprocessor`
allocates `CollapsedFL` with one cell per checkpoint line and returns
without assigning any of them, so the collapsed list represents no fault;
for the netlist of one primary input it is one unassigned cell and does not
hold the faults of line 0. -/
theorem collapsed_list_unassigned :
    (∀ c : Circuit, ∃ fl, preprocessor c = some fl ∧
      fl.CollapsedFL = List.replicate (c.Node.countP isCheckpoint) none ∧
      representedFaults fl.CollapsedFL = []) ∧
    ∃ fl, preprocessor onePrimaryInput = some fl ∧ fl.CollapsedFL = [none] ∧
      (0, (0 : Int)) ∉ representedFaults fl.CollapsedFL ∧
      (0, (1 : Int)) ∉ representedFaults fl.CollapsedFL := by
  refine ⟨fun c => ⟨_, preprocessor_spec c, rfl, ?_⟩, _, preprocessor_spec onePrimaryInput,
    rfl, by decide, by decide⟩
  show representedFaults (List.replicate _ none) = []
  induction List.countP isCheckpoint c.Node with
  | zero => rfl
  | succ n ih =>
    rw [List.replicate_succ]
    simp only [representedFaults, List.flatMap_cons, List.nil_append] at ih ⊢
    exact ih

/-! ### C13: a second run of `lev` -/

theorem lev_sweep_all_levelled (s : LevState) (h : ∀ np ∈ s.Node, np.islevel = true) :
    lev_sweep s = some s := by
  obtain ⟨t, ht, hP⟩ := forLoop_inv lev_visit (fun _ t => t = s) s.Node.length s rfl
    (by
      intro i t hi hts
      subst hts
      obtain ⟨np, hnp, hmem⟩ := getElem?_of_lt t.Node i hi
      exact ⟨t, by rw [lev_visit_eq hnp, if_pos (h np hmem)], rfl⟩)
  unfold lev_sweep
  rw [ht, hP]

/-- Once every line is marked as levelled, `lev` never leaves its loop on a
netlist that is not empty. -/
theorem lev_again_stuck (c : Circuit) (hne : c.Node ≠ [])
    (h : ∀ np ∈ c.Node, np.islevel = true) : ∀ fuel : Nat, lev fuel c = Run.fuelOut := by
  have hloop : ∀ (fuel : Nat) (s : LevState), (∀ np ∈ s.Node, np.islevel = true) →
      s.sumnode ≠ s.Node.length → lev_loop fuel s = Run.fuelOut := by
    intro fuel
    induction fuel with
    | zero => intro s _ _; rfl
    | succ fuel ih =>
      intro s hs hsum
      simp only [lev_loop, lev_sweep_all_levelled s hs, if_neg hsum]
      exact ih s hs hsum
  intro fuel
  simp only [lev, hloop fuel { Node := c.Node, Maxlevel := 0, sumnode := 0 } h
    (by
      show 0 ≠ c.Node.length
      intro h0
      exact hne (List.length_eq_zero.mp h0.symm))]

/-- C13, the code at the failing input: `c17Levelized` is what the first run
of `lev` leaves of the benchmark c17, and a second run of `lev` on it never
returns, whatever the number of sweeps: no line is unlevelled, so `sumnode`
stays 0 and never equals `Nnodes`. -/
theorem lev_twice_never_returns :
    lev 18 c17 = Run.ret c17Levelized ∧
    ∀ fuel : Nat, lev fuel c17Levelized = Run.fuelOut :=
  ⟨lev_c17, lev_again_stuck c17Levelized (by decide) (by decide)⟩

/-! ### C14: fault-free simulation run twice -/

theorem wellFormed_of_sameNet {c c' : Circuit} (h : SameNet c.Node c'.Node)
    (hp : c'.Pinput = c.Pinput) (hw : WellFormed c) : WellFormed c' := by
  refine ⟨?_, ?_⟩
  · rintro ⟨k, np'⟩ hmem
    obtain ⟨np, hnp, h1, h2, h3, _⟩ := h.back k np' (List.mk_mem_enum_iff_getElem?.mp hmem)
    obtain ⟨a1, a2, a3, a4, a5⟩ := hw.1 (k, np) (List.mk_mem_enum_iff_getElem?.mpr hnp)
    refine ⟨h1.trans a1, ?_, ?_, ?_, ?_⟩
    · show np'.type ≤ 7
      rw [h2]; exact a2
    · show ∀ u ∈ np'.unodes, u < c'.Node.length
      rw [h3, h.1]; exact a3
    · show np'.type = IPT → k ∈ c'.Pinput
      rw [h2, hp]; exact a4
    · show np'.type = BRCH ∨ np'.type = NOT → np'.unodes.length = 1
      rw [h2, h3]; exact a5
  · rw [hp, h.1]
    exact hw.2

theorem levelized_of_sameNet {c c' : Circuit} (h : SameNet c.Node c'.Node)
    (hm : c'.Maxlevel = c.Maxlevel) (hl : Levelized c) : Levelized c' := by
  rintro ⟨k, np'⟩ hmem
  obtain ⟨np, hnp, _, h2, h3, h4⟩ := h.back k np' (List.mk_mem_enum_iff_getElem?.mp hmem)
  obtain ⟨a1, a2, a3, a4⟩ := hl (k, np) (List.mk_mem_enum_iff_getElem?.mpr hnp)
  refine ⟨?_, ?_, ?_, ?_⟩
  · show np'.type = IPT → np'.level = 0
    rw [h2, h4]; exact a1
  · show np'.type ≠ IPT → 1 ≤ np'.level
    rw [h2, h4]; exact a2
  · show np'.level ≤ c'.Maxlevel
    rw [h4, hm]; exact a3
  · show ∀ u ∈ np'.unodes, ∀ un ∈ c'.Node[u]?, un.level < np'.level
    intro u hu un' hun'
    obtain ⟨un, hun, _, _, _, b4⟩ := h.back u un' hun'
    rw [h3] at hu
    rw [h4, b4]
    exact a4 u hu un hun

/-- The values of a levelized netlist are determined by the value rule and
the value 0 of the `IPT` lines. -/
theorem value_unique {Node1 Node2 : List NSTRUC} (ok : NetOK Node1)
    (hs : SameNet Node1 Node2)
    (h1 : ∀ (k : Nat) (np : NSTRUC), Node1[k]? = some np → FfsDone Node1 k np)
    (h2 : ∀ (k : Nat) (np : NSTRUC), Node2[k]? = some np → FfsDone Node2 k np) :
    ∀ k : Nat, valueOf Node1 k = valueOf Node2 k := by
  have key : ∀ (n : Nat) (k : Nat) (np1 : NSTRUC), Node1[k]? = some np1 →
      np1.level < n → valueOf Node1 k = valueOf Node2 k := by
    intro n
    induction n with
    | zero =>
      intro k np1 hk hlt
      exfalso
      by_cases ht : np1.type = IPT
      · have := ok.inputLevel k np1 hk ht
        omega
      · have := ok.gateLevel k np1 hk ht
        omega
    | succ n ih =>
      intro k np1 hk hlt
      obtain ⟨np2, hk2, _, e2, e3, _⟩ := hs.2 k np1 hk
      rw [valueOf_of hk, valueOf_of hk2]
      by_cases ht : np1.type = IPT
      · rw [(h1 k np1 hk).2 ht, (h2 k np2 hk2).2 (e2.trans ht)]
      · rw [(h1 k np1 hk).1.2 ht, (h2 k np2 hk2).1.2 (by rw [e2]; exact ht), e2, e3]
        congr 1
        apply List.map_congr_left
        intro u hu
        obtain ⟨un, hun, hlow⟩ := ok.lower k np1 hk u hu
        exact ih u un hun (by push_cast at hlt; omega)
  intro k
  rcases Nat.lt_or_ge k Node1.length with hk | hk
  · obtain ⟨np1, h, _⟩ := getElem?_of_lt Node1 k hk
    have := Int.lt_add_one_iff.mpr (Int.self_le_toNat np1.level)
    exact key (np1.level.toNat + 1) k np1 h (by push_cast; exact this)
  · simp only [valueOf, List.getElem?_eq_none hk,
      List.getElem?_eq_none (show Node2.length ≤ k by rw [hs.1]; exact hk)]

/-- C14: on every levelized well-formed netlist `fault_free_simulation`
returns, and run a second time on its result it returns that same state:
every line has the same value after two runs as after one. -/
theorem ffs_idempotent (c : Circuit) (hw : WellFormed c) (hl : Levelized c) :
    ∃ c1 c2, fault_free_simulation c = some c1 ∧ fault_free_simulation c1 = some c2 ∧
      (∀ x : Nat, valueOf c2.Node x = valueOf c1.Node x) ∧ c2 = c1 := by
  obtain ⟨c1, hffs1, hp1, ho1, hm1, hlen1, hfr1, hdone1⟩ := ffs_spec c hw hl
  have hsame1 : SameNet c.Node c1.Node := by
    refine ⟨hlen1, ?_⟩
    intro k np hk
    obtain ⟨np1, a, b⟩ := hfr1 k np hk
    exact ⟨np1, a, b.ffs_fields.1, b.ffs_fields.2.1, b.ffs_fields.2.2.1, b.ffs_fields.2.2.2.1⟩
  have hw1 := wellFormed_of_sameNet hsame1 hp1 hw
  have hl1 := levelized_of_sameNet hsame1 hm1 hl
  obtain ⟨c2, hffs2, hp2, ho2, hm2, hlen2, hfr2, hdone2⟩ := ffs_spec c1 hw1 hl1
  have hsame2 : SameNet c1.Node c2.Node := by
    refine ⟨hlen2, ?_⟩
    intro k np hk
    obtain ⟨np2, a, b⟩ := hfr2 k np hk
    exact ⟨np2, a, b.ffs_fields.1, b.ffs_fields.2.1, b.ffs_fields.2.2.1, b.ffs_fields.2.2.2.1⟩
  have hval := value_unique (netOK_of hw1 hl1) hsame2 hdone1 hdone2
  have hnode : c2.Node = c1.Node := by
    apply List.ext_getElem?
    intro k
    rcases Nat.lt_or_ge k c1.Node.length with hk | hk
    · obtain ⟨np1, h1, _⟩ := getElem?_of_lt c1.Node k hk
      obtain ⟨np2, h2, hfr⟩ := hfr2 k np1 h1
      have hv := hval k
      rw [valueOf_of h1, valueOf_of h2] at hv
      have hfr' : np2 = { np1 with node_value := np2.node_value } := hfr
      rw [h1, h2, hfr', ← hv]
    · rw [List.getElem?_eq_none hk, List.getElem?_eq_none (by rw [hlen2]; exact hk)]
  refine ⟨c1, c2, hffs1, hffs2, fun x => (hval x).symm, ?_⟩
  cases c1
  cases c2
  simp only at hnode hp2 ho2 hm2
  subst hnode hp2 ho2 hm2
  rfl

/-- C14, witness: the levelized benchmark c17. -/
theorem ffs_idempotent_witness :
    WellFormed c17Levelized ∧ Levelized c17Levelized ∧
    ∃ c1 c2, fault_free_simulation c17Levelized = some c1 ∧
      fault_free_simulation c1 = some c2 ∧
      (∀ x : Nat, valueOf c2.Node x = valueOf c1.Node x) ∧ c2 = c1 :=
  ⟨by decide, by decide, ffs_idempotent c17Levelized (by decide) (by decide)⟩

/-! ### C15: `lev` on a netlist with a cycle -/

theorem levelled_fanin_lower {Node0 : List NSTRUC} {s : LevState} (inv : LevInv Node0 s)
    (hi : InputsHaveNoFanin Node0) (hb : BranchesSingle Node0) {a b : Nat}
    (hab : IsFanin Node0 a b) (npb : NSTRUC) (hnb : s.Node[b]? = some npb)
    (hlb : npb.islevel = true) :
    ∃ npa : NSTRUC, s.Node[a]? = some npa ∧ npa.islevel = true ∧ npa.level < npb.level := by
  obtain ⟨np0, hnp0, hmem⟩ := hab
  obtain ⟨npb', hnb', ht, hu⟩ := inv.frame b np0 hnp0
  rw [hnb] at hnb'
  have := Option.some.inj hnb'
  subst this
  have hin0 := List.getElem?_mem hnp0
  have ht0 : npb.type ≠ 0 := by
    intro h
    have := hi np0 hin0 (ht.symm.trans h)
    rw [this] at hmem
    exact absurd hmem (List.not_mem_nil _)
  obtain ⟨_, _, h1, h2⟩ := inv.done b npb hnb hlb
  by_cases ht1 : npb.type = 1
  · obtain ⟨u, un, hu0, hun, hul, hlev⟩ := h1 ht1
    obtain ⟨v, hv⟩ := List.length_eq_one.mp (hb np0 hin0 (ht.symm.trans ht1))
    rw [hu, hv] at hu0
    have huv : v = u := by simpa using hu0
    rw [hv] at hmem
    have hav : a = v := by simpa using hmem
    rw [hav, huv]
    exact ⟨un, hun, hul, by omega⟩
  · obtain ⟨hall, _, _⟩ := h2 ht0 ht1
    obtain ⟨un, hun, hul, hlev⟩ := hall a (by rw [hu]; exact hmem)
    exact ⟨un, hun, hul, by omega⟩

theorem levelled_ancestor_lower {Node0 : List NSTRUC} {s : LevState} (inv : LevInv Node0 s)
    (hi : InputsHaveNoFanin Node0) (hb : BranchesSingle Node0) {a b : Nat}
    (hab : Relation.TransGen (IsFanin Node0) a b) :
    ∀ npb : NSTRUC, s.Node[b]? = some npb → npb.islevel = true →
      ∃ npa : NSTRUC, s.Node[a]? = some npa ∧ npa.islevel = true ∧ npa.level < npb.level := by
  induction hab with
  | single h => exact levelled_fanin_lower inv hi hb h
  | tail _ hcb ih =>
    intro npb hnb hlb
    obtain ⟨npc, hnc, hlc, hlt⟩ := levelled_fanin_lower inv hi hb hcb npb hnb hlb
    obtain ⟨npa, hna, hla, hlt'⟩ := ih npc hnc hlc
    exact ⟨npa, hna, hla, lt_trans hlt' hlt⟩

theorem cycle_unlevelled {Node0 : List NSTRUC} {s : LevState} (inv : LevInv Node0 s)
    (hi : InputsHaveNoFanin Node0) (hb : BranchesSingle Node0) (hc : HasCycle Node0) :
    s.sumnode ≠ s.Node.length := by
  obtain ⟨x, hx⟩ := hc
  have hxv : ∃ np0 : NSTRUC, Node0[x]? = some np0 := by
    cases hx with
    | single h => obtain ⟨np0, h0, _⟩ := h; exact ⟨np0, h0⟩
    | tail _ h => obtain ⟨np0, h0, _⟩ := h; exact ⟨np0, h0⟩
  obtain ⟨np0, hnp0⟩ := hxv
  obtain ⟨np, hnp, _, _⟩ := inv.frame x np0 hnp0
  intro hsum
  rw [inv.count] at hsum
  have hall := (List.countP_eq_length (p := fun np : NSTRUC => np.islevel)).mp hsum
  have hl : np.islevel = true := hall np (List.getElem?_mem hnp)
  obtain ⟨npa, hna, _, hlt⟩ := levelled_ancestor_lower inv hi hb hx np hnp hl
  rw [hnp] at hna
  have := Option.some.inj hna
  subst this
  exact lt_irrefl _ hlt

/-- On a netlist with a cycle `lev` never leaves its loop. -/
theorem lev_loops_on_cycle (c : Circuit) (hv : FaninsValid c.Node)
    (hi : InputsHaveNoFanin c.Node) (hb : BranchesSingle c.Node)
    (hclr : FlagsClear c.Node) (hc : HasCycle c.Node) :
    ∀ fuel : Nat, lev fuel c = Run.fuelOut := by
  have hg : BranchesHaveFanin c.Node := by
    intro np hnp ht h
    have := hb np hnp ht
    rw [h] at this
    exact absurd this (by decide)
  have hloop : ∀ (fuel : Nat) (s : LevState), LevInv c.Node s →
      lev_loop fuel s = Run.fuelOut := by
    intro fuel
    induction fuel with
    | zero => intro s _; rfl
    | succ fuel ih =>
      intro s inv
      obtain ⟨s1, hs1, inv1, _⟩ := lev_sweep_spec hv hg s inv
      simp only [lev_loop, hs1, if_neg (cycle_unlevelled inv1 hi hb hc)]
      exact ih s1 inv1
  have inv0 : LevInv c.Node { Node := c.Node, Maxlevel := 0, sumnode := 0 } := by
    have hnone : ∀ (x : Nat) (np : NSTRUC), c.Node[x]? = some np → np.islevel = true →
        False := by
      intro x np hnp hl
      rw [hclr np (List.getElem?_mem hnp)] at hl
      exact Bool.noConfusion hl
    refine ⟨rfl, fun x np0 h => ⟨np0, h, rfl, rfl⟩, ?_, ?_, le_refl _, ?_, Or.inl rfl⟩
    · show 0 = List.countP (fun np : NSTRUC => np.islevel) c.Node
      symm
      rw [List.countP_eq_zero]
      intro a ha
      simp [hclr a ha]
    · intro x np hnp hl
      exact (hnone x np hnp hl).elim
    · intro x np hnp hl
      exact (hnone x np hnp hl).elim
  intro fuel
  simp only [lev, hloop fuel _ inv0]

/-- C15 (as the code has it): on every netlist with a cycle in its fanin
relation (fanin pointers valid, `IPT` lines without fanin, `BRCH` lines with
exactly one fanin, flags clear) `lev` never leaves its loop: after every
sweep unlevelled lines remain, nothing is reported, and the next
sweep starts. -/
theorem lev_cycle_never_returns (c : Circuit) (hv : FaninsValid c.Node)
    (hi : InputsHaveNoFanin c.Node) (hb : BranchesSingle c.Node)
    (hclr : FlagsClear c.Node) (hc : HasCycle c.Node) :
    (∀ fuel : Nat, lev fuel c = Run.fuelOut) ∧
    ∀ fuel : Nat, ¬ ∃ c', lev fuel c = Run.ret c' := by
  have h := lev_loops_on_cycle c hv hi hb hclr hc
  refine ⟨h, ?_⟩
  rintro fuel ⟨c', hc'⟩
  rw [h fuel] at hc'
  exact Run.noConfusion hc'

theorem gateLoop_cycle : HasCycle gateLoop.Node := by
  have h12 : IsFanin gateLoop.Node 1 2 := ⟨line 2 NOT [1], rfl, by decide⟩
  have h21 : IsFanin gateLoop.Node 2 1 := ⟨line 1 AND [0, 2], rfl, by decide⟩
  exact ⟨1, (Relation.TransGen.single h12).tail h21⟩

/-- C15, witness: the netlist `gateLoop`, in which the `AND` line 1 and the
inverter line 2 feed each other. -/
theorem lev_cycle_never_returns_witness :
    FaninsValid gateLoop.Node ∧ InputsHaveNoFanin gateLoop.Node ∧
    BranchesSingle gateLoop.Node ∧ FlagsClear gateLoop.Node ∧ HasCycle gateLoop.Node ∧
    (∀ fuel : Nat, lev fuel gateLoop = Run.fuelOut) ∧
    ∀ fuel : Nat, ¬ ∃ c', lev fuel gateLoop = Run.ret c' :=
  ⟨by decide, by decide, by decide, by decide, gateLoop_cycle,
    lev_cycle_never_returns gateLoop (by decide) (by decide) (by decide) (by decide)
      gateLoop_cycle⟩

/-- C15, counterexample to the claim as stated: the netlist `gateLoop` has a
cycle; its first sweep levels the primary input only, its second sweep
levels no new line while two unlevelled lines remain, and `lev` does not
stop there nor ever: with any number of sweeps it is still in its loop. -/
theorem lev_cycle_counterexample :
    HasCycle gateLoop.Node ∧
    (∃ s1 s2, lev_sweep { Node := gateLoop.Node, Maxlevel := 0, sumnode := 0 } = some s1 ∧
      lev_sweep s1 = some s2 ∧ s1.sumnode = 1 ∧ s2.sumnode = 1 ∧ s2 = s1 ∧
      s2.Node.length = 3) ∧
    ∀ fuel : Nat, ¬ ∃ c', lev fuel gateLoop = Run.ret c' := by
  refine ⟨gateLoop_cycle, ⟨_, _, rfl, rfl, rfl, rfl, rfl, rfl⟩, ?_⟩
  rintro fuel ⟨c', h⟩
  rw [lev_loops_on_cycle gateLoop (by decide) (by decide) (by decide) (by decide)
    gateLoop_cycle fuel] at h
  exact Run.noConfusion h

/-! ### C16: `XOR` lines in deductive fault simulation -/

/-- C16 (as the code has it): on every levelized well-formed netlist, with or
without `XOR` lines, fault-free and deductive fault simulation return
normally, and the list of every `XOR` line is the array of `Nnodes` cells
holding 2 that the simulation starts from: the case `XOR` of
`fault_list_propogate` does nothing, so the line has an empty fault set,
its local fault included. -/
theorem xor_list_untouched (c : Circuit) (hw : WellFormed c) (hl : Levelized c) :
    ∃ c1 c2, fault_free_simulation c = some c1 ∧ deductive_fault_simulation c1 = some c2 ∧
      ∀ (x : Nat) (np : NSTRUC), c2.Node[x]? = some np → np.type = XOR →
        np.L = List.replicate c2.Node.length 2 ∧
        ∀ (k : Nat) (p : Int), (p = 0 ∨ p = 1) → ¬ inFaults c2.Node x k p := by
  obtain ⟨c2, hsim⟩ := simulate_spec c hw hl
  obtain ⟨c1, h1, h2, _⟩ := hsim.runs
  refine ⟨c1, c2, h1, h2, ?_⟩
  intro x np hnp ht
  have heq := (hsim.lists x np hnp).2
  simp only [propagate_list, ht, Option.some.injEq] at heq
  refine ⟨heq.symm, ?_⟩
  intro k p hp
  rw [inFaults_of hnp, ← heq]
  exact holdsAt_replicate_two _ k p hp

/-- C16, witness: the netlist `xorGate`. -/
theorem xor_list_untouched_witness :
    WellFormed xorGate ∧ Levelized xorGate ∧
    ∃ c1 c2, fault_free_simulation xorGate = some c1 ∧
      deductive_fault_simulation c1 = some c2 ∧
      ∀ (x : Nat) (np : NSTRUC), c2.Node[x]? = some np → np.type = XOR →
        np.L = List.replicate c2.Node.length 2 ∧
        ∀ (k : Nat) (p : Int), (p = 0 ∨ p = 1) → ¬ inFaults c2.Node x k p :=
  ⟨by decide, by decide, xor_list_untouched xorGate (by decide) (by decide)⟩

/-- C16, counterexample to the claim as stated: the netlist `xorGate` holds
the `XOR` line 2, and `deductive_fault_simulation` run on it after
fault-free simulation returns normally, with the list `[2, 2, 2]` for
line 2. -/
theorem xor_counterexample :
    (∃ np, xorGate.Node[2]? = some np ∧ np.type = XOR) ∧
    ∃ c1 c2, fault_free_simulation xorGate = some c1 ∧
      deductive_fault_simulation c1 = some c2 ∧ faultList c2.Node 2 = [2, 2, 2] :=
  ⟨⟨_, rfl, rfl⟩, _, _, rfl, rfl, rfl⟩

/-! ### C18: `Maxlevel` -/

/-- C18: on every acyclic netlist with valid fanin pointers, a fanin on every
`BRCH` line and clear flags, `lev` returns and afterwards no line has a
level above `Maxlevel`, some line has the level `Maxlevel` unless the
netlist is empty, and `Maxlevel` is 0 when the netlist is empty or every
line is an `IPT`. -/
theorem lev_maxlevel (c : Circuit) (hv : FaninsValid c.Node) (hac : Acyclic c.Node)
    (hg : BranchesHaveFanin c.Node) (hclr : FlagsClear c.Node) :
    ∃ c', lev (c.Node.length + 1) c = Run.ret c' ∧
      (∀ np ∈ c'.Node, np.level ≤ c'.Maxlevel) ∧
      (c.Node ≠ [] → ∃ np ∈ c'.Node, np.level = c'.Maxlevel) ∧
      (c.Node = [] → c'.Maxlevel = 0) ∧
      ((∀ np ∈ c.Node, np.type = IPT) → c'.Maxlevel = 0) := by
  obtain ⟨s, hs, inv, hall⟩ := lev_spec c hv hac hg hclr
  have hzero : ∀ (x : Nat) (np : NSTRUC), s.Node[x]? = some np → np.type = IPT →
      np.level = 0 := fun x np hnp ht =>
    (inv.done x np hnp (hall np (List.getElem?_mem hnp))).2.1 ht
  refine ⟨_, hs, ?_, ?_, ?_, ?_⟩
  · intro np hnp
    obtain ⟨x, hx⟩ := List.mem_iff_getElem?.mp hnp
    exact inv.maxUpper x np hx (hall np hnp)
  · intro hne
    show ∃ np ∈ s.Node, np.level = s.Maxlevel
    rcases inv.maxAttained with h0 | ⟨x, np, hnp, _, he⟩
    · have hpos : 0 < c.Node.length := List.length_pos.mpr hne
      obtain ⟨y, hy, _, hmin⟩ := acyclic_min hv hac (fun _ => True) 0 hpos trivial
      obtain ⟨np0, hnp0, hmem0⟩ := getElem?_of_lt c.Node y hy
      have hnil : np0.unodes = [] := by
        cases hu : np0.unodes with
        | nil => rfl
        | cons u us =>
          exact absurd trivial (hmin np0 hnp0 u (by rw [hu]; exact List.mem_cons_self _ _))
      obtain ⟨np, hnp, ht, hun⟩ := inv.frame y np0 hnp0
      have hdone := inv.done y np hnp (hall np (List.getElem?_mem hnp))
      have hup := inv.maxUpper y np hnp (hall np (List.getElem?_mem hnp))
      refine ⟨np, List.getElem?_mem hnp, ?_⟩
      rw [h0]
      by_cases ht0 : np.type = 0
      · exact hdone.2.1 ht0
      · by_cases ht1 : np.type = 1
        · exact absurd hnil (hg np0 hmem0 (ht.symm.trans ht1))
        · have := (hdone.2.2.2 ht0 ht1).2.1 (hun.trans hnil)
          omega
    · exact ⟨np, List.getElem?_mem hnp, he⟩
  · intro hnil
    show s.Maxlevel = 0
    rcases inv.maxAttained with h0 | ⟨x, np, hnp, _, _⟩
    · exact h0
    · have := lt_of_getElem?_some hnp
      rw [inv.len, hnil] at this
      exact absurd this (Nat.not_lt_zero x)
  · intro hipt
    show s.Maxlevel = 0
    rcases inv.maxAttained with h0 | ⟨x, np, hnp, _, he⟩
    · exact h0
    · obtain ⟨np0, hnp0, hmem0⟩ := getElem?_of_lt c.Node x
        (by rw [← inv.len]; exact lt_of_getElem?_some hnp)
      obtain ⟨np', hnp', ht, _⟩ := inv.frame x np0 hnp0
      rw [hnp] at hnp'
      have := Option.some.inj hnp'
      subst this
      rw [← he]
      exact hzero x np hnp (ht.trans (hipt np0 hmem0))

/-- C18, witness: `lev` on the benchmark c17. -/
theorem lev_maxlevel_witness :
    FaninsValid c17.Node ∧ Acyclic c17.Node ∧ BranchesHaveFanin c17.Node ∧
    FlagsClear c17.Node ∧
    ∃ c', lev (c17.Node.length + 1) c17 = Run.ret c' ∧
      (∀ np ∈ c'.Node, np.level ≤ c'.Maxlevel) ∧
      (c17.Node ≠ [] → ∃ np ∈ c'.Node, np.level = c'.Maxlevel) ∧
      (c17.Node = [] → c'.Maxlevel = 0) ∧
      ((∀ np ∈ c17.Node, np.type = IPT) → c'.Maxlevel = 0) :=
  ⟨by decide, acyclic_of_faninsBefore (by decide), by decide, by decide,
    lev_maxlevel c17 (by decide) (acyclic_of_faninsBefore (by decide)) (by decide)
      (by decide)⟩

/-! ### C19: the benchmark c17 with every primary input at 0 -/

/-- C19 (as the code has it): on the benchmark c17, after `lev`, fault-free
simulation (every primary input at 0) and deductive fault simulation, both
primary outputs (lines 15 and 16, labelled 22 and 23) have the value 0, and
of the stuck-at-1 faults of the primary inputs (lines 0..4, labelled 1, 2,
3, 6, 7) `faults(22)` holds that of input 2 only and `faults(23)` those of
the inputs 2 and 7. -/
theorem c17_all_zero :
    ∃ c0 c1 c2, lev 18 c17 = Run.ret c0 ∧ fault_free_simulation c0 = some c1 ∧
      deductive_fault_simulation c1 = some c2 ∧
      (∀ x ∈ c17.Pinput, valueOf c2.Node x = 0) ∧
      valueOf c2.Node 15 = 0 ∧ valueOf c2.Node 16 = 0 ∧
      faultList c2.Node 15 = [2, 1, 2, 2, 2, 2, 2, 0, 2, 2, 2, 0, 0, 2, 2, 1, 2] ∧
      faultList c2.Node 16 = [2, 1, 2, 2, 1, 2, 2, 2, 2, 2, 2, 0, 2, 0, 0, 2, 1] ∧
      (∀ k ∈ c17.Pinput, inFaults c2.Node 15 k 1 ↔ k = 1) ∧
      (∀ k ∈ c17.Pinput, inFaults c2.Node 16 k 1 ↔ (k = 1 ∨ k = 4)) :=
  ⟨_, _, _, lev_c17, rfl, rfl, by decide, rfl, rfl, rfl, rfl, by decide, by decide⟩

/-- C19, counterexample to the claim as stated: on the benchmark c17 with
every primary input at 0, the stuck-at-1 fault of the primary input
labelled 1 (line 0) is in the fault set of neither primary output. -/
theorem c17_all_zero_counterexample :
    ∃ c0 c1 c2, lev 18 c17 = Run.ret c0 ∧ fault_free_simulation c0 = some c1 ∧
      deductive_fault_simulation c1 = some c2 ∧ 0 ∈ c17.Pinput ∧
      15 ∈ c17.Poutput ∧ 16 ∈ c17.Poutput ∧ valueOf c2.Node 0 = 0 ∧
      ¬ inFaults c2.Node 15 0 1 ∧ ¬ inFaults c2.Node 16 0 1 :=
  ⟨_, _, _, lev_c17, rfl, rfl, by decide, by decide, by decide, rfl, by decide, by decide⟩

/-! ### C20: termination of `lev` -/

theorem levInv_start (c : Circuit) (hclr : FlagsClear c.Node) :
    LevInv c.Node (lev_start c) := by
  have hnone : ∀ (x : Nat) (np : NSTRUC), c.Node[x]? = some np → np.islevel = true →
      False := by
    intro x np hnp hl
    rw [hclr np (List.getElem?_mem hnp)] at hl
    exact Bool.noConfusion hl
  refine ⟨rfl, fun x np0 h => ⟨np0, h, rfl, rfl⟩, ?_, ?_, le_refl _, ?_, Or.inl rfl⟩
  · show 0 = List.countP (fun np : NSTRUC => np.islevel) c.Node
    symm
    rw [List.countP_eq_zero]
    intro a ha
    simp [hclr a ha]
  · intro x np hnp hl
    exact (hnone x np hnp hl).elim
  · intro x np hnp hl
    exact (hnone x np hnp hl).elim

/-- A sweep that marks no line that was unmarked does not raise the number
of marked lines. -/
theorem countP_levelled_le : ∀ (l1 l2 : List NSTRUC), l1.length = l2.length →
    (∀ (x : Nat) (np np' : NSTRUC), l1[x]? = some np → l2[x]? = some np' →
      np'.islevel = true → np.islevel = true) →
    l2.countP (fun np => np.islevel) ≤ l1.countP (fun np => np.islevel) := by
  intro l1
  induction l1 with
  | nil =>
    intro l2 hlen _
    have : l2 = [] := List.length_eq_zero.mp hlen.symm
    rw [this]
  | cons a l1 ih =>
    intro l2 hlen h
    cases l2 with
    | nil => exact absurd hlen (by simp)
    | cons b l2 =>
      have htl := ih l2 (by simpa using hlen)
        (fun x np np' h1 h2 => h (x + 1) np np' (by simpa using h1) (by simpa using h2))
      have hhd := h 0 a b (by simp) (by simp)
      rw [List.countP_cons, List.countP_cons]
      cases hb : b.islevel
      · simp only [Bool.false_eq_true, if_false, Nat.add_zero]
        exact le_trans htl (Nat.le_add_right _ _)
      · rw [hhd hb]
        simp only [if_true]
        exact Nat.add_le_add_right htl 1

/-- While a line is unlevelled, a sweep of `lev` on an acyclic netlist levels
at least one more line. -/
theorem lev_sweep_progress {Node0 : List NSTRUC} (hv : FaninsValid Node0)
    (hg : BranchesHaveFanin Node0) (hac : Acyclic Node0) (s : LevState)
    (inv : LevInv Node0 s) (hlt : s.sumnode < Node0.length) :
    ∃ s', lev_sweep s = some s' ∧ LevInv Node0 s' ∧ s.sumnode < s'.sumnode ∧
      s'.sumnode ≤ Node0.length ∧ ∃ x, NewlyLevelled s s' x := by
  obtain ⟨s1, hs1, inv1, hkeep, hle, hprog⟩ := lev_sweep_spec hv hg s inv
  have hne : ¬ ∀ a ∈ s.Node, (fun np : NSTRUC => np.islevel) a = true := by
    intro hall
    have := (List.countP_eq_length (p := fun np : NSTRUC => np.islevel)).mpr hall
    rw [← inv.count, inv.len] at this
    omega
  push_neg at hne
  obtain ⟨a, ha, hal⟩ := hne
  obtain ⟨x, hx, hxa⟩ := List.getElem_of_mem ha
  have hxa' : s.Node[x]? = some a := by rw [List.getElem?_eq_getElem hx, hxa]
  obtain ⟨y, hy, ⟨np, hnp, hnl⟩, hmin⟩ := acyclic_min hv hac
    (fun y => ∃ np : NSTRUC, s.Node[y]? = some np ∧ np.islevel = false) x
    (by rw [← inv.len]; exact hx) ⟨a, hxa', by simpa using hal⟩
  obtain ⟨np0, hnp0, hmem0⟩ := getElem?_of_lt Node0 y hy
  obtain ⟨np', hnp', _, hun⟩ := inv.frame y np0 hnp0
  rw [hnp] at hnp'
  have := Option.some.inj hnp'
  subst this
  have hstrict : s.sumnode < s1.sumnode := by
    refine hprog y np hnp hnl ?_
    intro u hu
    have hu0 : u ∈ np0.unodes := by rw [← hun]; exact hu
    obtain ⟨un, hun', _⟩ := getElem?_of_lt s.Node u
      (by rw [inv.len]; exact hv np0 hmem0 u hu0)
    refine ⟨un, hun', ?_⟩
    cases hl : un.islevel
    · exact absurd ⟨un, hun', hl⟩ (hmin np0 hnp0 u hu0)
    · rfl
  have hup : s1.sumnode ≤ Node0.length := by
    have := List.countP_le_length (fun np : NSTRUC => np.islevel) (l := s1.Node)
    rw [← inv1.count, inv1.len] at this
    exact this
  refine ⟨s1, hs1, inv1, hstrict, hup, ?_⟩
  by_contra hno
  have hcount := countP_levelled_le s.Node s1.Node (inv.len.trans inv1.len.symm)
    (fun z r r' h1 h2 hl' => by
      cases hl : r.islevel
      · exact absurd ⟨z, r, r', h1, hl, h2, hl'⟩ hno
      · rfl)
  rw [← inv.count, ← inv1.count] at hcount
  omega

/-- More fuel does not change what `lev_loop` returns. -/
theorem lev_loop_mono : ∀ (n : Nat) (s s' : LevState), lev_loop n s = Run.ret s' →
    ∀ m : Nat, n ≤ m → lev_loop m s = Run.ret s' := by
  intro n
  induction n with
  | zero => intro s s' h; simp [lev_loop] at h
  | succ n ih =>
    intro s s' h m hm
    obtain ⟨m', rfl⟩ : ∃ m', m = m' + 1 := ⟨m - 1, by omega⟩
    simp only [lev_loop] at h ⊢
    cases hs : lev_sweep s with
    | none => rw [hs] at h; simp at h
    | some s1 =>
      rw [hs] at h
      simp only at h ⊢
      by_cases hd : s1.sumnode = s1.Node.length
      · rw [if_pos hd] at h ⊢; exact h
      · rw [if_neg hd] at h ⊢
        exact ih s1 s' h m' (by omega)

/-- From a state with an unlevelled line, `lev_loop` on an acyclic netlist
returns after some number `n` of sweeps that is at most the number of
unlevelled lines, and every one of these sweeps levels a line. -/
theorem lev_loop_sweeps {Node0 : List NSTRUC} (hv : FaninsValid Node0)
    (hg : BranchesHaveFanin Node0) (hac : Acyclic Node0) :
    ∀ (d : Nat) (s : LevState), LevInv Node0 s → s.sumnode < Node0.length →
      Node0.length - s.sumnode ≤ d →
      ∃ (n : Nat) (s' : LevState), 1 ≤ n ∧ n ≤ Node0.length - s.sumnode ∧
        lev_loop n s = Run.ret s' ∧ lev_after n s = some s' ∧
        (∀ f : Nat, f < n → lev_loop f s = Run.fuelOut) ∧
        ∀ k : Nat, k < n → ∃ t t' : LevState, lev_after k s = some t ∧
          lev_sweep t = some t' ∧ t.sumnode < t'.sumnode ∧ ∃ x, NewlyLevelled t t' x := by
  intro d
  induction d with
  | zero => intro s _ hlt hd; omega
  | succ d ih =>
    intro s inv hlt _
    obtain ⟨s1, hs1, inv1, hstrict, hup, hnew⟩ := lev_sweep_progress hv hg hac s inv hlt
    by_cases hdone : s1.sumnode = s1.Node.length
    · refine ⟨1, s1, le_refl 1, by omega, ?_, ?_, ?_, ?_⟩
      · simp only [lev_loop, hs1, if_pos hdone]
      · simp only [lev_after, hs1, Option.some_bind]
      · intro f hf
        have : f = 0 := by omega
        subst this
        rfl
      · intro k hk
        have : k = 0 := by omega
        subst this
        exact ⟨s, s1, rfl, hs1, hstrict, hnew⟩
    · have hlt1 : s1.sumnode < Node0.length := by
        rw [inv1.len] at hdone
        omega
      obtain ⟨n, s', hn1, hn2, hret, haft, hout, hall⟩ := ih s1 inv1 hlt1 (by omega)
      refine ⟨n + 1, s', by omega, by omega, ?_, ?_, ?_, ?_⟩
      · simp only [lev_loop, hs1, if_neg hdone]
        exact hret
      · simp only [lev_after, hs1, Option.some_bind]
        exact haft
      · intro f hf
        cases f with
        | zero => rfl
        | succ f =>
          simp only [lev_loop, hs1, if_neg hdone]
          exact hout f (by omega)
      · intro k hk
        cases k with
        | zero => exact ⟨s, s1, rfl, hs1, hstrict, hnew⟩
        | succ k =>
          obtain ⟨t, t', h1, h2, h3, h4⟩ := hall k (by omega)
          refine ⟨t, t', ?_, h2, h3, h4⟩
          simp only [lev_after, hs1, Option.some_bind]
          exact h1

/-- C20: on every acyclic netlist of `N ≥ 1` lines with valid fanin pointers,
exactly one fanin on every `BRCH` line and clear flags, `lev` returns after
some number `n` of sweeps with `1 ≤ n ≤ N` (it is still in its loop with
less fuel than `n` sweeps, and `N` sweeps are enough), the state it returns
is the one after these `n` sweeps, and every one of the `n` sweeps levels
at least one line that was unlevelled before it. -/
theorem lev_terminates (c : Circuit) (hN : 1 ≤ c.Node.length) (hv : FaninsValid c.Node)
    (hac : Acyclic c.Node) (hb : BranchesSingle c.Node) (hclr : FlagsClear c.Node) :
    ∃ (n : Nat) (s' : LevState), 1 ≤ n ∧ n ≤ c.Node.length ∧
      lev n c = Run.ret { c with Node := s'.Node, Maxlevel := s'.Maxlevel } ∧
      lev c.Node.length c = Run.ret { c with Node := s'.Node, Maxlevel := s'.Maxlevel } ∧
      (∀ f : Nat, f < n → lev f c = Run.fuelOut) ∧
      lev_after n (lev_start c) = some s' ∧
      (∀ np ∈ s'.Node, np.islevel = true) ∧
      ∀ k : Nat, k < n → ∃ t t' : LevState, lev_after k (lev_start c) = some t ∧
        lev_sweep t = some t' ∧ t.sumnode < t'.sumnode ∧ ∃ x, NewlyLevelled t t' x := by
  have hg : BranchesHaveFanin c.Node := by
    intro np hnp ht h
    have := hb np hnp ht
    rw [h] at this
    exact absurd this (by decide)
  obtain ⟨n, s', hn1, hn2, hret, haft, hout, hall⟩ :=
    lev_loop_sweeps hv hg hac c.Node.length (lev_start c) (levInv_start c hclr)
      (by show 0 < c.Node.length; omega) (by show c.Node.length - 0 ≤ c.Node.length; omega)
  have hn3 : n ≤ c.Node.length := by
    have : (lev_start c).sumnode = 0 := rfl
    omega
  obtain ⟨sN, hsN, invN, hsum⟩ := lev_loop_spec hv hg hac (c.Node.length + 1) (lev_start c)
    (levInv_start c hclr) (by show c.Node.length - 0 < c.Node.length + 1; omega)
  have heq : sN = s' := by
    have := lev_loop_mono n _ s' hret (c.Node.length + 1) (by omega)
    rw [hsN] at this
    exact Run.ret.inj this
  subst heq
  refine ⟨n, sN, hn1, hn3, ?_, ?_, ?_, haft, ?_, hall⟩
  · show (match lev_loop n (lev_start c) with
      | Run.ret s => Run.ret { c with Node := s.Node, Maxlevel := s.Maxlevel }
      | Run.undef => Run.undef
      | Run.fuelOut => Run.fuelOut) = _
    rw [hret]
  · show (match lev_loop c.Node.length (lev_start c) with
      | Run.ret s => Run.ret { c with Node := s.Node, Maxlevel := s.Maxlevel }
      | Run.undef => Run.undef
      | Run.fuelOut => Run.fuelOut) = _
    rw [lev_loop_mono n _ sN hret c.Node.length hn3]
  · intro f hf
    show (match lev_loop f (lev_start c) with
      | Run.ret s => Run.ret { c with Node := s.Node, Maxlevel := s.Maxlevel }
      | Run.undef => Run.undef
      | Run.fuelOut => Run.fuelOut) = _
    rw [hout f hf]
  · have := invN.count
    rw [hsum, ← invN.len] at this
    exact (List.countP_eq_length (p := fun np : NSTRUC => np.islevel)).mp this.symm

/-- C20, witness: `lev` on the benchmark c17. -/
theorem lev_terminates_witness :
    1 ≤ c17.Node.length ∧ FaninsValid c17.Node ∧ Acyclic c17.Node ∧
    BranchesSingle c17.Node ∧ FlagsClear c17.Node ∧
    ∃ (n : Nat) (s' : LevState), 1 ≤ n ∧ n ≤ c17.Node.length ∧
      lev n c17 = Run.ret { c17 with Node := s'.Node, Maxlevel := s'.Maxlevel } ∧
      lev c17.Node.length c17 =
        Run.ret { c17 with Node := s'.Node, Maxlevel := s'.Maxlevel } ∧
      (∀ f : Nat, f < n → lev f c17 = Run.fuelOut) ∧
      lev_after n (lev_start c17) = some s' ∧
      (∀ np ∈ s'.Node, np.islevel = true) ∧
      ∀ k : Nat, k < n → ∃ t t' : LevState, lev_after k (lev_start c17) = some t ∧
        lev_sweep t = some t' ∧ t.sumnode < t'.sumnode ∧ ∃ x, NewlyLevelled t t' x :=
  ⟨by decide, by decide, acyclic_of_faninsBefore (by decide), by decide, by decide,
    lev_terminates c17 (by decide) (by decide) (acyclic_of_faninsBefore (by decide))
      (by decide) (by decide)⟩

/-! ### C17: the linking pass of `cread` -/

theorem first_null_append : ∀ (F rest : List (Option Nat)), none ∉ F →
    first_null (F ++ none :: rest) = some F.length := by
  intro F
  induction F with
  | nil => intro rest _; rfl
  | cons d F ih =>
    intro rest h
    cases d with
    | none => exact absurd (List.mem_cons_self _ _) h
    | some v =>
      have h' : none ∉ F := fun hm => h (List.mem_cons_of_mem _ hm)
      show (first_null (F ++ none :: rest)).map (fun k => k + 1) = _
      rw [ih rest h']
      rfl

theorem set_append_length : ∀ (F rest : List (Option Nat)) (d v : Option Nat),
    (F ++ d :: rest).set F.length v = F ++ v :: rest := by
  intro F
  induction F with
  | nil => intro rest d v; rfl
  | cons a F ih =>
    intro rest d v
    show a :: (F ++ d :: rest).set F.length v = a :: (F ++ v :: rest)
    rw [ih]

theorem link_fanins_eq (i : Nat) : ∀ (us : List Nat) (Node : List NSTRUC),
    link_fanins i us Node = link_refs (us.map (fun u => (i, u))) Node := by
  intro us
  induction us with
  | nil => intro Node; rfl
  | cons u us ih =>
    intro Node
    show (link_fanin i Node u).bind (link_fanins i us) =
      (link_fanin i Node u).bind (link_refs (us.map (fun u => (i, u))))
    cases link_fanin i Node u with
    | none => rfl
    | some t => exact ih t

theorem link_refs_append : ∀ (A B : List (Nat × Nat)) (Node : List NSTRUC),
    link_refs (A ++ B) Node = (link_refs A Node).bind (link_refs B) := by
  intro A
  induction A with
  | nil => intro B Node; rfl
  | cons r A ih =>
    intro B Node
    show (link_fanin r.1 Node r.2).bind (link_refs (A ++ B)) =
      ((link_fanin r.1 Node r.2).bind (link_refs A)).bind (link_refs B)
    cases link_fanin r.1 Node r.2 with
    | none => rfl
    | some t => exact ih B t

/-- A step of the linking pass changes nothing but an array `dnodes`. -/
theorem link_fanin_frame {i u : Nat} {Node t : List NSTRUC}
    (h : link_fanin i Node u = some t) :
    t.length = Node.length ∧
    ∀ (x : Nat) (np : NSTRUC), Node[x]? = some np →
      ∃ ds, t[x]? = some { np with dnodes := ds } ∧ ds.length = np.dnodes.length := by
  cases hu : Node[u]? with
  | none => simp [link_fanin, hu] at h
  | some un =>
    cases hk : first_null un.dnodes with
    | none => simp [link_fanin, hu, hk] at h
    | some k =>
      simp only [link_fanin, hu, hk, Option.some.injEq] at h
      subst h
      refine ⟨List.length_set _ _ _, ?_⟩
      intro x np hx
      by_cases hxu : x = u
      · subst hxu
        rw [hu] at hx
        have := Option.some.inj hx
        subst this
        refine ⟨un.dnodes.set k (some i), ?_, List.length_set _ _ _⟩
        rw [List.getElem?_set_self (lt_of_getElem?_some hu)]
      · refine ⟨np.dnodes, ?_, rfl⟩
        rw [List.getElem?_set_ne (fun e => hxu e.symm)]
        exact hx

theorem link_refs_frame : ∀ (R : List (Nat × Nat)) (Node t : List NSTRUC),
    link_refs R Node = some t →
    t.length = Node.length ∧
    ∀ (x : Nat) (np : NSTRUC), Node[x]? = some np →
      ∃ ds, t[x]? = some { np with dnodes := ds } ∧ ds.length = np.dnodes.length := by
  intro R
  induction R with
  | nil =>
    intro Node t h
    have : Node = t := Option.some.inj h
    subst this
    exact ⟨rfl, fun x np hx => ⟨np.dnodes, hx, rfl⟩⟩
  | cons r R ih =>
    intro Node t h
    have h' : (link_fanin r.1 Node r.2).bind (link_refs R) = some t := h
    cases h1 : link_fanin r.1 Node r.2 with
    | none => rw [h1] at h'; simp at h'
    | some t1 =>
      rw [h1] at h'
      obtain ⟨hl1, hf1⟩ := link_fanin_frame h1
      obtain ⟨hl2, hf2⟩ := ih t1 t h'
      refine ⟨hl2.trans hl1, ?_⟩
      intro x np hx
      obtain ⟨ds1, hx1, hd1⟩ := hf1 x np hx
      obtain ⟨ds2, hx2, hd2⟩ := hf2 x _ hx1
      exact ⟨ds2, hx2, hd2.trans hd1⟩

theorem refsOf_succ (Node : List NSTRUC) (n : Nat) :
    refsOf Node (n + 1) = refsOf Node n ++
      (match Node[n]? with
        | some np => np.unodes.map (fun u => (n, u))
        | none => []) := by
  simp only [refsOf, List.range_succ, List.flatMap_append, List.flatMap_cons,
    List.flatMap_nil, List.append_nil]

/-- The two nested loops of the linking pass handle the fanin pointers in the
order of `refsOf`. -/
theorem cread_link_eq (Node : List NSTRUC) : ∀ n : Nat, n ≤ Node.length →
    forLoop cread_link_visit n Node = link_refs (refsOf Node n) Node := by
  intro n
  induction n with
  | zero => intro _; rfl
  | succ n ih =>
    intro hn
    rw [refsOf_succ, link_refs_append]
    show (forLoop cread_link_visit n Node).bind (cread_link_visit n) = _
    rw [ih (by omega)]
    cases ht : link_refs (refsOf Node n) Node with
    | none => rfl
    | some t =>
      obtain ⟨np, hnp, _⟩ := getElem?_of_lt Node n (by omega)
      obtain ⟨ds, hx, _⟩ := (link_refs_frame _ Node t ht).2 n np hnp
      show cread_link_visit n t = link_refs _ t
      rw [hnp]
      simp only [cread_link_visit, hx]
      exact link_fanins_eq n np.unodes t

theorem count_some_replicate_none (n x : Nat) :
    (List.replicate n (none : Option Nat)).count (some x) = 0 := by
  rw [List.count_eq_zero]
  intro h
  exact Option.noConfusion (List.eq_of_mem_replicate h)

/-- What the linking pass does with a list `R` of fanin pointers, started on
arrays `dnodes` that end in as many `NULL` slots as `R` has pointers to the
line and hold no `NULL` before them: every pointer finds its slot, no slot
stays `NULL`, and the line `x` is entered in `dnodes` of `y` once for every
`(x, y)` of `R`. -/
theorem link_refs_spec : ∀ (R : List (Nat × Nat)) (Node : List NSTRUC),
    (∀ r ∈ R, r.2 < Node.length) →
    (∀ (y : Nat) (np : NSTRUC), Node[y]? = some np →
      ∃ F : List (Option Nat), none ∉ F ∧
        np.dnodes = F ++ List.replicate (R.countP (fun r => decide (r.2 = y))) none) →
    ∃ t, link_refs R Node = some t ∧
      ∀ (y : Nat) (np : NSTRUC), t[y]? = some np → none ∉ np.dnodes ∧
        ∀ x : Nat, np.dnodes.count (some x) = fanoutCount Node y x + R.count (x, y) := by
  intro R
  induction R with
  | nil =>
    intro Node _ hF
    refine ⟨Node, rfl, ?_⟩
    intro y np hy
    obtain ⟨F, hFn, hFe⟩ := hF y np hy
    simp only [List.countP_nil, List.replicate_zero, List.append_nil] at hFe
    refine ⟨by rw [hFe]; exact hFn, fun x => ?_⟩
    simp only [fanoutCount, hy, List.count_nil, Nat.add_zero]
  | cons r R ih =>
    intro Node hR hF
    obtain ⟨i, u⟩ := r
    have hu : u < Node.length := hR (i, u) (List.mem_cons_self _ _)
    obtain ⟨un, hun, _⟩ := getElem?_of_lt Node u hu
    obtain ⟨F, hFn, hFe⟩ := hF u un hun
    have hcnt : List.countP (fun r : Nat × Nat => decide (r.2 = u)) ((i, u) :: R) =
        List.countP (fun r : Nat × Nat => decide (r.2 = u)) R + 1 :=
      List.countP_cons_of_pos _ _ (by simp)
    rw [hcnt, List.replicate_succ] at hFe
    have hk : first_null un.dnodes = some F.length := by
      rw [hFe]; exact first_null_append F _ hFn
    obtain ⟨ds, hds⟩ : ∃ ds : List (Option Nat), ds = F ++ some i ::
        List.replicate (List.countP (fun r : Nat × Nat => decide (r.2 = u)) R) none :=
      ⟨_, rfl⟩
    have hset : un.dnodes.set F.length (some i) = ds := by
      rw [hFe, hds]; exact set_append_length F _ none (some i)
    have hstep : link_fanin i Node u = some (Node.set u { un with dnodes := ds }) := by
      simp only [link_fanin, hun, hk, hset]
    obtain ⟨t, ht, hspec⟩ := ih (Node.set u { un with dnodes := ds })
      (fun r hr => by
        rw [List.length_set]; exact hR r (List.mem_cons_of_mem _ hr))
      (fun y np hy => by
        by_cases hyu : y = u
        · subst hyu
          rw [List.getElem?_set_self hu] at hy
          have := Option.some.inj hy
          subst this
          refine ⟨F ++ [some i], ?_, ?_⟩
          · intro hm
            rcases List.mem_append.mp hm with h | h
            · exact hFn h
            · exact Option.noConfusion (List.mem_singleton.mp h)
          · show ds = (F ++ [some i]) ++ _
            rw [hds, List.append_assoc]; rfl
        · rw [List.getElem?_set_ne (fun e => hyu e.symm)] at hy
          obtain ⟨F', hF'n, hF'e⟩ := hF y np hy
          refine ⟨F', hF'n, ?_⟩
          rw [hF'e, List.countP_cons_of_neg]
          simpa using fun e : u = y => hyu e.symm)
    refine ⟨t, ?_, ?_⟩
    · show (link_fanin i Node u).bind (link_refs R) = some t
      rw [hstep]; exact ht
    · intro y np hy
      obtain ⟨h1, h2⟩ := hspec y np hy
      refine ⟨h1, fun x => ?_⟩
      rw [h2 x]
      by_cases hyu : y = u
      · subst hyu
        have e1 : fanoutCount Node y x = F.count (some x) := by
          simp only [fanoutCount, hun, hFe, List.count_append, List.count_cons,
            count_some_replicate_none]
          simp
        have e2 : fanoutCount (Node.set y { un with dnodes := ds }) y x =
            F.count (some x) + (if i = x then 1 else 0) := by
          simp only [fanoutCount, List.getElem?_set_self hu, hds, List.count_append,
            List.count_cons, count_some_replicate_none]
          simp
        rw [e1, e2, List.count_cons]
        by_cases hix : i = x
        · subst hix; simp; omega
        · have : ¬ ((i, y) == (x, y)) = true := by
            simp [hix]
          rw [if_neg hix, if_neg this]; omega
      · have e2 : fanoutCount (Node.set u { un with dnodes := ds }) y x =
            fanoutCount Node y x := by
          simp only [fanoutCount, List.getElem?_set_ne (fun e => hyu e.symm)]
        have : ¬ ((i, u) == (x, y)) = true := by
          simp only [beq_iff_eq, Prod.mk.injEq, not_and]
          exact fun _ e => hyu e.symm
        rw [e2, List.count_cons, if_neg this]; omega

theorem count_map_pair (n x y : Nat) : ∀ us : List Nat,
    (us.map (fun u => (n, u))).count (x, y) = if n = x then us.count y else 0 := by
  intro us
  induction us with
  | nil => simp
  | cons u us ih =>
    rw [List.map_cons, List.count_cons, ih, List.count_cons]
    by_cases hn : n = x
    · by_cases hu : u = y
      · simp [hn, hu]
      · simp [hn, hu]
    · simp [hn]

theorem countP_map_pair (n y : Nat) : ∀ us : List Nat,
    (us.map (fun u => (n, u))).countP (fun r => decide (r.2 = y)) = us.count y := by
  intro us
  induction us with
  | nil => simp
  | cons u us ih =>
    rw [List.map_cons, List.countP_cons, ih, List.count_cons]
    by_cases hu : u = y
    · simp [hu]
    · simp [hu]

/-- A pointer of `Node[x].unodes` to `Node[y]` is once in `refsOf`. -/
theorem refsOf_count (Node : List NSTRUC) (x y : Nat) : ∀ n : Nat,
    (refsOf Node n).count (x, y) = if x < n then faninCount Node x y else 0 := by
  intro n
  induction n with
  | zero => simp [refsOf]
  | succ n ih =>
    rw [refsOf_succ, List.count_append, ih]
    have hlast : List.count (x, y) (match Node[n]? with
        | some np => np.unodes.map (fun u => (n, u))
        | none => []) = if n = x then faninCount Node x y else 0 := by
      by_cases hn : n = x
      · subst hn
        rw [if_pos rfl]
        unfold faninCount
        cases Node[n]? with
        | none => rfl
        | some np => simp only [count_map_pair, if_true]
      · rw [if_neg hn]
        cases Node[n]? with
        | none => rfl
        | some np => simp only [count_map_pair, if_neg hn]
    rw [hlast]
    by_cases h1 : x < n
    · rw [if_pos h1, if_neg (by omega), if_pos (by omega)]; rfl
    · by_cases h2 : n = x
      · rw [if_neg h1, if_pos h2, if_pos (by omega)]; omega
      · rw [if_neg h1, if_neg h2, if_neg (by omega)]

/-- The pointers to `Node[y]` in `refsOf` are those of the arrays `unodes`. -/
theorem refsOf_countP (Node : List NSTRUC) (y : Nat) : ∀ n : Nat,
    (refsOf Node n).countP (fun r => decide (r.2 = y)) =
      ((Node.take n).flatMap (fun np => np.unodes)).count y := by
  intro n
  induction n with
  | zero => simp [refsOf]
  | succ n ih =>
    rw [refsOf_succ, List.countP_append, ih, List.take_succ, List.flatMap_append,
      List.count_append]
    cases Node[n]? with
    | none => simp
    | some np =>
      rw [countP_map_pair]
      simp

theorem refsOf_valid {Node : List NSTRUC} (hv : FaninsValid Node) (n : Nat) :
    ∀ r ∈ refsOf Node n, r.2 < Node.length := by
  intro r hr
  obtain ⟨i, _, hi⟩ := List.mem_flatMap.mp hr
  cases hnp : Node[i]? with
  | none => rw [hnp] at hi; simp at hi
  | some np =>
    rw [hnp] at hi
    obtain ⟨u, hu, rfl⟩ := List.mem_map.mp hi
    exact hv np (List.getElem?_mem hnp) u hu

/-- C17: on every node array whose fanin pointers are valid, whose fanout
slots are all `NULL` and in which the declared fanout count of every line is
the number of fanin pointers to it, the linking pass of `cread` runs to its
end, changes nothing but the contents of the arrays `dnodes`, leaves no
slot `NULL`, and the line `x` is in `dnodes` of `y` exactly as many times as
`y` is in `unodes` of `x`. -/
theorem fanout_symmetry (Node : List NSTRUC) (hv : FaninsValid Node) (hnull : SlotsNull Node)
    (hdecl : FanoutDeclared Node) :
    ∃ Node', cread_link Node = some Node' ∧ Node'.length = Node.length ∧
      (∀ (x : Nat) (np : NSTRUC), Node[x]? = some np →
        ∃ ds, Node'[x]? = some { np with dnodes := ds } ∧ ds.length = np.dnodes.length) ∧
      (∀ np ∈ Node', none ∉ np.dnodes) ∧
      ∀ x y : Nat, fanoutCount Node' y x = faninCount Node' x y := by
  have hzero : ∀ (y x : Nat), fanoutCount Node y x = 0 := by
    intro y x
    unfold fanoutCount
    cases hy : Node[y]? with
    | none => rfl
    | some np =>
      show np.dnodes.count (some x) = 0
      rw [List.count_eq_zero]
      intro hm
      exact Option.noConfusion (hnull np (List.getElem?_mem hy) _ hm)
  obtain ⟨t, ht, hspec⟩ := link_refs_spec (refsOf Node Node.length) Node
    (refsOf_valid hv Node.length)
    (fun y np hy => by
      refine ⟨[], List.not_mem_nil _, ?_⟩
      rw [refsOf_countP, List.take_length, List.nil_append,
        ← hdecl (y, np) (List.mk_mem_enum_iff_getElem?.mpr hy)]
      exact List.eq_replicate_of_mem (hnull np (List.getElem?_mem hy)))
  obtain ⟨hlen, hframe⟩ := link_refs_frame _ Node t ht
  have hfan : ∀ x y : Nat, faninCount t x y = faninCount Node x y := by
    intro x y
    unfold faninCount
    cases hx : Node[x]? with
    | none =>
      have : t[x]? = none := by
        rw [List.getElem?_eq_none_iff] at hx ⊢
        omega
      rw [this]
    | some np =>
      obtain ⟨ds, hx', _⟩ := hframe x np hx
      rw [hx']
  refine ⟨t, ?_, hlen, hframe, ?_, ?_⟩
  · rw [← ht]
    exact cread_link_eq Node Node.length (le_refl _)
  · intro np hnp
    obtain ⟨y, hy⟩ := List.mem_iff_getElem?.mp hnp
    exact (hspec y np hy).1
  · intro x y
    rw [hfan]
    cases hy : t[y]? with
    | none =>
      have hylen : Node.length ≤ y := by
        rw [List.getElem?_eq_none_iff] at hy
        omega
      have h0 : fanoutCount t y x = 0 := by
        simp only [fanoutCount, hy]
      rw [h0]
      unfold faninCount
      cases hx : Node[x]? with
      | none => rfl
      | some np =>
        show 0 = np.unodes.count y
        symm
        rw [List.count_eq_zero]
        intro hm
        have := hv np (List.getElem?_mem hx) y hm
        omega
    | some np =>
      have h1 : fanoutCount t y x = np.dnodes.count (some x) := by
        simp only [fanoutCount, hy]
      rw [h1, (hspec y np hy).2 x, hzero, Nat.zero_add, refsOf_count]
      by_cases hx : x < Node.length
      · rw [if_pos hx]
      · rw [if_neg hx]
        have : Node[x]? = none := by
          rw [List.getElem?_eq_none_iff]
          omega
        simp only [faninCount, this]

/-- C17, witness: the linking pass on the node array of the benchmark c17. -/
theorem fanout_symmetry_witness :
    FaninsValid c17Read ∧ SlotsNull c17Read ∧ FanoutDeclared c17Read ∧
    ∃ Node', cread_link c17Read = some Node' ∧ Node'.length = c17Read.length ∧
      (∀ (x : Nat) (np : NSTRUC), c17Read[x]? = some np →
        ∃ ds, Node'[x]? = some { np with dnodes := ds } ∧ ds.length = np.dnodes.length) ∧
      (∀ np ∈ Node', none ∉ np.dnodes) ∧
      ∀ x y : Nat, fanoutCount Node' y x = faninCount Node' x y :=
  ⟨by decide, by decide, by decide,
    fanout_symmetry c17Read (by decide) (by decide) (by decide)⟩

/-! ### C22: `union_op` on the alphabet -/

theorem union_cell_comm (a b : Int) : union_cell a b = union_cell b a := by
  unfold union_cell
  split_ifs <;> omega

theorem union_cell_eq (a b : Int) :
    union_cell a b = if a = 2 then b else if b = 2 then a else if a = b then a else 3 := by
  unfold union_cell
  split_ifs <;> omega

theorem union_cell_assoc (a b c : Int) :
    union_cell (union_cell a b) c = union_cell a (union_cell b c) := by
  simp only [union_cell_eq]
  by_cases h1 : a = 2
  · simp [h1]
  · by_cases h2 : b = 2
    · simp [h1, h2]
    · by_cases h3 : c = 2
      · simp [h1, h2, h3]
        split_ifs <;> simp_all
      · by_cases h4 : a = b
        · subst h4
          simp [h1, h3]
          split_ifs <;> simp_all
        · by_cases h5 : b = c
          · subst h5
            simp [h1, h2, h4]
          · simp [h1, h2, h3, h4, h5]
            split_ifs <;> simp_all

theorem union_cell_idem (a : Int) : union_cell a a = a := by
  unfold union_cell
  rw [if_pos rfl]

theorem union_cell_two_right (a : Int) : union_cell a 2 = a := by
  unfold union_cell
  split_ifs <;> omega

theorem union_cell_two_left (a : Int) : union_cell 2 a = a := by
  rw [union_cell_comm, union_cell_two_right]

/-- On codes a cell of `union_op` is the code of the union. -/
theorem union_cell_exact (a b : Int) (ha : IsCode a) (hb : IsCode b) :
    IsCode (union_cell a b) ∧
    ∀ p : Int, (p = 0 ∨ p = 1) → (codeHas (union_cell a b) p ↔ (codeHas a p ∨ codeHas b p)) := by
  rcases ha with rfl | rfl | rfl | rfl <;> rcases hb with rfl | rfl | rfl | rfl <;>
    refine ⟨by decide, ?_⟩ <;> rintro p (rfl | rfl) <;> decide

/-- A loop whose body assigns every cell computes `zipWith`. -/
theorem cellwise_total (f : Int → Int → Int) : ∀ (n : Nat) (x y : List Int),
    x.length = n → y.length = n →
    cellwise (fun a b => some (f a b)) n x y = some (List.zipWith f x y) := by
  intro n
  induction n with
  | zero =>
    intro x y hx hy
    rw [List.length_eq_zero.mp hx, List.length_eq_zero.mp hy]
    rfl
  | succ n ih =>
    intro x y hx hy
    obtain ⟨a, x', rfl⟩ := List.exists_cons_of_length_eq_add_one hx
    obtain ⟨b, y', rfl⟩ := List.exists_cons_of_length_eq_add_one hy
    simp only [cellwise, ih x' y' (by simpa using hx) (by simpa using hy), Option.map_some',
      List.zipWith_cons_cons]

theorem zipWith_assoc (f : Int → Int → Int) (h : ∀ a b c, f (f a b) c = f a (f b c)) :
    ∀ x y z : List Int,
      List.zipWith f (List.zipWith f x y) z = List.zipWith f x (List.zipWith f y z) := by
  intro x
  induction x with
  | nil => intro y z; simp
  | cons a x ih =>
    intro y z
    cases y with
    | nil => simp
    | cons b y =>
      cases z with
      | nil => simp
      | cons c z => simp [h, ih]

theorem zipWith_self (f : Int → Int → Int) (h : ∀ a, f a a = a) :
    ∀ x : List Int, List.zipWith f x x = x := by
  intro x
  induction x with
  | nil => rfl
  | cons a x ih => simp [h, ih]

theorem zipWith_replicate_right (f : Int → Int → Int) (e : Int) (h : ∀ a, f a e = a) :
    ∀ x : List Int, List.zipWith f x (List.replicate x.length e) = x := by
  intro x
  induction x with
  | nil => rfl
  | cons a x ih => simp [List.replicate_succ, h, ih]

theorem zipWith_swap (f : Int → Int → Int) (h : ∀ a b, f a b = f b a) :
    ∀ x y : List Int, List.zipWith f x y = List.zipWith f y x := by
  intro x
  induction x with
  | nil => intro y; simp
  | cons a x ih =>
    intro y
    cases y with
    | nil => simp
    | cons b y => simp [h a b, ih y]

theorem union_op_eq (n : Nat) (x y : List Int) (hx : x.length = n) (hy : y.length = n) :
    union_op n x y = some (List.zipWith union_cell x y) :=
  cellwise_total union_cell n x y hx hy

theorem codes_of_getElem? {n : Nat} {L : List Int} (h : Codes n L) {m : Nat} {v : Int}
    (hv : L[m]? = some v) : IsCode v :=
  h.2 v (List.getElem?_mem hv)

/-- C22: for all arrays `x`, `y`, `z` of `n` cells over the alphabet
{0, 1, 2, 3}, `union_op` returns an array of `n` cells over the alphabet
whose every cell is the code of the union of the sets that the cells of `x`
and `y` stand for; `union_op` is commutative, associative and idempotent,
and the array of `n` cells holding 2 is its identity on both sides. -/
theorem union_op_exact (n : Nat) (x y z : List Int) (hx : Codes n x) (hy : Codes n y)
    (hz : Codes n z) :
    (∃ r, union_op n x y = some r ∧ Codes n r ∧
      ∀ m : Nat, m < n → ∃ a b c, x[m]? = some a ∧ y[m]? = some b ∧ r[m]? = some c ∧
        ∀ p : Int, (p = 0 ∨ p = 1) → (codeHas c p ↔ (codeHas a p ∨ codeHas b p))) ∧
    union_op n x y = union_op n y x ∧
    (union_op n x y).bind (fun r => union_op n r z) =
      (union_op n y z).bind (fun r => union_op n x r) ∧
    union_op n x x = some x ∧
    union_op n x (List.replicate n 2) = some x ∧
    union_op n (List.replicate n 2) x = some x := by
  have hlen : ∀ a b : List Int, a.length = n → b.length = n →
      (List.zipWith union_cell a b).length = n := by
    intro a b ha hb
    rw [List.length_zipWith, ha, hb, Nat.min_self]
  refine ⟨?_, ?_, ?_, ?_, ?_, ?_⟩
  · obtain ⟨r, hr, hrl, hrc⟩ := cellwise_rel (fun a b => some (union_cell a b))
      (fun _ a b c => IsCode c ∧
        ∀ p : Int, (p = 0 ∨ p = 1) → (codeHas c p ↔ (codeHas a p ∨ codeHas b p)))
      n x y hx.1 hy.1
      (fun m a b ha hb =>
        ⟨_, rfl, union_cell_exact a b (codes_of_getElem? hx ha) (codes_of_getElem? hy hb)⟩)
    refine ⟨r, hr, ⟨hrl, ?_⟩, ?_⟩
    · intro v hv
      obtain ⟨m, hm⟩ := List.mem_iff_getElem?.mp hv
      obtain ⟨a, b, c, _, _, hc, hR, _⟩ :=
        (hrc m).1 (by rw [← hrl]; exact lt_of_getElem?_some hm)
      rw [hm] at hc
      rw [Option.some.inj hc]
      exact hR
    · intro m hm
      obtain ⟨a, b, c, ha, hb, hc, _, hR⟩ := (hrc m).1 hm
      exact ⟨a, b, c, ha, hb, hc, hR⟩
  · rw [union_op_eq n x y hx.1 hy.1, union_op_eq n y x hy.1 hx.1,
      zipWith_swap union_cell union_cell_comm]
  · rw [union_op_eq n x y hx.1 hy.1, union_op_eq n y z hy.1 hz.1, Option.some_bind,
      Option.some_bind, union_op_eq n _ z (hlen x y hx.1 hy.1) hz.1,
      union_op_eq n x _ hx.1 (hlen y z hy.1 hz.1), zipWith_assoc union_cell union_cell_assoc]
  · rw [union_op_eq n x x hx.1 hx.1, zipWith_self union_cell union_cell_idem]
  · rw [union_op_eq n x _ hx.1 (List.length_replicate _ _)]
    have := zipWith_replicate_right union_cell 2 union_cell_two_right x
    rw [hx.1] at this
    rw [this]
  · rw [union_op_eq n _ x (List.length_replicate _ _) hx.1,
      zipWith_swap union_cell union_cell_comm]
    have := zipWith_replicate_right union_cell 2 union_cell_two_right x
    rw [hx.1] at this
    rw [this]

/-- C22, witness: three arrays of four cells that hold every code. -/
theorem union_op_exact_witness :
    Codes 4 [0, 1, 2, 3] ∧ Codes 4 [3, 0, 1, 2] ∧ Codes 4 [1, 1, 2, 0] ∧
    (∃ r, union_op 4 [0, 1, 2, 3] [3, 0, 1, 2] = some r ∧ Codes 4 r ∧
      ∀ m : Nat, m < 4 → ∃ a b c, [0, 1, 2, (3 : Int)][m]? = some a ∧
        [3, 0, 1, (2 : Int)][m]? = some b ∧ r[m]? = some c ∧
        ∀ p : Int, (p = 0 ∨ p = 1) → (codeHas c p ↔ (codeHas a p ∨ codeHas b p))) ∧
    union_op 4 [0, 1, 2, 3] [3, 0, 1, 2] = union_op 4 [3, 0, 1, 2] [0, 1, 2, 3] ∧
    (union_op 4 [0, 1, 2, 3] [3, 0, 1, 2]).bind (fun r => union_op 4 r [1, 1, 2, 0]) =
      (union_op 4 [3, 0, 1, 2] [1, 1, 2, 0]).bind (fun r => union_op 4 [0, 1, 2, 3] r) ∧
    union_op 4 [0, 1, 2, 3] [0, 1, 2, 3] = some [0, 1, 2, 3] ∧
    union_op 4 [0, 1, 2, 3] (List.replicate 4 2) = some [0, 1, 2, 3] ∧
    union_op 4 (List.replicate 4 2) [0, 1, 2, 3] = some [0, 1, 2, 3] :=
  ⟨by decide, by decide, by decide,
    union_op_exact 4 [0, 1, 2, 3] [3, 0, 1, 2] [1, 1, 2, 0] (by decide) (by decide)
      (by decide)⟩

/-! ### C21: the table of `intersaction_op` -/

/-- What a returned array tells about the loop: every cell was assigned. -/
theorem cellwise_some (f : Int → Int → Option Int) : ∀ (n : Nat) (x y z : List Int),
    cellwise f n x y = some z →
    z.length = n ∧ ∀ m : Nat, m < n → ∃ a b c, x[m]? = some a ∧ y[m]? = some b ∧
      f a b = some c ∧ z[m]? = some c := by
  intro n
  induction n with
  | zero =>
    intro x y z h
    have : z = [] := (Option.some.inj h).symm
    subst this
    exact ⟨rfl, fun m hm => absurd hm (Nat.not_lt_zero m)⟩
  | succ n ih =>
    intro x y z h
    cases x with
    | nil => simp [cellwise] at h
    | cons a x =>
      cases y with
      | nil => simp [cellwise] at h
      | cons b y =>
        cases hf : f a b with
        | none => simp [cellwise, hf] at h
        | some c =>
          cases hr : cellwise f n x y with
          | none => simp [cellwise, hf, hr] at h
          | some z' =>
            simp only [cellwise, hf, hr, Option.map_some', Option.some.injEq] at h
            subst h
            obtain ⟨hl, hc⟩ := ih x y z' hr
            refine ⟨by simp [hl], ?_⟩
            intro m hm
            cases m with
            | zero => exact ⟨a, b, c, by simp, by simp, hf, by simp⟩
            | succ m =>
              obtain ⟨a', b', c', h1, h2, h3, h4⟩ := hc m (by omega)
              exact ⟨a', b', c', by simpa using h1, by simpa using h2, h3, by simpa using h4⟩

/-- The loop fails exactly when some cell is left unassigned. -/
theorem cellwise_none (f : Int → Int → Option Int) (n : Nat) (x y : List Int)
    (hx : x.length = n) (hy : y.length = n) :
    cellwise f n x y = none ↔
      ∃ (m : Nat) (a b : Int), x[m]? = some a ∧ y[m]? = some b ∧ f a b = none := by
  constructor
  · intro h
    by_contra hno
    push_neg at hno
    obtain ⟨z, hz, _⟩ := cellwise_spec f n x y hx hy (fun m a b ha hb => by
      cases hf : f a b with
      | none => exact absurd hf (hno m a b ha hb)
      | some c => exact ⟨c, rfl⟩)
    rw [h] at hz
    exact Option.noConfusion hz
  · rintro ⟨m, a, b, ha, hb, hf⟩
    cases h : cellwise f n x y with
    | none => rfl
    | some z =>
      obtain ⟨_, hc⟩ := cellwise_some f n x y z h
      obtain ⟨a', b', c, ha', hb', hf', _⟩ := hc m (by rw [← hx]; exact lt_of_getElem?_some ha)
      rw [ha] at ha'
      rw [hb] at hb'
      rw [← Option.some.inj ha', ← Option.some.inj hb', hf] at hf'
      exact Option.noConfusion hf'

/-- The table of `intersaction_op` on codes: the three pairs without an
assignment, and the code of the intersection for the others. -/
theorem intersaction_cell_table (a b : Int) (ha : IsCode a) (hb : IsCode b) :
    (Unassigned a b ∧ intersaction_cell a b = none) ∨
    (¬ Unassigned a b ∧ ∃ c, intersaction_cell a b = some c ∧ IsCode c ∧
      ∀ p : Int, (p = 0 ∨ p = 1) → (codeHas c p ↔ (codeHas a p ∧ codeHas b p))) := by
  rcases ha with rfl | rfl | rfl | rfl <;> rcases hb with rfl | rfl | rfl | rfl <;>
    first
    | exact Or.inl ⟨by decide, rfl⟩
    | exact Or.inr ⟨by decide, _, rfl, by decide,
        fun p hp => by rcases hp with rfl | rfl <;> decide⟩

/-- C21: for all arrays `x`, `y` of `n` cells over the alphabet {0, 1, 2, 3},
a pair of cells is left without a result by `intersaction_op` exactly when
it is (0, 3), (0, 1) or (1, 0), and for every other pair the result is the
code of the intersection of the two sets; the call fails exactly when some
cell pair is one of the three, and a returned array is over the alphabet
and is cell by cell the intersection. The operation is not commutative:
the pair (3, 0) yields 0 and the pair (0, 3) yields nothing. -/
theorem intersaction_op_drops (n : Nat) (x y : List Int) (hx : Codes n x) (hy : Codes n y) :
    (∀ (m : Nat) (a b : Int), x[m]? = some a → y[m]? = some b →
      (intersaction_cell a b = none ↔ Unassigned a b) ∧
      ∀ c : Int, intersaction_cell a b = some c → IsCode c ∧
        ∀ p : Int, (p = 0 ∨ p = 1) → (codeHas c p ↔ (codeHas a p ∧ codeHas b p))) ∧
    (intersaction_op n x y = none ↔
      ∃ (m : Nat) (a b : Int), x[m]? = some a ∧ y[m]? = some b ∧ Unassigned a b) ∧
    (∀ r : List Int, intersaction_op n x y = some r → Codes n r ∧
      ∀ m : Nat, m < n → ∃ a b c, x[m]? = some a ∧ y[m]? = some b ∧ r[m]? = some c ∧
        ∀ p : Int, (p = 0 ∨ p = 1) → (codeHas c p ↔ (codeHas a p ∧ codeHas b p))) ∧
    intersaction_cell 3 0 = some 0 ∧ intersaction_cell 0 3 = none ∧
    intersaction_op 1 [3] [0] = some [0] ∧ intersaction_op 1 [0] [3] = none := by
  have hcell : ∀ (m : Nat) (a b : Int), x[m]? = some a → y[m]? = some b →
      (intersaction_cell a b = none ↔ Unassigned a b) ∧
      ∀ c : Int, intersaction_cell a b = some c → IsCode c ∧
        ∀ p : Int, (p = 0 ∨ p = 1) → (codeHas c p ↔ (codeHas a p ∧ codeHas b p)) := by
    intro m a b ha hb
    rcases intersaction_cell_table a b (codes_of_getElem? hx ha) (codes_of_getElem? hy hb)
      with ⟨hu, hn⟩ | ⟨hu, c, hc, hcode, hset⟩
    · refine ⟨⟨fun _ => hu, fun _ => hn⟩, ?_⟩
      intro c hc
      rw [hn] at hc
      exact Option.noConfusion hc
    · refine ⟨⟨fun h => ?_, fun h => absurd h hu⟩, ?_⟩
      · rw [hc] at h
        exact Option.noConfusion h
      · intro c' hc'
        rw [hc] at hc'
        rw [← Option.some.inj hc']
        exact ⟨hcode, hset⟩
  refine ⟨hcell, ?_, ?_, rfl, rfl, rfl, rfl⟩
  · rw [intersaction_op, cellwise_none intersaction_cell n x y hx.1 hy.1]
    constructor
    · rintro ⟨m, a, b, ha, hb, hf⟩
      exact ⟨m, a, b, ha, hb, (hcell m a b ha hb).1.mp hf⟩
    · rintro ⟨m, a, b, ha, hb, hu⟩
      exact ⟨m, a, b, ha, hb, (hcell m a b ha hb).1.mpr hu⟩
  · intro r hr
    obtain ⟨hl, hc⟩ := cellwise_some intersaction_cell n x y r hr
    refine ⟨⟨hl, ?_⟩, ?_⟩
    · intro v hv
      obtain ⟨m, hm⟩ := List.mem_iff_getElem?.mp hv
      obtain ⟨a, b, c, ha, hb, hf, hz⟩ := hc m (by rw [← hl]; exact lt_of_getElem?_some hm)
      rw [hm] at hz
      rw [Option.some.inj hz]
      exact ((hcell m a b ha hb).2 c hf).1
    · intro m hm
      obtain ⟨a, b, c, ha, hb, hf, hz⟩ := hc m hm
      exact ⟨a, b, c, ha, hb, hz, ((hcell m a b ha hb).2 c hf).2⟩

/-- C21, witness: the arrays [3, 2, 1] and [0, 3, 1]. -/
theorem intersaction_op_drops_witness :
    Codes 3 [3, 2, 1] ∧ Codes 3 [0, 3, 1] ∧
    (∀ (m : Nat) (a b : Int), [3, 2, (1 : Int)][m]? = some a → [0, 3, (1 : Int)][m]? = some b →
      (intersaction_cell a b = none ↔ Unassigned a b) ∧
      ∀ c : Int, intersaction_cell a b = some c → IsCode c ∧
        ∀ p : Int, (p = 0 ∨ p = 1) → (codeHas c p ↔ (codeHas a p ∧ codeHas b p))) ∧
    (intersaction_op 3 [3, 2, 1] [0, 3, 1] = none ↔
      ∃ (m : Nat) (a b : Int), [3, 2, (1 : Int)][m]? = some a ∧
        [0, 3, (1 : Int)][m]? = some b ∧ Unassigned a b) ∧
    (∀ r : List Int, intersaction_op 3 [3, 2, 1] [0, 3, 1] = some r → Codes 3 r ∧
      ∀ m : Nat, m < 3 → ∃ a b c, [3, 2, (1 : Int)][m]? = some a ∧
        [0, 3, (1 : Int)][m]? = some b ∧ r[m]? = some c ∧
        ∀ p : Int, (p = 0 ∨ p = 1) → (codeHas c p ↔ (codeHas a p ∧ codeHas b p))) ∧
    intersaction_cell 3 0 = some 0 ∧ intersaction_cell 0 3 = none ∧
    intersaction_op 1 [3] [0] = some [0] ∧ intersaction_op 1 [0] [3] = none :=
  ⟨by decide, by decide, intersaction_op_drops 3 [3, 2, 1] [0, 3, 1] (by decide) (by decide)⟩

/-! ### C23: the alphabet of the stored lists -/

/-- C23: on every levelized well-formed netlist, after fault-free and
deductive fault simulation every line has the value 0 or 1, every fault
list has `Nnodes` cells, and every cell `L(x)[j]` is 2 or `1 - value(j)`: no
cell is 3 and no cell is the value of the line `j`, so no list holds the
fault that sticks a line at its own fault-free value. -/
theorem alphabet_invariant (c : Circuit) (hw : WellFormed c) (hl : Levelized c) :
    ∃ c1 c2, fault_free_simulation c = some c1 ∧ deductive_fault_simulation c1 = some c2 ∧
      (∀ j : Nat, j < c2.Node.length → valueOf c2.Node j = 0 ∨ valueOf c2.Node j = 1) ∧
      ∀ (x : Nat) (np : NSTRUC), c2.Node[x]? = some np →
        np.L.length = c2.Node.length ∧
        ∀ (j : Nat) (v : Int), np.L[j]? = some v →
          (v = 2 ∨ v = 1 - valueOf c2.Node j) ∧ v ≠ 3 ∧ v ≠ valueOf c2.Node j ∧
          ¬ inFaults c2.Node x j (valueOf c2.Node j) := by
  obtain ⟨c2, hsim⟩ := simulate_spec c hw hl
  obtain ⟨c1, h1, h2, _⟩ := hsim.runs
  have hbool : ∀ j : Nat, j < c2.Node.length →
      valueOf c2.Node j = 0 ∨ valueOf c2.Node j = 1 := by
    intro j hj
    obtain ⟨nj, hnj, _⟩ := getElem?_of_lt c2.Node j hj
    rw [valueOf_of hnj]
    exact (hsim.values j nj hnj).1
  refine ⟨c1, c2, h1, h2, hbool, ?_⟩
  intro x np hnp
  obtain ⟨hlen, hcells⟩ := (hsim.lists x np hnp).1
  refine ⟨hlen, ?_⟩
  intro j v hv
  have hj : j < c2.Node.length := by rw [← hlen]; exact lt_of_getElem?_some hv
  have hb := hbool j hj
  have hcell := hcells j v hv
  rw [lnot_bool _ hb] at hcell
  have h3 : v ≠ 3 := by rcases hcell with h | h <;> rcases hb with hb | hb <;> omega
  have hval : v ≠ valueOf c2.Node j := by
    rcases hcell with h | h <;> rcases hb with hb | hb <;> omega
  refine ⟨hcell, h3, hval, ?_⟩
  rw [inFaults_of hnp]
  rintro (h | h)
  · rw [hv] at h
    exact hval (Option.some.inj h)
  · rw [hv] at h
    exact h3 (Option.some.inj h)

/-- C23, witness: the levelized benchmark c17. -/
theorem alphabet_invariant_witness :
    WellFormed c17Levelized ∧ Levelized c17Levelized ∧
    ∃ c1 c2, fault_free_simulation c17Levelized = some c1 ∧
      deductive_fault_simulation c1 = some c2 ∧
      (∀ j : Nat, j < c2.Node.length → valueOf c2.Node j = 0 ∨ valueOf c2.Node j = 1) ∧
      ∀ (x : Nat) (np : NSTRUC), c2.Node[x]? = some np →
        np.L.length = c2.Node.length ∧
        ∀ (j : Nat) (v : Int), np.L[j]? = some v →
          (v = 2 ∨ v = 1 - valueOf c2.Node j) ∧ v ≠ 3 ∧ v ≠ valueOf c2.Node j ∧
          ¬ inFaults c2.Node x j (valueOf c2.Node j) :=
  ⟨by decide, by decide, alphabet_invariant c17Levelized (by decide) (by decide)⟩

/-! ### C24: the calls of `intersaction_op` -/

/-- A loop that returns has run every iteration. -/
theorem forLoop_some_prefix {σ : Type} (body : Nat → σ → Option σ) (s : σ) :
    ∀ (n : Nat) (t : σ), forLoop body n s = some t →
      ∀ k : Nat, k < n → ∃ t' t'', forLoop body k s = some t' ∧ body k t' = some t'' := by
  intro n
  induction n with
  | zero => intro t _ k hk; exact absurd hk (Nat.not_lt_zero k)
  | succ n ih =>
    intro t h k hk
    have h' : (forLoop body n s).bind (body n) = some t := h
    cases hn : forLoop body n s with
    | none => rw [hn] at h'; exact Option.noConfusion h'
    | some tn =>
      rw [hn] at h'
      rcases Nat.lt_succ_iff_lt_or_eq.mp hk with hlt | rfl
      · exact ih tn hn k hlt
      · exact ⟨tn, t, hn, h'⟩

/-- A property that every iteration keeps holds when the loop returns. -/
theorem forLoop_some_inv {σ : Type} (body : Nat → σ → Option σ) (P : σ → Prop) (s : σ)
    (h0 : P s) (hstep : ∀ (i : Nat) (t t' : σ), P t → body i t = some t' → P t') :
    ∀ (n : Nat) (t : σ), forLoop body n s = some t → P t := by
  intro n
  induction n with
  | zero =>
    intro t h
    have : s = t := Option.some.inj h
    rw [← this]
    exact h0
  | succ n ih =>
    intro t h
    have h' : (forLoop body n s).bind (body n) = some t := h
    cases hn : forLoop body n s with
    | none => rw [hn] at h'; exact Option.noConfusion h'
    | some tn =>
      rw [hn] at h'
      exact hstep n tn t (ih tn hn) h'

theorem dfs_visit_length {i : Int} {j : Nat} {Nd Nd' : List NSTRUC}
    (h : dfs_visit i j Nd = some Nd') : Nd'.length = Nd.length := by
  unfold dfs_visit at h
  cases hj : Nd[j]? with
  | none => rw [hj] at h; exact Option.noConfusion h
  | some np =>
    rw [hj] at h
    simp only at h
    by_cases hl : np.level = i
    · rw [if_pos hl] at h
      simp only [fault_list_propogate, hj] at h
      cases hp : propagate_list Nd np with
      | none => rw [hp] at h; exact Option.noConfusion h
      | some L =>
        rw [hp] at h
        rw [← Option.some.inj h]
        exact List.length_set _ _ _
    · rw [if_neg hl] at h
      rw [← Option.some.inj h]

theorem dfs_sweep_length {i : Int} {Nd : List NSTRUC} :
    ∀ (j : Nat) (Nd' : List NSTRUC), forLoop (dfs_visit i) j Nd = some Nd' →
      Nd'.length = Nd.length :=
  forLoop_some_inv (dfs_visit i) (fun t => t.length = Nd.length) Nd rfl
    (fun _ _ _ ht h => (dfs_visit_length h).trans ht)

theorem dfs_levels_length {Nd : List NSTRUC} :
    ∀ (i : Nat) (Nd' : List NSTRUC), forLoop dfs_level i Nd = some Nd' →
      Nd'.length = Nd.length :=
  forLoop_some_inv dfs_level (fun t => t.length = Nd.length) Nd rfl
    (fun _ t _ ht h => (dfs_sweep_length t.length _ h).trans ht)

theorem unassigned_none {a b : Int} (h : Unassigned a b) : intersaction_cell a b = none := by
  rcases h with ⟨rfl, rfl⟩ | ⟨rfl, rfl⟩ | ⟨rfl, rfl⟩ <;> rfl

/-- A call of `intersaction_op` that returns was made on assigned pairs. -/
theorem callAssigned_of_some {n : Nat} {x y z : List Int}
    (h : intersaction_op n x y = some z) : CallAssigned n x y := by
  intro m hm
  obtain ⟨a, b, c, ha, hb, hf, _⟩ := (cellwise_some intersaction_cell n x y z h).2 m hm
  refine ⟨a, b, c, ha, hb, ?_, hf⟩
  intro hu
  rw [unassigned_none hu] at hf
  exact Option.noConfusion hf

/-- A fanin loop that returns has reached every fanin, and the call of
`intersaction_op` made for a fanin at the controlling value has returned. -/
theorem split_fanins_prefix (n : Nat) (Node : List NSTRUC) (ctrl : Int) :
    ∀ (pre : List Nat) (u : Nat) (post : List Nat) (A B : List Int) (r : List Int × List Int),
      split_fanins n Node ctrl (pre ++ u :: post) A B = some r →
      ∃ (un : NSTRUC) (L1 L2 : List Int), Node[u]? = some un ∧
        split_fanins n Node ctrl pre A B = some (L1, L2) ∧
        (un.node_value = ctrl → ∃ z, intersaction_op n L1 un.L = some z) := by
  intro pre
  induction pre with
  | nil =>
    intro u post A B r h
    simp only [List.nil_append, split_fanins] at h
    cases hu : Node[u]? with
    | none => rw [hu] at h; exact Option.noConfusion h
    | some un =>
      rw [hu] at h
      simp only at h
      refine ⟨un, A, B, rfl, rfl, ?_⟩
      intro hc
      rw [if_pos hc] at h
      cases hz : intersaction_op n A un.L with
      | none => rw [hz] at h; exact Option.noConfusion h
      | some z => exact ⟨z, rfl⟩
  | cons v pre ih =>
    intro u post A B r h
    simp only [List.cons_append, split_fanins] at h ⊢
    cases hv : Node[v]? with
    | none => rw [hv] at h; exact Option.noConfusion h
    | some vn =>
      rw [hv] at h
      simp only at h ⊢
      by_cases hc : vn.node_value = ctrl
      · rw [if_pos hc] at h ⊢
        cases hz : intersaction_op n A vn.L with
        | none => rw [hz] at h; exact Option.noConfusion h
        | some z =>
          rw [hz] at h
          exact ih u post z B r h
      · rw [if_neg hc] at h ⊢
        cases hz : union_op n B vn.L with
        | none => rw [hz] at h; exact Option.noConfusion h
        | some z =>
          rw [hz] at h
          exact ih u post A z r h

/-- In a state in which `fault_list_propogate` returns for a gate whose
output is not at the value `free`, every fanin of the gate is reached by the
fanin loop, and the call of `intersaction_op` made for a fanin at the
controlling value is made on assigned pairs. -/
theorem gate_calls_assigned (Nd : List NSTRUC) (np : NSTRUC) (L : List Int)
    (hp : propagate_list Nd np = some L) (free ctrl : Int)
    (hcase : GateCase np.type free ctrl) (hfree : np.node_value ≠ free)
    (pre : List Nat) (u : Nat) (post : List Nat) (hun : np.unodes = pre ++ u :: post) :
    ∃ (un : NSTRUC) (L1 L2 : List Int), Nd[u]? = some un ∧
      split_fanins Nd.length Nd ctrl pre (List.replicate Nd.length 3)
        (List.replicate Nd.length 2) = some (L1, L2) ∧
      (un.node_value = ctrl → CallAssigned Nd.length L1 un.L) := by
  rw [propagate_gate Nd np free ctrl hcase] at hp
  cases hg : gate_list Nd.length Nd np free ctrl with
  | none => rw [hg] at hp; exact Option.noConfusion hp
  | some G =>
    simp only [gate_list, if_neg hfree] at hg
    cases hs : split_fanins Nd.length Nd ctrl np.unodes (List.replicate Nd.length 3)
        (List.replicate Nd.length 2) with
    | none => rw [hs] at hg; exact Option.noConfusion hg
    | some r =>
      rw [hun] at hs
      obtain ⟨un, L1, L2, h1, h2, h3⟩ := split_fanins_prefix Nd.length Nd ctrl pre u post _ _ r hs
      refine ⟨un, L1, L2, h1, h2, ?_⟩
      intro hc
      obtain ⟨z, hz⟩ := h3 hc
      exact callAssigned_of_some hz

/-- C24: on every levelized well-formed netlist fault-free simulation and
then deductive fault simulation return, and in the latter every visit of a
line `j` in the sweep of a level `i` starts in a state `Nd` in which, when
the line is at that level and is a gate whose output is not at the value
`free` (the only place where `intersaction_op` is called), the fanin loop
reaches every fanin `u` with accumulators `L1`, `L2`, and when `u` is at the
controlling value the call `intersaction_op(L1, L(u))` is made on arrays
whose every pair of cells is none of (0, 3), (0, 1), (1, 0) and is assigned a
result. -/
theorem intersection_calls_assigned (c : Circuit) (hw : WellFormed c) (hl : Levelized c) :
    ∃ c1 c2, fault_free_simulation c = some c1 ∧ deductive_fault_simulation c1 = some c2 ∧
      ∀ i j : Nat, i < (c1.Maxlevel + 1).toNat → j < c1.Node.length →
        ∃ (Nd : List NSTRUC) (np : NSTRUC), dfs_before c1 i j = some Nd ∧
          Nd.length = c1.Node.length ∧ Nd[j]? = some np ∧
          (np.level = (i : Int) → ∀ free ctrl : Int, GateCase np.type free ctrl →
            np.node_value ≠ free →
            ∀ (pre : List Nat) (u : Nat) (post : List Nat), np.unodes = pre ++ u :: post →
              ∃ (un : NSTRUC) (L1 L2 : List Int), Nd[u]? = some un ∧
                split_fanins Nd.length Nd ctrl pre (List.replicate Nd.length 3)
                  (List.replicate Nd.length 2) = some (L1, L2) ∧
                (un.node_value = ctrl → CallAssigned Nd.length L1 un.L)) := by
  obtain ⟨c2, hsim⟩ := simulate_spec c hw hl
  obtain ⟨c1, h1, h2, _⟩ := hsim.runs
  refine ⟨c1, c2, h1, h2, ?_⟩
  intro i j hi hj
  cases hrun : forLoop dfs_level (c1.Maxlevel + 1).toNat (dfs_init c1.Node) with
  | none => simp [deductive_fault_simulation, hrun] at h2
  | some Ndf =>
    obtain ⟨Ni, Ni', hNi, hlev⟩ := forLoop_some_prefix dfs_level _ _ Ndf hrun i hi
    have hlenNi : Ni.length = c1.Node.length := by
      rw [dfs_levels_length i Ni hNi]
      exact List.length_map _ _
    obtain ⟨Nd, Nd', hNd, hvis⟩ := forLoop_some_prefix (dfs_visit (i : Int)) Ni Ni.length Ni'
      hlev j (by rw [hlenNi]; exact hj)
    have hlenNd : Nd.length = c1.Node.length := (dfs_sweep_length j Nd hNd).trans hlenNi
    obtain ⟨np, hnp, _⟩ := getElem?_of_lt Nd j (by rw [hlenNd]; exact hj)
    refine ⟨Nd, np, ?_, hlenNd, hnp, ?_⟩
    · simp only [dfs_before, hNi, Option.some_bind]
      exact hNd
    · intro hlevel free ctrl hcase hfree pre u post hun
      simp only [dfs_visit, hnp, if_pos hlevel, fault_list_propogate] at hvis
      cases hp : propagate_list Nd np with
      | none => rw [hp] at hvis; exact Option.noConfusion hvis
      | some L => exact gate_calls_assigned Nd np L hp free ctrl hcase hfree pre u post hun

/-- C24, witness: the levelized benchmark c17. -/
theorem intersection_calls_assigned_witness :
    WellFormed c17Levelized ∧ Levelized c17Levelized ∧
    ∃ c1 c2, fault_free_simulation c17Levelized = some c1 ∧
      deductive_fault_simulation c1 = some c2 ∧
      ∀ i j : Nat, i < (c1.Maxlevel + 1).toNat → j < c1.Node.length →
        ∃ (Nd : List NSTRUC) (np : NSTRUC), dfs_before c1 i j = some Nd ∧
          Nd.length = c1.Node.length ∧ Nd[j]? = some np ∧
          (np.level = (i : Int) → ∀ free ctrl : Int, GateCase np.type free ctrl →
            np.node_value ≠ free →
            ∀ (pre : List Nat) (u : Nat) (post : List Nat), np.unodes = pre ++ u :: post →
              ∃ (un : NSTRUC) (L1 L2 : List Int), Nd[u]? = some un ∧
                split_fanins Nd.length Nd ctrl pre (List.replicate Nd.length 3)
                  (List.replicate Nd.length 2) = some (L1, L2) ∧
                (un.node_value = ctrl → CallAssigned Nd.length L1 un.L)) :=
  ⟨by decide, by decide, intersection_calls_assigned c17Levelized (by decide) (by decide)⟩

/-! ### C25: cone locality -/

/-- A cell of a stored list that is not 2 and is not the own cell of the
line comes from a cell of a fanin's list that is not 2. -/
theorem cone_step {c c2 : Circuit} (hsim : Simulated c c2) {x : Nat} {np : NSTRUC}
    (hnp : c2.Node[x]? = some np) {j : Nat} {v : Int} (hv : np.L[j]? = some v) (h2 : v ≠ 2)
    (hj : j ≠ x) :
    ∃ u ∈ np.unodes, ∃ (un : NSTRUC) (w : Int),
      c2.Node[u]? = some un ∧ un.L[j]? = some w ∧ w ≠ 2 := by
  have hindx := hsim.ok.indx x np hnp
  have heq := (hsim.lists x np hnp).2
  have hal := (hsim.lists x np hnp).1
  have hfan := hsim.fanin hnp
  have hrep : ∀ w : Int, (List.replicate c2.Node.length (2 : Int))[j]? = some w → w = 2 := by
    intro w hw
    exact List.eq_of_mem_replicate (List.getElem?_mem hw)
  have hlocal : set_cell (List.replicate c2.Node.length 2) np.indx (lnot np.node_value) =
      some np.L → False := by
    intro h
    obtain ⟨_, hL⟩ := set_cell_some h
    rw [hL, hindx, List.getElem?_set_ne (Ne.symm hj)] at hv
    exact h2 (hrep v hv)
  have hgate : (np.type = AND ∨ np.type = NAND ∨ np.type = OR ∨ np.type = NOR) →
      ∃ u ∈ np.unodes, ∃ (un : NSTRUC) (w : Int),
        c2.Node[u]? = some un ∧ un.L[j]? = some w ∧ w ≠ 2 := by
    intro ht
    have hcase := gateCase_of np.type ht
    have hrule := hsim.values x np hnp
    have hvbool : v = 0 ∨ v = 1 := by
      rcases hal.2 j v hv with h | h
      · exact absurd h h2
      · rw [h]; exact lnot_is_bool _
    have hmain := gate_faults c2.Node x np _ _ hcase hindx (lt_of_getElem?_some hnp)
      (valueOf_of hnp)
      (fun u hu => by
        obtain ⟨un, hun, ha, _⟩ := hfan u hu
        exact ⟨un, hun, ha⟩)
      heq
    have hhold : holdsAt np.L j v := Or.inl hv
    have key : ∀ u ∈ np.unodes, inFaults c2.Node u j v →
        ∃ u ∈ np.unodes, ∃ (un : NSTRUC) (w : Int),
          c2.Node[u]? = some un ∧ un.L[j]? = some w ∧ w ≠ 2 := by
      intro u hu hin
      obtain ⟨un, hun, _, _⟩ := hfan u hu
      rw [inFaults_of hun] at hin
      rcases hin with h | h
      · exact ⟨u, hu, un, v, hun, h, h2⟩
      · exact ⟨u, hu, un, 3, hun, h, by decide⟩
    by_cases hfree : np.node_value = freeValue np.type
    · rcases (hmain.1 hfree j v hvbool).mp hhold with ⟨u, hu, hin⟩ | ⟨hjx, _⟩
      · exact key u hu hin
      · exact absurd hjx hj
    · have hctrl : ∃ u ∈ np.unodes, valueOf c2.Node u = controlling np.type := by
        by_contra hno
        exact hfree ((gate_free_iff c2.Node np _ _ hcase hrule (fun u hu => by
          obtain ⟨_, _, _, hb⟩ := hfan u hu
          exact hb)).mpr hno)
      rcases (hmain.2 hfree hctrl j v hvbool).mp hhold with ⟨hall, _⟩ | ⟨hjx, _⟩
      · obtain ⟨u, hu, huc⟩ := hctrl
        exact key u hu (hall u hu huc)
      · exact absurd hjx hj
  have ht7 := hsim.ok.typeLe x np hnp
  have hcases : np.type = 0 ∨ np.type = 1 ∨ np.type = 2 ∨ np.type = 3 ∨ np.type = 4 ∨
      np.type = 5 ∨ np.type = 6 ∨ np.type = 7 := by omega
  rcases hcases with ht | ht | ht | ht | ht | ht | ht | ht
  · simp only [propagate_list, ht] at heq
    exact (hlocal heq).elim
  · obtain ⟨u, hu⟩ := List.length_eq_one.mp (hsim.ok.single x np hnp (Or.inl ht))
    have hmem : u ∈ np.unodes := by rw [hu]; exact List.mem_singleton.mpr rfl
    obtain ⟨un, hun, halu, _⟩ := hfan u hmem
    have htake : List.take c2.Node.length un.L ++
        List.drop c2.Node.length (List.replicate c2.Node.length (2 : Int)) = un.L := by
      rw [List.take_of_length_le (le_of_eq halu.1), List.drop_of_length_le (by simp)]
      simp
    simp only [propagate_list, ht, hu, List.getElem?_cons_zero, hun, halu.1,
      List.length_replicate, le_refl, and_self, if_true, htake] at heq
    obtain ⟨_, hL⟩ := set_cell_some heq
    rw [hL, hindx, List.getElem?_set_ne (Ne.symm hj)] at hv
    exact ⟨u, hmem, un, v, hun, hv, h2⟩
  · simp only [propagate_list, ht, Option.some.injEq] at heq
    rw [← heq] at hv
    exact absurd (hrep v hv) h2
  · exact hgate (Or.inr (Or.inr (Or.inl ht)))
  · exact hgate (Or.inr (Or.inr (Or.inr ht)))
  · simp only [propagate_list, ht] at heq
    exact (hlocal heq).elim
  · exact hgate (Or.inr (Or.inl ht))
  · exact hgate (Or.inl ht)

theorem netOK_ancestor_lower {Node : List NSTRUC} (ok : NetOK Node) {a b : Nat}
    (h : Relation.TransGen (IsFanin Node) a b) :
    ∀ nb : NSTRUC, Node[b]? = some nb →
      ∃ na : NSTRUC, Node[a]? = some na ∧ na.level < nb.level := by
  induction h with
  | single h =>
    intro nb hnb
    obtain ⟨np, hnp, hmem⟩ := h
    rw [hnb] at hnp
    have := Option.some.inj hnp
    subst this
    exact ok.lower _ nb hnb a hmem
  | tail _ hcb ih =>
    intro nb hnb
    obtain ⟨np, hnp, hmem⟩ := hcb
    rw [hnb] at hnp
    have := Option.some.inj hnp
    subst this
    obtain ⟨nc, hnc, hlt⟩ := ok.lower _ nb hnb _ hmem
    obtain ⟨na, hna, hlt'⟩ := ih nc hnc
    exact ⟨na, hna, lt_trans hlt' hlt⟩

theorem netOK_acyclic {Node : List NSTRUC} (ok : NetOK Node) : Acyclic Node := by
  intro x h
  have hx : x < Node.length := by
    cases h with
    | single h' =>
      obtain ⟨np, hnp, _⟩ := h'
      exact lt_of_getElem?_some hnp
    | tail _ h' =>
      obtain ⟨np, hnp, _⟩ := h'
      exact lt_of_getElem?_some hnp
  obtain ⟨nx, hnx, _⟩ := getElem?_of_lt Node x hx
  obtain ⟨na, hna, hlt⟩ := netOK_ancestor_lower ok h nx hnx
  rw [hnx] at hna
  rw [← Option.some.inj hna] at hlt
  exact lt_irrefl _ hlt

/-- Every cell that is not 2 lies in the cone of the line: by induction on a
bound of the level. -/
theorem cone_all {c c2 : Circuit} (hsim : Simulated c c2) :
    ∀ (n : Nat) (x : Nat) (np : NSTRUC), c2.Node[x]? = some np → np.level < (n : Int) →
      ∀ (j : Nat) (v : Int), np.L[j]? = some v → v ≠ 2 →
        j = x ∨ Relation.TransGen (IsFanin c2.Node) j x := by
  intro n
  induction n with
  | zero =>
    intro x np hnp hlev
    by_cases ht : np.type = IPT
    · have := hsim.ok.inputLevel x np hnp ht
      omega
    · have := hsim.ok.gateLevel x np hnp ht
      omega
  | succ n ih =>
    intro x np hnp hlev j v hv h2
    by_cases hj : j = x
    · exact Or.inl hj
    · obtain ⟨u, hu, un, w, hun, hw, hw2⟩ := cone_step hsim hnp hv h2 hj
      obtain ⟨un', hun', hlt⟩ := hsim.ok.lower x np hnp u hu
      rw [hun] at hun'
      have := Option.some.inj hun'
      subst this
      have hfan : IsFanin c2.Node u x := ⟨np, hnp, hu⟩
      rcases ih u un hun (by push_cast at hlev; omega) j w hw hw2 with h | h
      · rw [h]
        exact Or.inr (Relation.TransGen.single hfan)
      · exact Or.inr (h.tail hfan)

theorem isFanin_of_sameNet {Node Node' : List NSTRUC} (h : SameNet Node Node') {a b : Nat}
    (hab : IsFanin Node' a b) : IsFanin Node a b := by
  obtain ⟨np', hnp', hmem⟩ := hab
  obtain ⟨np, hnp, _, _, hun, _⟩ := h.back b np' hnp'
  exact ⟨np, hnp, by rw [← hun]; exact hmem⟩

/-- C25: on every levelized well-formed netlist, after fault-free and
deductive fault simulation a cell `L(x)[j]` differs from 2 only if `j` is
the index of `x` or the line `j` lies in the transitive fanin of `x`; the
cell of `x` is 2 in the list of every fanin of `x`, so no fanin's fault set
holds a fault of `x`, and the array that a gate case of
`fault_list_propogate` computes from the fanin lists holds 2 in the cell of
`x` before the local fault is written there. -/
theorem cone_locality (c : Circuit) (hw : WellFormed c) (hl : Levelized c) :
    ∃ c1 c2, fault_free_simulation c = some c1 ∧ deductive_fault_simulation c1 = some c2 ∧
      ∀ (x : Nat) (np : NSTRUC), c2.Node[x]? = some np →
        np.indx = x ∧
        (∀ (j : Nat) (v : Int), np.L[j]? = some v → v ≠ 2 →
          j = x ∨ Relation.TransGen (IsFanin c.Node) j x) ∧
        (∀ u ∈ np.unodes, ∃ un : NSTRUC, c2.Node[u]? = some un ∧ un.L[x]? = some 2 ∧
          ∀ p : Int, (p = 0 ∨ p = 1) → ¬ inFaults c2.Node u x p) ∧
        (∀ (free ctrl : Int) (G : List Int), GateCase np.type free ctrl →
          gate_list c2.Node.length c2.Node np free ctrl = some G → G[x]? = some 2) := by
  obtain ⟨c2, hsim⟩ := simulate_spec c hw hl
  obtain ⟨c1, h1, h2, _⟩ := hsim.runs
  refine ⟨c1, c2, h1, h2, ?_⟩
  intro x np hnp
  have hcone : ∀ (y : Nat) (ny : NSTRUC), c2.Node[y]? = some ny →
      ∀ (j : Nat) (v : Int), ny.L[j]? = some v → v ≠ 2 →
        j = y ∨ Relation.TransGen (IsFanin c2.Node) j y := by
    intro y ny hny
    have h0 : 0 ≤ ny.level := by
      by_cases ht : ny.type = IPT
      · rw [hsim.ok.inputLevel y ny hny ht]
      · have := hsim.ok.gateLevel y ny hny ht
        omega
    exact cone_all hsim (ny.level.toNat + 1) y ny hny (by push_cast; omega)
  have hx : x < c2.Node.length := lt_of_getElem?_some hnp
  have hfanin : ∀ u ∈ np.unodes, ∃ un : NSTRUC, c2.Node[u]? = some un ∧
      un.L[x]? = some 2 ∧ ∀ p : Int, (p = 0 ∨ p = 1) → ¬ inFaults c2.Node u x p := by
    intro u hu
    obtain ⟨un, hun, hal, _⟩ := hsim.fanin hnp u hu
    obtain ⟨w, hw, _⟩ := getElem?_of_lt un.L x (by rw [hal.1]; exact hx)
    have hfan : IsFanin c2.Node u x := ⟨np, hnp, hu⟩
    have hw2 : w = 2 := by
      by_contra hne
      rcases hcone u un hun x w hw hne with h | h
      · exact hsim.ok.not_self hnp (by rw [h]; exact hu)
      · exact netOK_acyclic hsim.ok x (h.tail hfan)
    rw [hw2] at hw
    refine ⟨un, hun, hw, ?_⟩
    intro p hp
    rw [inFaults_of hun]
    rintro (h | h)
    · rw [hw] at h
      have := Option.some.inj h
      rcases hp with rfl | rfl <;> exact absurd this (by decide)
    · rw [hw] at h
      exact absurd (Option.some.inj h) (by decide)
  refine ⟨hsim.ok.indx x np hnp, ?_, hfanin, ?_⟩
  · intro j v hv h2'
    rcases hcone x np hnp j v hv h2' with h | h
    · exact Or.inl h
    · exact Or.inr (Relation.TransGen.mono (fun _ _ hab => isFanin_of_sameNet hsim.same hab) h)
  · intro free ctrl G hcase hG
    have hfanA : ∀ u ∈ np.unodes, ∃ un : NSTRUC, c2.Node[u]? = some un ∧
        Alpha (valueOf c2.Node) c2.Node.length un.L := by
      intro u hu
      obtain ⟨un, hun, ha, _⟩ := hsim.fanin hnp u hu
      exact ⟨un, hun, ha⟩
    have hno : ∀ p : Int, (p = 0 ∨ p = 1) → ∀ u ∈ np.unodes, ¬ inFaults c2.Node u x p := by
      intro p hp u hu
      obtain ⟨_, _, _, h⟩ := hfanin u hu
      exact h p hp
    have hcell : ∀ (L : List Int), Alpha (valueOf c2.Node) c2.Node.length L →
        (∀ p : Int, (p = 0 ∨ p = 1) → ¬ holdsAt L x p) → L[x]? = some 2 := by
      intro L hL hnh
      obtain ⟨g, hg, _⟩ := getElem?_of_lt L x (by rw [hL.1]; exact hx)
      rcases hL.2 x g hg with h | h
      · rw [hg, h]
      · exact absurd (Or.inl hg) (hnh g (by rw [h]; exact lnot_is_bool _))
    by_cases hfree : np.node_value = free
    · obtain ⟨L, hL1, hL2, hL3⟩ := gate_list_ruleA (valueOf c2.Node) c2.Node.length c2.Node np
        free ctrl hfree hfanA
      rw [hL1] at hG
      rw [← Option.some.inj hG]
      refine hcell L hL2 (fun p hp hh => ?_)
      obtain ⟨u, hu, hin⟩ := (hL3 x p hp).mp hh
      exact hno p hp u hu hin
    · have hctrl : ∃ u ∈ np.unodes, valueOf c2.Node u = ctrl := by
        by_contra hnc
        exact hfree ((gate_free_iff c2.Node np free ctrl hcase (hsim.values x np hnp)
          (fun u hu => by
            obtain ⟨_, _, _, hb⟩ := hsim.fanin hnp u hu
            exact hb)).mpr hnc)
      obtain ⟨L, hL1, hL2, hL3⟩ := gate_list_ruleB (valueOf c2.Node) c2.Node.length c2.Node np
        free ctrl hfree hctrl hfanA
      rw [hL1] at hG
      rw [← Option.some.inj hG]
      refine hcell L hL2 (fun p hp hh => ?_)
      obtain ⟨u, hu, huc⟩ := hctrl
      exact hno p hp u hu (((hL3 x p hp).mp hh).1 u hu huc)

/-- C25, witness: the levelized benchmark c17. -/
theorem cone_locality_witness :
    WellFormed c17Levelized ∧ Levelized c17Levelized ∧
    ∃ c1 c2, fault_free_simulation c17Levelized = some c1 ∧
      deductive_fault_simulation c1 = some c2 ∧
      ∀ (x : Nat) (np : NSTRUC), c2.Node[x]? = some np →
        np.indx = x ∧
        (∀ (j : Nat) (v : Int), np.L[j]? = some v → v ≠ 2 →
          j = x ∨ Relation.TransGen (IsFanin c17Levelized.Node) j x) ∧
        (∀ u ∈ np.unodes, ∃ un : NSTRUC, c2.Node[u]? = some un ∧ un.L[x]? = some 2 ∧
          ∀ p : Int, (p = 0 ∨ p = 1) → ¬ inFaults c2.Node u x p) ∧
        (∀ (free ctrl : Int) (G : List Int), GateCase np.type free ctrl →
          gate_list c2.Node.length c2.Node np free ctrl = some G → G[x]? = some 2) :=
  ⟨by decide, by decide, cone_locality c17Levelized (by decide) (by decide)⟩

end FaultSim
